import Mathlib

/-!
Verification of the path-canonicalization library (realpath-ext).

The development shallowly embeds the library's Rust sources:
  * `slicevec.rs`  — the bounded byte-buffer view `SliceVec`
  * `util.rs`      — `ComponentIter`, `ComponentStack`, `SymlinkCounter`,
                     `getcwd`, `check_isdir`, slash-stripping helpers
  * `lib.rs`       — `normpath_raw` and `realpath_raw_inner`

Bytes are modelled as `Nat`, byte strings as `List Nat`, OS error numbers as
`Int` (Linux errno values), and fallible operations return `Except Int α`.
Filesystem interaction is modelled by a record of pure functions `Fs`
(readlink / stat / getcwd results), so the engine becomes a deterministic
function of the path, the buffers and the filesystem.
-/

namespace RealpathExt

/-- Byte value of the path separator `/`. -/
def slashB : Nat := 47

/-- Byte value of `.`. -/
def dotB : Nat := 46

/-- Byte value of NUL. -/
def nulB : Nat := 0

/-- errno `ENOENT` (no such file or directory), Linux value. -/
def ENOENT : Int := 2

/-- errno `EACCES` (permission denied), Linux value. -/
def EACCES : Int := 13

/-- errno `ENOTDIR` (not a directory), Linux value. -/
def ENOTDIR : Int := 20

/-- errno `EINVAL` (invalid argument), Linux value. -/
def EINVAL : Int := 22

/-- errno `ENAMETOOLONG` (file name too long), Linux value. -/
def ENAMETOOLONG : Int := 36

/-- errno `ELOOP` (too many levels of symbolic links), Linux value. -/
def ELOOP : Int := 40

instance exceptDecEq {ε α : Type} [DecidableEq ε] [DecidableEq α] :
    DecidableEq (Except ε α) := fun x y =>
  match x, y with
  | .ok a, .ok b =>
      if h : a = b then isTrue (by rw [h]) else isFalse (by simp [h])
  | .error a, .error b =>
      if h : a = b then isTrue (by rw [h]) else isFalse (by simp [h])
  | .ok _, .error _ => isFalse (by simp)
  | .error _, .ok _ => isFalse (by simp)

/-- Overwrite the bytes of `l` starting at index `i` with `s`, keeping the rest.
This is the effect of a Rust `copy_from_slice` into `l[i..i+s.len()]`. -/
def listWrite (l : List Nat) (i : Nat) (s : List Nat) : List Nat :=
  l.take i ++ s ++ l.drop (i + s.length)

/-- The byte-buffer view of `slicevec.rs`: a fixed underlying byte region
`buf` (whose length is the capacity) plus a logical length `len`.
The logical contents are the first `len` bytes of `buf`. -/
structure SliceVec where
  buf : List Nat
  len : Nat
deriving Repr, DecidableEq

namespace SliceVec

/-- Crate `SliceVec::empty`: a view of `b` with logical length 0. -/
def empty (b : List Nat) : SliceVec := ⟨b, 0⟩

/-- Crate `SliceVec::capacity`. -/
def capacity (v : SliceVec) : Nat := v.buf.length

/-- The logical contents `&self[..self.len]` of the buffer. -/
def data (v : SliceVec) : List Nat := v.buf.take v.len

/-- The invariant of the data model: logical length never exceeds capacity. -/
def Inv (v : SliceVec) : Prop := v.len ≤ v.capacity

instance (v : SliceVec) : Decidable v.Inv := by unfold Inv; infer_instance

/-- Crate `SliceVec::set_len`: sets the logical length without touching the
bytes.  (The source's `assert!` checks `self.len <= self.capacity()`, i.e. the
stale length, so no check of `new_len` is performed.) -/
def set_len (v : SliceVec) (n : Nat) : SliceVec := ⟨v.buf, n⟩

/-- Crate `SliceVec::truncate`. -/
def truncate (v : SliceVec) (n : Nat) : SliceVec := ⟨v.buf, min n v.len⟩

/-- Crate `SliceVec::clear`. -/
def clear (v : SliceVec) : SliceVec := ⟨v.buf, 0⟩

/-- Crate `SliceVec::push`: append one byte, or fail with `ENAMETOOLONG`
leaving the buffer untouched. -/
def push (v : SliceVec) (c : Nat) : Except Int SliceVec :=
  if v.len < v.capacity then .ok ⟨v.buf.set v.len c, v.len + 1⟩
  else .error ENAMETOOLONG

/-- Crate `SliceVec::pop`: drop the last logical byte (saturating). -/
def pop (v : SliceVec) : SliceVec := ⟨v.buf, v.len - 1⟩

/-- Crate `SliceVec::extend_from_slice`. -/
def extend_from_slice (v : SliceVec) (s : List Nat) : Except Int SliceVec :=
  if v.len + s.length ≤ v.capacity then
    .ok ⟨listWrite v.buf v.len s, v.len + s.length⟩
  else .error ENAMETOOLONG

/-- Crate `SliceVec::replace`: overwrite the whole contents. -/
def replace (v : SliceVec) (s : List Nat) : Except Int SliceVec :=
  if s.length ≤ v.capacity then .ok ⟨listWrite v.buf 0 s, s.length⟩
  else .error ENAMETOOLONG

/-- Crate `SliceVec::insert_from_slice`: insert `s` at offset `i`, shifting the
tail `[i, len)` up by `s.length` first (the source's `copy_within`). -/
def insert_from_slice (v : SliceVec) (i : Nat) (s : List Nat) :
    Except Int SliceVec :=
  if s.isEmpty then .ok v
  else if v.capacity < v.len + s.length then .error ENAMETOOLONG
  else
    let b1 := listWrite v.buf (i + s.length) ((v.buf.drop i).take (v.len - i))
    .ok ⟨listWrite b1 i s, v.len + s.length⟩

/-- Crate `SliceVec::remove_range` for the half-open range `[start, stop)`:
shift `[stop, len)` down to `start` and shorten accordingly. -/
def remove_range (v : SliceVec) (start stop : Nat) : SliceVec :=
  ⟨listWrite v.buf start ((v.buf.drop stop).take (v.len - stop)),
   v.len - (stop - start)⟩

/-- Index of the last occurrence of byte `c` in `l` (Rust `iter().rposition`,
which searches from the back). -/
def rposition : List Nat → Nat → Option Nat
  | [], _ => none
  | x :: xs, c =>
    match rposition xs c with
    | some j => some (j + 1)
    | none => if x = c then some 0 else none

/-- Crate `SliceVec::make_parent_path`: lexical parent of the held path. -/
def make_parent_path (v : SliceVec) : Except Int SliceVec :=
  if v.data.isEmpty then v.extend_from_slice [dotB, dotB]
  else if v.data = [dotB, dotB] ∨ [slashB, dotB, dotB].isSuffixOf v.data then
    v.extend_from_slice [slashB, dotB, dotB]
  else
    match rposition v.data slashB with
    | some 0 => .ok (v.truncate 1)
    | some 1 =>
        if v.data.head? = some slashB then .ok (v.truncate 2)
        else .ok (v.truncate 1)
    | some i => .ok (v.truncate i)
    | none => .ok v.clear

end SliceVec

/-- Crate `strip_leading_slashes` from `util.rs`. -/
def strip_leading_slashes : List Nat → List Nat
  | [] => []
  | c :: rest => if c = slashB then strip_leading_slashes rest else c :: rest

/-- Crate `strip_trailing_slashes` from `util.rs`.  The source peels slashes
off the high end with `split_last`; structurally we recurse from the front:
a byte is kept unless it is a slash followed only by slashes. -/
def strip_trailing_slashes : List Nat → List Nat
  | [] => []
  | c :: rest =>
      let r := strip_trailing_slashes rest
      if r.isEmpty ∧ c = slashB then [] else c :: r

/-- The C-string read from a buffer pointer: bytes up to the first NUL. -/
def cstr (l : List Nat) : List Nat := l.takeWhile (fun x => ¬ x = nulB)

namespace ComponentIter

/-- Crate `ComponentIter::new`: validate that the path is non-empty and
NUL-free; the iterator state is the remaining byte string. -/
def new (path : List Nat) : Except Int (List Nat) :=
  if path.isEmpty then .error ENOENT
  else if path.contains nulB then .error EINVAL
  else .ok path

/-- One call of `ComponentIter::next` (fuelled; the internal skip-`.` loop
strictly shrinks the state, so `s.length + 1` fuel always suffices).
Returns the yielded component (if any) and the state after the call —
the state can change even when `none` is yielded (a trailing `.`). -/
def nextF : Nat → List Nat → Option (List Nat) × List Nat
  | 0, s => (none, s)
  | fuel + 1, s =>
    match s with
    | [] => (none, [])
    | c :: path =>
      if c = slashB then
        let rest := strip_leading_slashes path
        if path.length - rest.length = 1 then (some [slashB, slashB], rest)
        else (some [slashB], rest)
      else
        match s.findIdx? (fun x => x = slashB) with
        | some idx =>
            let comp := s.take idx
            let rest := strip_leading_slashes (s.drop idx)
            if comp = [dotB] then nextF fuel rest else (some comp, rest)
        | none => if s = [dotB] then (none, []) else (some s, [])

/-- Crate `ComponentIter::next` on iterator state `s`. -/
def next (s : List Nat) : Option (List Nat) × List Nat := nextF (s.length + 1) s

end ComponentIter

/-- The full (finite) sequence of components yielded by repeatedly calling a
`next` function until it yields nothing (fuelled). -/
def compsF (next : List Nat → Option (List Nat) × List Nat) :
    Nat → List Nat → List (List Nat)
  | 0, _ => []
  | fuel + 1, s =>
    match next s with
    | (none, _) => []
    | (some c, rest) => c :: compsF next fuel rest

/-- All components yielded by a `ComponentIter` over `s`. -/
def iterComps (s : List Nat) : List (List Nat) :=
  compsF ComponentIter.next (s.length + 1) s

/-- The pending-component stack of `util.rs`: a fixed backing byte region and
a cursor `i`; the live contents are `region[i..]` (the stack grows downward). -/
structure Stack where
  region : List Nat
  i : Nat
deriving Repr, DecidableEq

namespace Stack

/-- Crate `ComponentStack::new`. -/
def new (b : List Nat) : Stack := ⟨b, b.length⟩

/-- Crate `ComponentStack::is_empty`. -/
def isEmpty (st : Stack) : Bool := st.i = st.region.length

/-- The live bytes `region[i..]` of the stack. -/
def content (st : Stack) : List Nat := st.region.drop st.i

/-- Crate `ComponentStack::push`: validate, strip trailing slashes (an
all-slash path becomes the 1- or 2-slash root by original length), write a NUL
separator below the current contents when the stack is non-empty, then prepend
the fragment; `ENAMETOOLONG` when it cannot fit (the cursor is restored, so the
live contents are unchanged).  (If the stack is non-empty and `i = 0` the
source indexes out of bounds; that case is also mapped to the capacity
error here and is unreachable from the states the claims use.) -/
def push (st : Stack) (path : List Nat) : Except Int Stack :=
  if path.isEmpty then .error ENOENT
  else if path.contains nulB then .error EINVAL
  else
    let p :=
      if strip_trailing_slashes path = [] then
        if path.length = 2 then [slashB, slashB] else [slashB]
      else strip_trailing_slashes path
    if st.i = st.region.length then
      if p.length ≤ st.i then
        .ok ⟨listWrite st.region (st.i - p.length) p, st.i - p.length⟩
      else .error ENAMETOOLONG
    else if st.i = 0 then .error ENAMETOOLONG
    else
      let r1 := st.region.set (st.i - 1) nulB
      if p.length ≤ st.i - 1 then
        .ok ⟨listWrite r1 (st.i - 1 - p.length) p, st.i - 1 - p.length⟩
      else .error ENAMETOOLONG

/-- Crate `ComponentStack::push_readlink`, with the `readlink` syscall's
outcome supplied as `res` (`.ok target` = the path is a symlink with that
target, `.error EINVAL` = exists but not a symlink, other errors passed
through).  The syscall is given `i` as the buffer limit, so a returned target
is truncated to at most `i` bytes; it scribbles into `region[0..len]`, and on
success the fragment plus a NUL separator is prepended above the cursor. -/
def pushReadlinkRes (st : Stack) (res : Except Int (List Nat)) :
    Except Int Stack :=
  if st.i = 0 then .error ENAMETOOLONG
  else
    match res with
    | .error e => .error e
    | .ok target =>
      let len := min target.length st.i
      if st.i - 1 ≤ len then .error ENAMETOOLONG
      else
        let r1 := listWrite st.region 0 (target.take len)
        let r2 := r1.set (st.i - 1) nulB
        .ok ⟨listWrite r2 (st.i - 1 - len) (target.take len), st.i - 1 - len⟩

/-- The slash-and-NUL skipping step of `ComponentStack::next`
(`skip_slashes_nul!`): strip leading slashes, then one NUL separator. -/
def skipSlashesNul (s : List Nat) : List Nat :=
  match strip_leading_slashes s with
  | c :: r => if c = nulB then r else c :: r
  | [] => []

/-- One call of `ComponentStack::next` on the live contents (fuelled; each
iteration of the source's loop strictly shrinks the contents).  Returns the
popped component (if any) and the remaining live contents. -/
def nextF : Nat → List Nat → Option (List Nat) × List Nat
  | 0, s => (none, s)
  | fuel + 1, s =>
    match s with
    | [] => (none, [])
    | c :: path =>
      if c = slashB then
        let rest := skipSlashesNul path
        if path.head? = some slashB ∧ (path.drop 1).head? ≠ some slashB then
          (some [slashB, slashB], rest)
        else (some [slashB], rest)
      else
        match s.findIdx? (fun x => x = slashB ∨ x = nulB) with
        | some idx =>
            let comp := s.take idx
            let rest := skipSlashesNul (s.drop idx)
            if comp = [] ∨ comp = [dotB] then nextF fuel rest
            else (some comp, rest)
        | none => if s = [dotB] then (none, []) else (some s, [])

/-- Crate `ComponentStack::next` on live contents `s`. -/
def nextC (s : List Nat) : Option (List Nat) × List Nat := nextF (s.length + 1) s

/-- Crate `ComponentStack::next` on the stack structure: the cursor advances
by the number of consumed bytes. -/
def next (st : Stack) : Option (List Nat) × Stack :=
  match nextC st.content with
  | (oc, rest) => (oc, ⟨st.region, st.i + (st.content.length - rest.length)⟩)

end Stack

/-- All components popped by repeatedly calling `ComponentStack::next` on live
contents `s` until it yields nothing. -/
def stackComps (s : List Nat) : List (List Nat) :=
  compsF Stack.nextC (s.length + 1) s

/-- Crate `SymlinkCounter::advance` with maximum `max` and current count
`cur`: `ELOOP` once the maximum is reached.  (`SymlinkCounter::new` queries
`sysconf(_SC_SYMLOOP_MAX)` with a fallback of 40; the queried value is the
`symloopMax` field of the filesystem model.) -/
def advanceLinks (max cur : Nat) : Except Int Nat :=
  if max ≤ cur then .error ELOOP else .ok (cur + 1)

/-- The filesystem/OS oracle: results of the syscalls the engine performs.
`readlink p = .ok t` means `p` names a symlink with target `t` (readlink
errors `EINVAL` on a non-symlink existing path); `stat p = .ok b` means `p`
exists and `b` tells whether it is a directory; `cwd` is what `getcwd`
reports; `symloopMax` is the OS symlink-loop limit. -/
structure Fs where
  readlink : List Nat → Except Int (List Nat)
  stat : List Nat → Except Int Bool
  cwd : List Nat
  symloopMax : Nat

/-- Crate `check_isdir` from `util.rs`: stat the path, then require a
directory (`ENOTDIR` otherwise). -/
def check_isdir (fs : Fs) (path : List Nat) : Except Int Unit :=
  match fs.stat path with
  | .error e => .error e
  | .ok isdir => if isdir then .ok () else .error ENOTDIR

/-- Crate `readlink_empty` from `util.rs`: a zero-length `readlink` probe;
succeeds exactly when `readlink` does not error. -/
def readlink_empty (fs : Fs) (path : List Nat) : Except Int Unit :=
  match fs.readlink path with
  | .error e => .error e
  | .ok _ => .ok ()

/-- Crate `getcwd` from `util.rs`: write the current directory (NUL
terminated) into the buffer from offset 0; `ENAMETOOLONG` when the capacity
cannot hold it (the source folds `EINVAL`/`ERANGE` into `ENAMETOOLONG`),
`ENOENT` when the result does not start with `/`; on success the logical
length is set to the first NUL's index. -/
def getcwdInto (fs : Fs) (v : SliceVec) : Except Int SliceVec :=
  if v.capacity < fs.cwd.length + 1 then .error ENAMETOOLONG
  else
    let b := listWrite v.buf 0 (fs.cwd ++ [nulB])
    if b.head? ≠ some slashB then .error ENOENT
    else .ok ⟨b, b.findIdx (fun x => x = nulB)⟩

/-- The `RealpathFlags` bitset of `lib.rs` as three booleans. -/
structure Flags where
  allowMissing : Bool
  allowLastMissing : Bool
  ignoreSymlinks : Bool
deriving Repr, DecidableEq

/-- The empty flag set (`RealpathFlags::empty()`). -/
def Flags.empty : Flags := ⟨false, false, false⟩

/-- Modelled from the spec: `ComponentIter`'s is-exhausted query.  `lib.rs`
calls `path_it.is_empty()` but the method's body is absent from the sources
given; the spec says the decomposer "Exposes an \x22is exhausted\x22 query
without consuming", modelled as: the remaining input bytes are empty. -/
def iterIsEmpty (s : List Nat) : Bool := s.isEmpty

/-- The drain loop of `realpath_raw_inner` (fuelled; the symlink counter
bounds the stack growth, so the fuel computed by `realpathRawInner` always
suffices).  State: pending-component stack, `ComponentIter` state, output
buffer, symlink counter.  Returns the buffer and the stack at loop exit. -/
def rpLoopF (fs : Fs) (flags : Flags) :
    Nat → Stack → List Nat → SliceVec → Nat → Except Int (SliceVec × Stack)
  | 0, _, _, _, _ => .error (-1)
  | fuel + 1, stack0, it0, buf, links =>
    let next3 : Option (List Nat) × Stack × List Nat :=
      match Stack.next stack0 with
      | (some c, st) => (some c, st, it0)
      | (none, st) =>
        match ComponentIter.next it0 with
        | (oc, it) => (oc, st, it)
    match next3 with
    | (none, stack, _) => .ok (buf, stack)
    | (some c, stack, it) =>
      if c = [slashB] ∨ c = [slashB, slashB] then
        match buf.replace c with
        | .error e => .error e
        | .ok buf => rpLoopF fs flags fuel stack it buf links
      else if c = [dotB, dotB] then
        match buf.make_parent_path with
        | .error e => .error e
        | .ok buf => rpLoopF fs flags fuel stack it buf links
      else
        let oldlen := buf.len
        let sep : Except Int SliceVec :=
          if buf.data = [slashB] ∨ buf.data = [slashB, slashB] ∨ buf.data = []
          then .ok buf else buf.push slashB
        match sep with
        | .error e => .error e
        | .ok buf =>
          match buf.extend_from_slice c with
          | .error e => .error e
          | .ok buf =>
            match buf.push nulB with
            | .error e => .error e
            | .ok buf =>
              let res : Except Int Stack :=
                if flags.ignoreSymlinks then
                  match readlink_empty fs (cstr buf.data) with
                  | .error e => .error e
                  | .ok _ => .error EINVAL
                else stack.pushReadlinkRes (fs.readlink (cstr buf.data))
              match res with
              | .ok stack =>
                match advanceLinks fs.symloopMax links with
                | .error e => .error e
                | .ok links =>
                  rpLoopF fs flags fuel stack it (buf.truncate oldlen) links
              | .error e =>
                if e = EINVAL then
                  rpLoopF fs flags fuel stack it buf.pop links
                else if (e = ENOENT ∨ e = EACCES ∨ e = ENOTDIR) ∧
                    flags.allowMissing then
                  rpLoopF fs flags fuel stack it buf.pop links
                else if e = ENOENT ∧ flags.allowLastMissing ∧
                    stack.isEmpty ∧ iterIsEmpty it then
                  rpLoopF fs flags fuel stack it buf.pop links
                else .error e

/-- Crate `maybe_check_isdir` (nested in `realpath_raw_inner`): when the
original input ends with `/` or `/.` and `ALLOW_MISSING` is not set, stat the
buffer's path and require a directory; `ALLOW_LAST_MISSING` forgives only an
`ENOENT` from that stat. -/
def maybe_check_isdir (fs : Fs) (flags : Flags) (path : List Nat)
    (buf : SliceVec) : Except Int SliceVec :=
  if ([slashB].isSuffixOf path ∨ [slashB, dotB].isSuffixOf path) ∧
      ¬ flags.allowMissing then
    match buf.push nulB with
    | .error e => .error e
    | .ok buf =>
      match check_isdir fs (cstr buf.data) with
      | .ok _ => .ok buf.pop
      | .error e =>
        if e = ENOENT ∧ flags.allowLastMissing then .ok buf.pop
        else .error e
  else .ok buf

/-- Crate `count_leading_dotdot` from `lib.rs`. -/
def count_leading_dotdot : List Nat → Nat
  | a :: b :: c :: rest =>
      if a = dotB ∧ b = dotB ∧ c = slashB then count_leading_dotdot rest + 1
      else 0
  | _ => 0

/-- The `for _ in 0..n { tmp.make_parent_path()?; }` loop of the
post-processing step. -/
def parentIter : Nat → SliceVec → Except Int SliceVec
  | 0, v => .ok v
  | n + 1, v =>
    match v.make_parent_path with
    | .error e => .error e
    | .ok v => parentIter n v

/-- Crate `realpath_raw_inner`: validate the input, drain the component
stack/iterator, then post-process (current-directory substitution,
parent-collapse arithmetic, trailing-slash directory check).  Returns the
bytes of the resolved path. -/
def realpathRawInner (fs : Fs) (flags : Flags) (path : List Nat)
    (buf0 tmp0 : List Nat) : Except Int (List Nat) :=
  match ComponentIter.new path with
  | .error e => .error e
  | .ok it0 =>
    let fuel :=
      (fs.symloopMax + 1) * (tmp0.length + 2) + path.length + tmp0.length + 2
    match rpLoopF fs flags fuel (Stack.new tmp0) it0 (SliceVec.empty buf0) 0 with
    | .error e => .error e
    | .ok (buf, stack) =>
      let tmp := SliceVec.empty stack.region
      if buf.data = [] then
        match getcwdInto fs buf with
        | .error e => .error e
        | .ok buf => .ok buf.data
      else if buf.data = [dotB, dotB] then
        match getcwdInto fs buf with
        | .error e => .error e
        | .ok buf =>
          match buf.make_parent_path with
          | .error e => .error e
          | .ok buf => .ok buf.data
      else if [dotB, dotB, slashB].isPrefixOf buf.data then
        let n := count_leading_dotdot buf.data
        let step : Except Int (SliceVec × Nat) :=
          if buf.data.drop (n * 3) = [dotB, dotB] then .ok (buf.clear, n + 1)
          else
            match maybe_check_isdir fs flags path buf with
            | .error e => .error e
            | .ok buf => .ok (buf.remove_range 0 (n * 3 - 1), n)
        match step with
        | .error e => .error e
        | .ok (buf, n) =>
          match getcwdInto fs tmp with
          | .error e => .error e
          | .ok tmp =>
            match parentIter n tmp with
            | .error e => .error e
            | .ok tmp =>
              match buf.insert_from_slice 0 tmp.data with
              | .error e => .error e
              | .ok buf => .ok buf.data
      else if ¬ [slashB].isPrefixOf buf.data then
        match maybe_check_isdir fs flags path buf with
        | .error e => .error e
        | .ok buf =>
          match getcwdInto fs tmp.clear with
          | .error e => .error e
          | .ok tmp =>
            match tmp.push slashB with
            | .error e => .error e
            | .ok tmp =>
              match buf.insert_from_slice 0 tmp.data with
              | .error e => .error e
              | .ok buf => .ok buf.data
      else if buf.data = [slashB] ∨ buf.data = [slashB, slashB] then
        .ok buf.data
      else
        match maybe_check_isdir fs flags path buf with
        | .error e => .error e
        | .ok buf => .ok buf.data

/-- Crate `PATH_MAX` (Linux value). -/
def PATH_MAX : Nat := 4096

/-- Crate `realpath_raw`: `realpath_raw_inner` with a zeroed stack-allocated
temporary buffer of `PATH_MAX + 100` bytes. -/
def realpath_raw (fs : Fs) (path : List Nat) (buf0 : List Nat)
    (flags : Flags) : Except Int (List Nat) :=
  realpathRawInner fs flags path buf0 (List.replicate (PATH_MAX + 100) 0)

/-- The per-component body of `normpath_raw`'s `for` loop, folded over the
decomposed components. -/
def normLoop : List (List Nat) → SliceVec → Except Int SliceVec
  | [], buf => .ok buf
  | c :: rest, buf =>
    if c = [slashB] ∨ c = [slashB, slashB] then
      match buf.replace c with
      | .error e => .error e
      | .ok buf => normLoop rest buf
    else if c = [dotB, dotB] then
      match buf.make_parent_path with
      | .error e => .error e
      | .ok buf => normLoop rest buf
    else
      let sep : Except Int SliceVec :=
        if buf.data = [slashB] ∨ buf.data = [slashB, slashB] ∨ buf.data = []
        then .ok buf else buf.push slashB
      match sep with
      | .error e => .error e
      | .ok buf =>
        match buf.extend_from_slice c with
        | .error e => .error e
        | .ok buf => normLoop rest buf

/-- Crate `normpath_raw`: lexical-only normalization (no filesystem access);
an empty result becomes `.`.  Returns the bytes of the normalized path. -/
def normpath_raw (path : List Nat) (buf0 : List Nat) : Except Int (List Nat) :=
  match ComponentIter.new path with
  | .error e => .error e
  | .ok p =>
    match normLoop (iterComps p) (SliceVec.empty buf0) with
    | .error e => .error e
    | .ok buf =>
      if buf.data.isEmpty then
        match buf.push dotB with
        | .error e => .error e
        | .ok buf => .ok buf.data
      else .ok buf.data

/-! ### List helper lemmas -/

theorem take_set_of_le (l : List Nat) (i j c : Nat) (h : j ≤ i) :
    (l.set i c).take j = l.take j := by
  induction l generalizing i j with
  | nil => simp
  | cons x xs ih =>
    cases i with
    | zero => interval_cases j <;> simp
    | succ i =>
      cases j with
      | zero => simp
      | succ j => simp [List.set, ih i j (by omega)]

theorem take_succ_set (l : List Nat) (i c : Nat) (h : i < l.length) :
    (l.set i c).take (i + 1) = l.take i ++ [c] := by
  induction l generalizing i with
  | nil => simp at h
  | cons x xs ih =>
    cases i with
    | zero => simp
    | succ i => simpa using ih i (by simpa using h)

theorem length_listWrite (l s : List Nat) (i : Nat)
    (h : i + s.length ≤ l.length) : (listWrite l i s).length = l.length := by
  simp only [listWrite, List.length_append, List.length_take, List.length_drop]
  omega

theorem take_listWrite (l s : List Nat) (i : Nat) (h : i ≤ l.length) :
    (listWrite l i s).take (i + s.length) = l.take i ++ s := by
  have h1 : (l.take i).length = i := by simp; omega
  simp only [listWrite, List.take_append_eq_append_take, h1, List.take_take]
  simp [h1]

theorem drop_listWrite (l s : List Nat) (i : Nat) (h : i ≤ l.length) :
    (listWrite l i s).drop (i + s.length) = l.drop (i + s.length) := by
  have h1 : (l.take i).length = i := by simp; omega
  simp only [listWrite, List.drop_append_eq_append_drop, h1]
  simp [h1, List.drop_eq_nil_of_le]

namespace SliceVec

/-! ### Data-level characterizations of the buffer operations -/

theorem data_length (v : SliceVec) (h : v.Inv) : v.data.length = v.len := by
  simp only [data, List.length_take]
  exact Nat.min_eq_left h

theorem data_length_le (v : SliceVec) : v.data.length ≤ v.len := by
  simp only [data, List.length_take]
  omega

theorem empty_data (b : List Nat) : (empty b).data = [] := by
  simp [empty, data]

theorem clear_data (v : SliceVec) : v.clear.data = [] := by simp [clear, data]

theorem truncate_data (v : SliceVec) (n : Nat) :
    (v.truncate n).data = v.data.take n := by
  simp [truncate, data, List.take_take, Nat.min_comm]

theorem pop_data (v : SliceVec) (h : v.Inv) : v.pop.data = v.data.dropLast := by
  rcases v with ⟨buf, len⟩
  simp only [Inv, capacity] at h
  simp only [pop, data, List.dropLast_eq_take, List.length_take, List.take_take]
  congr 1
  omega

theorem push_ok (v : SliceVec) (c : Nat) (h : v.len < v.capacity) :
    v.push c = .ok ⟨v.buf.set v.len c, v.len + 1⟩ := by
  simp [push, h]

theorem push_err (v : SliceVec) (c : Nat) (h : v.capacity ≤ v.len) :
    v.push c = .error ENAMETOOLONG := by
  simp [push]
  omega

theorem push_ok_data (v : SliceVec) (c : Nat) (h : v.len < v.capacity) :
    (SliceVec.mk (v.buf.set v.len c) (v.len + 1)).data = v.data ++ [c] := by
  simpa [data] using take_succ_set v.buf v.len c h

theorem extend_ok (v : SliceVec) (s : List Nat)
    (h : v.len + s.length ≤ v.capacity) :
    v.extend_from_slice s = .ok ⟨listWrite v.buf v.len s, v.len + s.length⟩ := by
  simp [extend_from_slice, h]

theorem extend_err (v : SliceVec) (s : List Nat)
    (h : v.capacity < v.len + s.length) :
    v.extend_from_slice s = .error ENAMETOOLONG := by
  simp [extend_from_slice]
  omega

theorem extend_ok_data (v : SliceVec) (s : List Nat) (hInv : v.Inv)
    (h : v.len + s.length ≤ v.capacity) :
    (SliceVec.mk (listWrite v.buf v.len s) (v.len + s.length)).data
      = v.data ++ s := by
  simpa [data] using take_listWrite v.buf s v.len hInv

theorem replace_ok (v : SliceVec) (s : List Nat) (h : s.length ≤ v.capacity) :
    v.replace s = .ok ⟨listWrite v.buf 0 s, s.length⟩ := by
  simp [replace, h]

theorem replace_err (v : SliceVec) (s : List Nat) (h : v.capacity < s.length) :
    v.replace s = .error ENAMETOOLONG := by
  simp [replace]
  omega

theorem replace_ok_data (v : SliceVec) (s : List Nat) (h : s.length ≤ v.capacity) :
    (SliceVec.mk (listWrite v.buf 0 s) s.length).data = s := by
  simpa [data] using take_listWrite v.buf s 0 (by omega)

theorem rposition_zero (d : List Nat) (c : Nat) (h : rposition d c = some 0) :
    d.take 1 = [c] := by
  cases d with
  | nil => simp [rposition] at h
  | cons x xs =>
    simp only [rposition] at h
    rcases h2 : rposition xs c with _ | j <;> rw [h2] at h
    · by_cases hx : x = c <;> simp [hx] at h ⊢
    · simp at h

theorem rposition_one (d : List Nat) (c : Nat) (h : rposition d c = some 1)
    (hh : d.head? = some c) : d.take 2 = [c, c] := by
  cases d with
  | nil => simp [rposition] at h
  | cons x xs =>
    simp only [List.head?] at hh
    rcases h2 : rposition xs c with _ | j <;> simp only [rposition, h2] at h
    · by_cases hx : x = c <;> simp [hx] at h
    · simp only [Option.some.injEq] at h
      have hj : j = 0 := by omega
      subst hj
      have h3 := rposition_zero xs c h2
      cases xs with
      | nil => simp [rposition] at h2
      | cons y ys =>
        simp only [List.take] at h3
        simp_all

end SliceVec

/-- Statement of the amended claim C3, written from the spec's words (with
the empty-buffer case corrected to yield `..`): the contents
`make_parent_path` should produce from contents `d`. -/
def makeParentPathSpec (d : List Nat) : List Nat :=
  if d = [] then [dotB, dotB]
  else if d = [dotB, dotB] ∨ [slashB, dotB, dotB].isSuffixOf d then
    d ++ [slashB, dotB, dotB]
  else
    match SliceVec.rposition d slashB with
    | some 0 => [slashB]
    | some 1 => if d.head? = some slashB then [slashB, slashB] else d.take 1
    | some i => d.take i
    | none => []

theorem extend_map_data (v : SliceVec) (s : List Nat) (h : v.Inv) :
    (v.extend_from_slice s).map SliceVec.data =
      if v.data.length + s.length ≤ v.capacity then .ok (v.data ++ s)
      else .error ENAMETOOLONG := by
  have hlen := SliceVec.data_length v h
  by_cases hc : v.len + s.length ≤ v.capacity
  · rw [SliceVec.extend_ok v s hc, if_pos (by omega)]
    simp [Except.map, SliceVec.extend_ok_data v s h hc]
  · rw [SliceVec.extend_err v s (by omega), if_neg (by omega)]
    rfl

theorem make_parent_path_eq_spec (v : SliceVec) (h : v.Inv) :
    v.make_parent_path.map SliceVec.data =
      if (makeParentPathSpec v.data).length ≤ v.capacity
      then .ok (makeParentPathSpec v.data) else .error ENAMETOOLONG := by
  have hlen : v.data.length = v.len := SliceVec.data_length v h
  have hcap : v.len ≤ v.capacity := h
  by_cases h0 : v.data = []
  · simp only [SliceVec.make_parent_path, makeParentPathSpec, h0,
      List.isEmpty_nil, if_true]
    rw [extend_map_data v _ h, h0]
    simp
  · have h0e : v.data.isEmpty = false := by
      simpa [List.isEmpty_iff] using h0
    by_cases h1 : v.data = [dotB, dotB] ∨ [slashB, dotB, dotB].isSuffixOf v.data
    · simp only [SliceVec.make_parent_path, makeParentPathSpec, h0e, h0, h1,
        Bool.false_eq_true, if_false, if_true]
      rw [extend_map_data v _ h]
      simp
    · simp only [SliceVec.make_parent_path, makeParentPathSpec, h0e, h0, h1,
        Bool.false_eq_true, if_false]
      have hdpos : 0 < v.data.length := List.length_pos.mpr h0
      rcases hrp : SliceVec.rposition v.data slashB with _ | n
      · simp [Except.map, SliceVec.clear_data]
      · match n with
        | 0 =>
          have ht := SliceVec.rposition_zero v.data slashB hrp
          simp only [SliceVec.truncate_data, Except.map, ht]
          rw [if_pos (by simp; omega)]
        | 1 =>
          by_cases hh : v.data.head? = some slashB
          · have ht := SliceVec.rposition_one v.data slashB hrp hh
            have h2 : 2 ≤ v.data.length := by
              by_contra hlt
              have hx : v.data.take 2 = v.data := List.take_of_length_le (by omega)
              rw [hx] at ht
              rw [ht] at hlt
              simp at hlt
            simp only [hh, if_true, SliceVec.truncate_data, Except.map, ht]
            rw [if_pos (by simp; omega)]
          · simp only [hh, if_false, SliceVec.truncate_data, Except.map]
            rw [if_pos (by simp; omega)]
        | (m + 2) =>
          simp only [SliceVec.truncate_data, Except.map]
          rw [if_pos (by simp; omega)]

/-- Claim C3 counterexample: on a buffer with empty contents (and ample
capacity), `make_parent_path` produces `..`, not the empty string the claim
demands ("if no `/` exists at all (including when the buffer is initially
empty), the result is the empty string"). -/
theorem C3_counterexample :
    (SliceVec.mk [0, 0, 0, 0] 0).make_parent_path.map SliceVec.data
        = .ok [dotB, dotB] ∧ ([dotB, dotB] : List Nat) ≠ [] := by
  decide

/-- Claim C3 (amended): for every buffer satisfying the length invariant,
`make_parent_path` maps contents `d` to: `..` when `d` is empty; `d ++ "/.."`
when `d` is `..` or ends with `/..`; otherwise, with the last `/` at index 0
the root marker `/`, at index 1 after a leading `/` the root marker `//`, at
any other index `i` the truncation `d.take i`, and the empty string when no
`/` exists in the non-empty `d` — except that the two appending cases fail
with `ENAMETOOLONG` when the result would exceed capacity. -/
theorem C3_make_parent_path_amended (v : SliceVec) (h : v.Inv) :
    v.make_parent_path.map SliceVec.data =
      if (makeParentPathSpec v.data).length ≤ v.capacity
      then .ok (makeParentPathSpec v.data) else .error ENAMETOOLONG :=
  make_parent_path_eq_spec v h

/-- Witness for C3 at the concrete buffer `/a` in capacity 4. -/
theorem C3_witness :
    (SliceVec.mk [slashB, 97, 0, 0] 2).Inv ∧
      (SliceVec.mk [slashB, 97, 0, 0] 2).make_parent_path.map SliceVec.data =
        if (makeParentPathSpec (SliceVec.mk [slashB, 97, 0, 0] 2).data).length
            ≤ (SliceVec.mk [slashB, 97, 0, 0] 2).capacity
        then .ok (makeParentPathSpec (SliceVec.mk [slashB, 97, 0, 0] 2).data)
        else .error ENAMETOOLONG :=
  ⟨by decide, C3_make_parent_path_amended (SliceVec.mk [slashB, 97, 0, 0] 2)
    (by decide)⟩


/-- Outcome well-formedness for a fallible buffer operation: success
establishes the length invariant, failure is the capacity error. -/
def invOrNameTooLong (r : Except Int SliceVec) : Prop :=
  match r with
  | .ok w => w.Inv
  | .error e => e = ENAMETOOLONG

theorem push_invOk (v : SliceVec) (c : Nat) : invOrNameTooLong (v.push c) := by
  unfold SliceVec.push
  split
  · next hlt =>
    simp only [invOrNameTooLong, SliceVec.Inv, SliceVec.capacity,
      List.length_set]
    simp only [SliceVec.capacity] at hlt
    omega
  · simp [invOrNameTooLong]

theorem extend_invOk (v : SliceVec) (s : List Nat) :
    invOrNameTooLong (v.extend_from_slice s) := by
  unfold SliceVec.extend_from_slice
  split
  · next hc =>
    simp only [SliceVec.capacity] at hc
    simp only [invOrNameTooLong, SliceVec.Inv, SliceVec.capacity]
    rw [length_listWrite _ _ _ (by omega)]
    omega
  · simp [invOrNameTooLong]

theorem replace_invOk (v : SliceVec) (s : List Nat) :
    invOrNameTooLong (v.replace s) := by
  unfold SliceVec.replace
  split
  · next hc =>
    simp only [SliceVec.capacity] at hc
    simp only [invOrNameTooLong, SliceVec.Inv, SliceVec.capacity]
    rw [length_listWrite _ _ _ (by omega)]
    omega
  · simp [invOrNameTooLong]

theorem insert_invOk (v : SliceVec) (i : Nat) (s : List Nat) (h : v.Inv)
    (hi : i ≤ v.len) : invOrNameTooLong (v.insert_from_slice i s) := by
  simp only [SliceVec.Inv, SliceVec.capacity] at h
  unfold SliceVec.insert_from_slice
  split
  · exact h
  · split
    · simp [invOrNameTooLong]
    · next hne hc =>
      simp only [SliceVec.capacity, not_lt] at hc
      simp only [invOrNameTooLong, SliceVec.Inv, SliceVec.capacity]
      have h1 : ((v.buf.drop i).take (v.len - i)).length = v.len - i := by
        simp
        omega
      rw [length_listWrite, length_listWrite]
      · omega
      · rw [h1]
        omega
      · rw [length_listWrite _ _ _ (by rw [h1]; omega)]
        omega

theorem make_parent_invOk (v : SliceVec) (h : v.Inv) :
    invOrNameTooLong v.make_parent_path := by
  unfold SliceVec.make_parent_path
  have h2 := h
  simp only [SliceVec.Inv, SliceVec.capacity] at h2
  split
  · exact extend_invOk v _
  · split
    · exact extend_invOk v _
    · split <;>
        first
          | (simp only [invOrNameTooLong, SliceVec.truncate, SliceVec.clear,
              SliceVec.Inv, SliceVec.capacity]; omega)
          | (split <;> (simp only [invOrNameTooLong, SliceVec.truncate,
              SliceVec.Inv, SliceVec.capacity]; omega))

/-- Claim C7 counterexample: `set_len` does not preserve the length-≤-capacity
invariant — on an empty zero-capacity buffer, `set_len 1` yields logical
length 1 with capacity 0 (the source asserts the stale length, not the new
one). -/
theorem C7_counterexample :
    (SliceVec.empty []).Inv ∧ ¬ ((SliceVec.empty []).set_len 1).Inv := by
  decide

/-- Claim C7 (amended): every buffer operation except an out-of-range
`set_len` preserves the length-≤-capacity invariant (for `insert_from_slice`
and `remove_range` under their in-range argument preconditions, and for
`set_len` only when the new length is within capacity — the source checks the
stale length, so larger arguments break the invariant, see the
counterexample); every size-increasing operation either succeeds or fails
with `ENAMETOOLONG` (the source's failing paths return before any write). -/
theorem C7_buffer_invariants_amended (v : SliceVec) (h : v.Inv) (c : Nat) (s : List Nat)
    (i n a b : Nat) (hi : i ≤ v.len) (hn : n ≤ v.capacity) (hab : a ≤ b)
    (hb : b ≤ v.len) :
    invOrNameTooLong (v.push c) ∧ v.pop.Inv ∧
      invOrNameTooLong (v.extend_from_slice s) ∧
      invOrNameTooLong (v.replace s) ∧
      invOrNameTooLong (v.insert_from_slice i s) ∧
      (v.truncate n).Inv ∧ v.clear.Inv ∧ (v.set_len n).Inv ∧
      (v.remove_range a b).Inv ∧ invOrNameTooLong v.make_parent_path := by
  refine ⟨push_invOk v c, ?_, extend_invOk v s, replace_invOk v s,
    insert_invOk v i s h hi, ?_, ?_, ?_, ?_, make_parent_invOk v h⟩ <;>
    simp only [SliceVec.Inv, SliceVec.capacity] at h hn ⊢
  · simp only [SliceVec.pop]
    omega
  · simp only [SliceVec.truncate]
    omega
  · simp only [SliceVec.clear]
    omega
  · simp only [SliceVec.set_len]
    omega
  · simp only [SliceVec.remove_range]
    have h1 : ((v.buf.drop b).take (v.len - b)).length = v.len - b := by
      simp
      omega
    rw [length_listWrite _ _ _ (by rw [h1]; omega)]
    omega

/-- A trivial concrete filesystem, used by witnesses. -/
def fsUnit : Fs := ⟨fun _ => .error ENOENT, fun _ => .error ENOENT, [slashB], 40⟩

/-- Claim C9: for both `realpath_raw` (and its inner form, for every temporary
buffer) and `normpath_raw`, under every flag combination, every filesystem and
every buffer size, an empty input fails with `ENOENT` and a NUL-containing
input fails with `EINVAL`; quantifying over every filesystem oracle expresses
that the failure is decided before any filesystem access. -/
theorem C9_input_validation (fs : Fs) (flags : Flags) (buf0 tmp0 p : List Nat)
    (hp : p.contains nulB) :
    realpathRawInner fs flags [] buf0 tmp0 = .error ENOENT ∧
      normpath_raw [] buf0 = .error ENOENT ∧
      realpath_raw fs [] buf0 flags = .error ENOENT ∧
      realpathRawInner fs flags p buf0 tmp0 = .error EINVAL ∧
      normpath_raw p buf0 = .error EINVAL ∧
      realpath_raw fs p buf0 flags = .error EINVAL := by
  have hne : p ≠ [] := by
    intro h
    rw [h] at hp
    simp at hp
  have hmem : nulB ∈ p := by simpa using hp
  have hval : ComponentIter.new p = .error EINVAL := by
    simp [ComponentIter.new, List.isEmpty_iff, hne, hmem]
  have hval0 : ComponentIter.new [] = .error ENOENT := rfl
  refine ⟨?_, ?_, ?_, ?_, ?_, ?_⟩ <;>
    simp [realpathRawInner, normpath_raw, realpath_raw, hval, hval0]

/-- Witness for C9 at the NUL-containing path `[0]` over the trivial
filesystem and empty buffers. -/
theorem C9_witness :
    ([nulB] : List Nat).contains nulB = true ∧
      (realpathRawInner fsUnit Flags.empty [] [] [] = .error ENOENT ∧
        normpath_raw [] [] = .error ENOENT ∧
        realpath_raw fsUnit [] [] Flags.empty = .error ENOENT ∧
        realpathRawInner fsUnit Flags.empty [nulB] [] [] = .error EINVAL ∧
        normpath_raw [nulB] [] = .error EINVAL ∧
        realpath_raw fsUnit [nulB] [] Flags.empty = .error EINVAL) :=
  ⟨by decide, C9_input_validation fsUnit Flags.empty [] [] [nulB] (by decide)⟩

/-- Witness for C7 at the buffer `[0,0]` with logical length 1. -/
theorem C7_witness :
    (SliceVec.mk [0, 0] 1).Inv ∧ 1 ≤ (SliceVec.mk [0, 0] 1).len ∧
      2 ≤ (SliceVec.mk [0, 0] 1).capacity ∧ (0 : Nat) ≤ 1 ∧
      1 ≤ (SliceVec.mk [0, 0] 1).len ∧
      (invOrNameTooLong ((SliceVec.mk [0, 0] 1).push 5) ∧
        (SliceVec.mk [0, 0] 1).pop.Inv ∧
        invOrNameTooLong ((SliceVec.mk [0, 0] 1).extend_from_slice [7]) ∧
        invOrNameTooLong ((SliceVec.mk [0, 0] 1).replace [7]) ∧
        invOrNameTooLong ((SliceVec.mk [0, 0] 1).insert_from_slice 1 [7]) ∧
        ((SliceVec.mk [0, 0] 1).truncate 2).Inv ∧
        (SliceVec.mk [0, 0] 1).clear.Inv ∧
        ((SliceVec.mk [0, 0] 1).set_len 2).Inv ∧
        ((SliceVec.mk [0, 0] 1).remove_range 0 1).Inv ∧
        invOrNameTooLong (SliceVec.mk [0, 0] 1).make_parent_path) :=
  ⟨by decide, by decide, by decide, by decide, by decide,
    C7_buffer_invariants_amended (SliceVec.mk [0, 0] 1) (by decide) 5 [7] 1 2 0 1
      (by decide) (by decide) (by decide) (by decide)⟩



/-- Number of leading slash bytes of a byte string. -/
def leadingSlashes : List Nat → Nat
  | [] => 0
  | c :: r => if c = slashB then leadingSlashes r + 1 else 0

theorem leadingSlashes_le (s : List Nat) : leadingSlashes s ≤ s.length := by
  induction s with
  | nil => simp [leadingSlashes]
  | cons c r ih =>
    simp only [leadingSlashes, List.length_cons]
    split <;> omega

theorem length_strip_leading (s : List Nat) :
    (strip_leading_slashes s).length = s.length - leadingSlashes s := by
  induction s with
  | nil => simp [strip_leading_slashes, leadingSlashes]
  | cons c r ih =>
    by_cases hc : c = slashB <;>
      simp only [strip_leading_slashes, leadingSlashes, hc, if_true, if_false,
        ih, List.length_cons]
    · omega
    · simp [hc]

theorem iter_next_root (rest : List Nat) :
    ComponentIter.next (slashB :: rest) =
      if rest.length - (strip_leading_slashes rest).length = 1
      then (some [slashB, slashB], strip_leading_slashes rest)
      else (some [slashB], strip_leading_slashes rest) := by
  simp only [ComponentIter.next, ComponentIter.nextF, List.length_cons,
    if_true]

end RealpathExt

namespace RealpathExt

theorem stack_new_content (b : List Nat) : (Stack.new b).content = [] := by
  simp [Stack.new, Stack.content]

theorem stack_next_empty (st : Stack) (h : st.content = []) :
    Stack.next st = (none, st) := by
  rcases st with ⟨region, i⟩
  simp [Stack.next, Stack.nextC, h, Stack.nextF]

theorem rpLoopF_exit (fs : Fs) (flags : Flags) (fuel : Nat) (st : Stack)
    (it : List Nat) (buf : SliceVec) (links : Nat) (hst : st.content = [])
    (hit : (ComponentIter.next it).1 = none) :
    rpLoopF fs flags (fuel + 1) st it buf links = .ok (buf, st) := by
  rcases h2 : ComponentIter.next it with ⟨oc, it2⟩
  rw [h2] at hit
  simp only at hit
  subst hit
  simp only [rpLoopF, stack_next_empty st hst, h2]

theorem rpLoopF_iter_root (fs : Fs) (flags : Flags) (fuel : Nat) (st : Stack)
    (it it2 : List Nat) (buf buf2 : SliceVec) (links : Nat) (c : List Nat)
    (hst : st.content = []) (hit : ComponentIter.next it = (some c, it2))
    (hc : c = [slashB] ∨ c = [slashB, slashB])
    (hrep : buf.replace c = .ok buf2) :
    rpLoopF fs flags (fuel + 1) st it buf links =
      rpLoopF fs flags fuel st it2 buf2 links := by
  simp only [rpLoopF, stack_next_empty st hst, hit, if_pos hc, hrep]

theorem rpLoop_run_root (fs : Fs) (flags : Flags) (fuel : Nat)
    (tmp0 buf0 : List Nat) (it it2 : List Nat) (c : List Nat)
    (hit : ComponentIter.next it = (some c, it2))
    (hit2 : (ComponentIter.next it2).1 = none)
    (hc : c = [slashB] ∨ c = [slashB, slashB]) (hcap : c.length ≤ buf0.length) :
    rpLoopF fs flags (fuel + 1 + 1) (Stack.new tmp0) it (SliceVec.empty buf0) 0
      = .ok (⟨listWrite buf0 0 c, c.length⟩, Stack.new tmp0) := by
  rw [rpLoopF_iter_root fs flags (fuel + 1) (Stack.new tmp0) it it2
    (SliceVec.empty buf0) ⟨listWrite buf0 0 c, c.length⟩ 0 c
    (stack_new_content tmp0) hit hc
    (SliceVec.replace_ok _ _ (by simpa [SliceVec.capacity, SliceVec.empty] using hcap))]
  exact rpLoopF_exit fs flags fuel _ it2 _ 0 (stack_new_content tmp0) hit2

/-- Claim C1: the component decomposer classifies leading slashes by exact
count — a run of exactly one leading slash yields the root-single component
`/`, exactly two yields root-double `//`, three or more collapse to `/` —
and consequently, over every filesystem and flags, with an output buffer of
capacity at least two, `realpath_raw_inner` maps `/` to `/`, `//` to `//`
and `///` to `/`. -/
theorem C1_root_classification (fs : Fs) (flags : Flags) (buf0 tmp0 s : List Nat)
    (hb : 2 ≤ buf0.length) :
    (leadingSlashes s = 1 → (ComponentIter.next s).1 = some [slashB]) ∧
      (leadingSlashes s = 2 → (ComponentIter.next s).1 = some [slashB, slashB]) ∧
      (3 ≤ leadingSlashes s → (ComponentIter.next s).1 = some [slashB]) ∧
      realpathRawInner fs flags [slashB] buf0 tmp0 = .ok [slashB] ∧
      realpathRawInner fs flags [slashB, slashB] buf0 tmp0
        = .ok [slashB, slashB] ∧
      realpathRawInner fs flags [slashB, slashB, slashB] buf0 tmp0
        = .ok [slashB] := by
  have hcases : ∀ t k, leadingSlashes t = k → 1 ≤ k →
      (ComponentIter.next t).1 =
        some (if k = 2 then [slashB, slashB] else [slashB]) := by
    intro t k hk h1
    cases t with
    | nil => simp [leadingSlashes] at hk; omega
    | cons c rest =>
      have hc : c = slashB := by
        by_contra hcc
        simp [leadingSlashes, hcc] at hk
        omega
      subst hc
      have hk2 : leadingSlashes rest + 1 = k := by
        simpa [leadingSlashes] using hk
      have hls := leadingSlashes_le rest
      have hlen := length_strip_leading rest
      rw [iter_next_root rest]
      by_cases h2 : k = 2
      · rw [if_pos (by omega), if_pos h2]
      · rw [if_neg (by omega), if_neg h2]
  have hd1 : (SliceVec.mk (listWrite buf0 0 [slashB]) 1).data = [slashB] := by
    simpa [SliceVec.empty] using
      SliceVec.replace_ok_data (SliceVec.empty buf0) [slashB]
        (by simp [SliceVec.capacity, SliceVec.empty]; omega)
  have hd2 : (SliceVec.mk (listWrite buf0 0 [slashB, slashB]) 2).data
      = [slashB, slashB] := by
    simpa [SliceVec.empty] using
      SliceVec.replace_ok_data (SliceVec.empty buf0) [slashB, slashB]
        (by simp [SliceVec.capacity, SliceVec.empty]; omega)
  refine ⟨fun h => by simpa using hcases s 1 h (by omega),
    fun h => by simpa using hcases s 2 h (by omega),
    fun h => ?_, ?_, ?_, ?_⟩
  · have h3 := hcases s (leadingSlashes s) rfl (by omega)
    rw [if_neg (by omega)] at h3
    exact h3
  · simp only [realpathRawInner,
      show ComponentIter.new [slashB] = .ok [slashB] from rfl]
    rw [show ∀ x : Nat, x + 2 = (x + 1) + 1 from fun x => rfl]
    rw [rpLoop_run_root fs flags _ tmp0 buf0 [slashB] [] [slashB] rfl rfl
      (Or.inl rfl) (by simp; omega)]
    simp +decide [hd1]
  · simp only [realpathRawInner,
      show ComponentIter.new [slashB, slashB] = .ok [slashB, slashB] from rfl]
    rw [show ∀ x : Nat, x + 2 = (x + 1) + 1 from fun x => rfl]
    rw [rpLoop_run_root fs flags _ tmp0 buf0 [slashB, slashB] []
      [slashB, slashB] rfl rfl (Or.inr rfl) (by simp; omega)]
    simp +decide [hd2]
  · simp only [realpathRawInner,
      show ComponentIter.new [slashB, slashB, slashB]
        = .ok [slashB, slashB, slashB] from rfl]
    rw [show ∀ x : Nat, x + 2 = (x + 1) + 1 from fun x => rfl]
    rw [rpLoop_run_root fs flags _ tmp0 buf0 [slashB, slashB, slashB] []
      [slashB] rfl rfl (Or.inl rfl) (by simp; omega)]
    simp +decide [hd1]


/-- Witness for C1 with the two-byte output buffer `[0,0]`, the trivial
filesystem and empty flags. -/
theorem C1_witness :
    2 ≤ ([0, 0] : List Nat).length ∧
      ((leadingSlashes [slashB, slashB] = 1 →
          (ComponentIter.next [slashB, slashB]).1 = some [slashB]) ∧
        (leadingSlashes [slashB, slashB] = 2 →
          (ComponentIter.next [slashB, slashB]).1 = some [slashB, slashB]) ∧
        (3 ≤ leadingSlashes [slashB, slashB] →
          (ComponentIter.next [slashB, slashB]).1 = some [slashB]) ∧
        realpathRawInner fsUnit Flags.empty [slashB] [0, 0] [] = .ok [slashB] ∧
        realpathRawInner fsUnit Flags.empty [slashB, slashB] [0, 0] []
          = .ok [slashB, slashB] ∧
        realpathRawInner fsUnit Flags.empty [slashB, slashB, slashB] [0, 0] []
          = .ok [slashB]) :=
  ⟨by decide, C1_root_classification fsUnit Flags.empty [0, 0] []
    [slashB, slashB] (by decide)⟩


theorem rpLoopF_name_step (fs : Fs) (flags : Flags) (fuel : Nat) (st : Stack)
    (it it2 : List Nat) (buf bufa bufb bufc : SliceVec) (links : Nat)
    (c : List Nat) (hst : st.content = [])
    (hit : ComponentIter.next it = (some c, it2))
    (hc1 : ¬ (c = [slashB] ∨ c = [slashB, slashB])) (hc2 : ¬ c = [dotB, dotB])
    (hsep : (if buf.data = [slashB] ∨ buf.data = [slashB, slashB] ∨
        buf.data = [] then Except.ok buf else buf.push slashB) = .ok bufa)
    (hext : bufa.extend_from_slice c = .ok bufb)
    (hpush : bufb.push nulB = .ok bufc) :
    rpLoopF fs flags (fuel + 1) st it buf links =
      match
        (if flags.ignoreSymlinks then
          match readlink_empty fs (cstr bufc.data) with
          | .error e => .error e
          | .ok _ => .error EINVAL
        else st.pushReadlinkRes (fs.readlink (cstr bufc.data)) :
          Except Int Stack) with
      | .ok stack2 =>
        match advanceLinks fs.symloopMax links with
        | .error e => .error e
        | .ok links2 =>
            rpLoopF fs flags fuel stack2 it2 (bufc.truncate buf.len) links2
      | .error e =>
        if e = EINVAL then rpLoopF fs flags fuel st it2 bufc.pop links
        else if (e = ENOENT ∨ e = EACCES ∨ e = ENOTDIR) ∧ flags.allowMissing
          then rpLoopF fs flags fuel st it2 bufc.pop links
        else if e = ENOENT ∧ flags.allowLastMissing ∧ st.isEmpty ∧
            iterIsEmpty it2 then rpLoopF fs flags fuel st it2 bufc.pop links
        else .error e := by
  simp only [rpLoopF, stack_next_empty st hst, hit, if_neg hc1, if_neg hc2,
    hsep, hext, hpush]

/-- Claim C2 (amended): on the single-component path `a` under
`ALLOW_LAST_MISSING` alone, a final-component `ENOENT` from symlink resolution
is suppressed and the component is treated exactly like a non-symlink name
(the run equals the run on a filesystem whose `readlink` reports
"not a symlink" there); but, contrary to the original claim, a final-component
`EACCES` or `ENOTDIR` is NOT suppressed and propagates to the caller; and on
the non-final component of `a/b` all three errors propagate. -/
theorem C2_allow_last_missing_amended (fs fs2 : Fs) (buf0 tmp0 : List Nat)
    (e : Int) (hrl : fs.readlink [97] = .error e) (hb : 2 ≤ buf0.length)
    (ht : 1 ≤ tmp0.length) (hstat : fs2.stat = fs.stat)
    (hcwd : fs2.cwd = fs.cwd) (hmax : fs2.symloopMax = fs.symloopMax) :
    (e = ENOENT → fs2.readlink [97] = .error EINVAL →
      realpathRawInner fs ⟨false, true, false⟩ [97] buf0 tmp0 =
        realpathRawInner fs2 ⟨false, true, false⟩ [97] buf0 tmp0) ∧
    ((e = EACCES ∨ e = ENOTDIR) →
      realpathRawInner fs ⟨false, true, false⟩ [97] buf0 tmp0 = .error e) ∧
    ((e = ENOENT ∨ e = EACCES ∨ e = ENOTDIR) →
      realpathRawInner fs ⟨false, true, false⟩ [97, slashB, 98] buf0 tmp0
        = .error e) := by
  have hcap1 : (SliceVec.empty buf0).len + [97].length ≤
      (SliceVec.empty buf0).capacity := by
    simp [SliceVec.empty, SliceVec.capacity]
    omega
  have hext := SliceVec.extend_ok (SliceVec.empty buf0) [97] hcap1
  have hbData : (SliceVec.mk (listWrite buf0 0 [97]) 1).data = [97] := by
    simpa [SliceVec.empty] using
      SliceVec.extend_ok_data (SliceVec.empty buf0) [97]
        (by simp [SliceVec.Inv, SliceVec.empty, SliceVec.capacity]) hcap1
  have hlw : (listWrite buf0 0 [97]).length = buf0.length :=
    length_listWrite buf0 [97] 0 (by simp; omega)
  have hcap2 : (SliceVec.mk (listWrite buf0 0 [97]) 1).len <
      (SliceVec.mk (listWrite buf0 0 [97]) 1).capacity := by
    show 1 < (listWrite buf0 0 [97]).length
    rw [hlw]
    omega
  have hpush := SliceVec.push_ok (SliceVec.mk (listWrite buf0 0 [97]) 1) nulB hcap2
  have hcData : (SliceVec.mk ((listWrite buf0 0 [97]).set 1 nulB) 2).data
      = [97, nulB] := by
    have h3 := SliceVec.push_ok_data (SliceVec.mk (listWrite buf0 0 [97]) 1)
      nulB hcap2
    rw [hbData] at h3
    simpa using h3
  have hcstr : cstr (SliceVec.mk ((listWrite buf0 0 [97]).set 1 nulB) 2).data
      = [97] := by
    rw [hcData]
    decide
  have hi0 : ¬ (Stack.new tmp0).i = 0 := by
    show ¬ tmp0.length = 0
    omega
  have hstep := fun (fsx : Fs) it it2 c
      (hit : ComponentIter.next it = (some c, it2))
      (hc1 : ¬ (c = [slashB] ∨ c = [slashB, slashB]))
      (hc2 : ¬ c = [dotB, dotB]) =>
    rpLoopF_name_step fsx ⟨false, true, false⟩
      ((fsx.symloopMax + 1) * (tmp0.length + 2) + it.length + tmp0.length + 1)
      (Stack.new tmp0) it it2 (SliceVec.empty buf0) (SliceVec.empty buf0)
      (SliceVec.mk (listWrite buf0 0 [97]) 1)
      (SliceVec.mk ((listWrite buf0 0 [97]).set 1 nulB) 2) 0 c
      (stack_new_content tmp0) hit hc1 hc2
      (by simp [SliceVec.empty_data])
  refine ⟨?_, ?_, ?_⟩
  · intro he hrl2
    subst he
    simp only [realpathRawInner, show ComponentIter.new [97] = .ok [97] from rfl]
    rw [show ∀ x : Nat, x + 2 = (x + 1) + 1 from fun x => rfl]
    rw [hstep fs [97] [] [97] rfl (by decide) (by decide) hext hpush]
    rw [hstep fs2 [97] [] [97] rfl (by decide) (by decide) hext hpush]
    simp only [hcstr, hrl, hrl2]
    simp only [Stack.pushReadlinkRes, hi0, if_false, if_neg]
    simp +decide [Stack.isEmpty, Stack.new, iterIsEmpty]
    rw [rpLoopF_exit fs ⟨false, true, false⟩ _ ⟨tmp0, tmp0.length⟩ [] _ 0
      (by simp [Stack.content]) rfl]
    rw [rpLoopF_exit fs2 ⟨false, true, false⟩ _ ⟨tmp0, tmp0.length⟩ [] _ 0
      (by simp [Stack.content]) rfl]
    simp only [maybe_check_isdir, check_isdir, getcwdInto, hstat, hcwd]
  · intro he
    simp only [realpathRawInner, show ComponentIter.new [97] = .ok [97] from rfl]
    rw [show ∀ x : Nat, x + 2 = (x + 1) + 1 from fun x => rfl]
    rw [hstep fs [97] [] [97] rfl (by decide) (by decide) hext hpush]
    simp only [hcstr, hrl]
    simp only [Stack.pushReadlinkRes, hi0, if_false, if_neg]
    rcases he with he | he <;> subst he <;> simp +decide
  · intro he
    simp only [realpathRawInner,
      show ComponentIter.new [97, slashB, 98] = .ok [97, slashB, 98] from rfl]
    rw [show ∀ x : Nat, x + 2 = (x + 1) + 1 from fun x => rfl]
    rw [hstep fs [97, slashB, 98] [98] [97] rfl (by decide) (by decide) hext hpush]
    simp only [hcstr, hrl]
    simp only [Stack.pushReadlinkRes, hi0, if_false, if_neg]
    simp only [iterIsEmpty, List.isEmpty_cons, and_false, if_false]
    rcases he with he | he | he <;> subst he <;> simp +decide


/-- A filesystem on which every `readlink` reports `EACCES`, with current
directory `/d`. -/
def fsAcc : Fs :=
  ⟨fun _ => .error EACCES, fun _ => .error EACCES, [slashB, 100], 40⟩

/-- The same filesystem except `readlink` reports "not a symlink". -/
def fsNotLink : Fs :=
  ⟨fun _ => .error EINVAL, fun _ => .error EACCES, [slashB, 100], 40⟩

/-- A filesystem on which every `readlink` and `stat` reports `ENOENT`, with
current directory `/d`. -/
def fsEnt : Fs :=
  ⟨fun _ => .error ENOENT, fun _ => .error ENOENT, [slashB, 100], 40⟩

/-- The same filesystem except `readlink` reports "not a symlink". -/
def fsEntNl : Fs :=
  ⟨fun _ => .error EINVAL, fun _ => .error ENOENT, [slashB, 100], 40⟩

/-- Claim C2 counterexample: resolving the final (and only) component of `a`
under `ALLOW_LAST_MISSING` alone with `readlink` failing `EACCES` propagates
`EACCES`, while the claim demands the error be suppressed with resolution
continuing — as the contrast run on the same filesystem with `a` merely not a
symlink shows, that continuation would have succeeded with `/d/a`. -/
theorem C2_counterexample :
    realpathRawInner fsAcc ⟨false, true, false⟩ [97]
        (List.replicate 4 0) (List.replicate 4 0) = .error EACCES ∧
      realpathRawInner fsNotLink ⟨false, true, false⟩ [97]
        (List.replicate 4 0) (List.replicate 4 0)
        = .ok [slashB, 100, slashB, 97] := by
  decide

/-- Witness for C2 at `e = ENOENT` over the concrete filesystems `fsEnt` and
`fsEntNl` with four-byte buffers. -/
theorem C2_witness :
    fsEnt.readlink [97] = .error ENOENT ∧ 2 ≤ (List.replicate 4 0).length ∧
      1 ≤ (List.replicate 4 0).length ∧ fsEntNl.stat = fsEnt.stat ∧
      fsEntNl.cwd = fsEnt.cwd ∧ fsEntNl.symloopMax = fsEnt.symloopMax ∧
      ((ENOENT = ENOENT → fsEntNl.readlink [97] = .error EINVAL →
        realpathRawInner fsEnt ⟨false, true, false⟩ [97]
            (List.replicate 4 0) (List.replicate 4 0) =
          realpathRawInner fsEntNl ⟨false, true, false⟩ [97]
            (List.replicate 4 0) (List.replicate 4 0)) ∧
      ((ENOENT = EACCES ∨ ENOENT = ENOTDIR) →
        realpathRawInner fsEnt ⟨false, true, false⟩ [97]
          (List.replicate 4 0) (List.replicate 4 0) = .error ENOENT) ∧
      ((ENOENT = ENOENT ∨ ENOENT = EACCES ∨ ENOENT = ENOTDIR) →
        realpathRawInner fsEnt ⟨false, true, false⟩ [97, slashB, 98]
          (List.replicate 4 0) (List.replicate 4 0) = .error ENOENT)) :=
  ⟨rfl, by decide, by decide, rfl, rfl, rfl,
    C2_allow_last_missing_amended fsEnt fsEntNl (List.replicate 4 0)
      (List.replicate 4 0) ENOENT rfl (by decide) (by decide) rfl rfl rfl⟩


theorem cstr_append_nul (l : List Nat) (h : ¬ nulB ∈ l) :
    cstr (l ++ [nulB]) = l := by
  induction l with
  | nil => decide
  | cons c r ih =>
    simp only [List.mem_cons, not_or] at h
    simp only [cstr, List.cons_append, List.takeWhile]
    rw [show (decide ¬ c = nulB) = true by simp; exact fun hc => h.1 hc.symm]
    simpa [cstr] using ih h.2

theorem rpLoopF_stat_indep (fs fs2 : Fs) (flags : Flags)
    (hrl : fs2.readlink = fs.readlink) (hmax : fs2.symloopMax = fs.symloopMax)
    (fuel : Nat) :
    ∀ st it buf links, rpLoopF fs2 flags fuel st it buf links
      = rpLoopF fs flags fuel st it buf links := by
  induction fuel with
  | zero => intro st it buf links; rfl
  | succ n ih =>
    intro st it buf links
    simp only [rpLoopF, readlink_empty, hrl, hmax, ih]

theorem mcid_skip (fs : Fs) (flags : Flags) (path : List Nat) (buf : SliceVec)
    (h : ¬ ([slashB].isSuffixOf path ∨ [slashB, dotB].isSuffixOf path)) :
    maybe_check_isdir fs flags path buf = .ok buf := by
  simp only [maybe_check_isdir]
  rw [if_neg (by simp_all)]

theorem mcid_allow (fs : Fs) (flags : Flags) (path : List Nat) (buf : SliceVec)
    (h : flags.allowMissing = true) :
    maybe_check_isdir fs flags path buf = .ok buf := by
  simp only [maybe_check_isdir]
  rw [if_neg (by simp_all)]

theorem realpath_stat_indep (fs fs2 : Fs) (flags : Flags)
    (path buf0 tmp0 : List Nat)
    (hrl : fs2.readlink = fs.readlink) (hmax : fs2.symloopMax = fs.symloopMax)
    (hcwd : fs2.cwd = fs.cwd)
    (h : ¬ ([slashB].isSuffixOf path ∨ [slashB, dotB].isSuffixOf path)) :
    realpathRawInner fs2 flags path buf0 tmp0
      = realpathRawInner fs flags path buf0 tmp0 := by
  simp only [realpathRawInner, hmax,
    rpLoopF_stat_indep fs fs2 flags hrl hmax, mcid_skip _ _ _ _ h,
    getcwdInto, hcwd]



theorem mcid_check (fs : Fs) (flags : Flags) (path : List Nat) (buf : SliceVec)
    (hends : [slashB].isSuffixOf path ∨ [slashB, dotB].isSuffixOf path)
    (hnm : flags.allowMissing = false) (hroom : buf.len < buf.capacity)
    (hInv : buf.Inv) (hnul : ¬ nulB ∈ buf.data) :
    (maybe_check_isdir fs flags path buf).map SliceVec.data =
      match fs.stat buf.data with
      | .ok true => .ok buf.data
      | .ok false => .error ENOTDIR
      | .error e =>
        if e = ENOENT ∧ flags.allowLastMissing = true then .ok buf.data
        else .error e := by
  have hproom := hroom
  simp only [SliceVec.capacity] at hproom
  simp only [maybe_check_isdir]
  rw [if_pos (by simp_all)]
  rw [SliceVec.push_ok buf nulB hroom]
  have hdat : (SliceVec.mk (buf.buf.set buf.len nulB) (buf.len + 1)).data
      = buf.data ++ [nulB] := SliceVec.push_ok_data buf nulB hroom
  have hpop : (SliceVec.mk (buf.buf.set buf.len nulB) (buf.len + 1)).pop.data
      = buf.data := by
    rw [SliceVec.pop_data _ (by simp [SliceVec.Inv, SliceVec.capacity]; omega),
      hdat]
    simp
  simp only [hdat, cstr_append_nul _ hnul, check_isdir]
  rcases hs : fs.stat buf.data with e | b
  · by_cases hl : e = ENOENT ∧ flags.allowLastMissing = true
    · simp [Except.map, hpop, hl]
    · simp [Except.map, hl]
  · cases b
    · simp +decide [Except.map]
    · simp [Except.map, hpop]



/-- A filesystem where `a` exists as a non-symlink non-directory (readlink
says `EINVAL`, stat says "not a directory"); current directory `/d`. -/
def fsFileA : Fs :=
  ⟨fun _ => .error EINVAL, fun _ => .ok false, [slashB, 100], 40⟩

/-- A filesystem where nothing exists; current directory `/d`. -/
def fsGone : Fs :=
  ⟨fun _ => .error ENOENT, fun _ => .error ENOENT, [slashB, 100], 40⟩

/-- Claim C4: the resolved-path directory check runs exactly for inputs
ending in `/` or `/.`: for other inputs the result is independent of the
`stat` oracle (and `maybe_check_isdir` is a no-op); `ALLOW_MISSING` waives
the check entirely; otherwise the buffer's path is statted and a
non-directory fails with `ENOTDIR` — `ALLOW_LAST_MISSING` waives only an
`ENOENT` from that stat and still fails `ENOTDIR` on a true non-directory —
witnessed also on concrete runs over `a/`, `a` with a non-directory `a`. -/
theorem C4_trailing_slash_dircheck (fs fs2 : Fs) (flags : Flags) (path : List Nat)
    (buf : SliceVec) (buf0 tmp0 : List Nat)
    (hrl : fs2.readlink = fs.readlink) (hmax : fs2.symloopMax = fs.symloopMax)
    (hcwd : fs2.cwd = fs.cwd) (hroom : buf.len < buf.capacity)
    (hInv : buf.Inv) (hnul : ¬ nulB ∈ buf.data) :
    (¬ ([slashB].isSuffixOf path ∨ [slashB, dotB].isSuffixOf path) →
      realpathRawInner fs2 flags path buf0 tmp0
          = realpathRawInner fs flags path buf0 tmp0 ∧
        maybe_check_isdir fs flags path buf = .ok buf) ∧
    (flags.allowMissing = true → maybe_check_isdir fs flags path buf = .ok buf) ∧
    (([slashB].isSuffixOf path ∨ [slashB, dotB].isSuffixOf path) →
      flags.allowMissing = false →
      (maybe_check_isdir fs flags path buf).map SliceVec.data =
        match fs.stat buf.data with
        | .ok true => .ok buf.data
        | .ok false => .error ENOTDIR
        | .error e =>
          if e = ENOENT ∧ flags.allowLastMissing = true then .ok buf.data
          else .error e) ∧
    realpathRawInner fsFileA Flags.empty [97, slashB]
      (List.replicate 6 0) (List.replicate 4 0) = .error ENOTDIR ∧
    realpathRawInner fsFileA ⟨true, false, false⟩ [97, slashB]
      (List.replicate 6 0) (List.replicate 4 0)
      = .ok [slashB, 100, slashB, 97] ∧
    realpathRawInner fsFileA ⟨false, true, false⟩ [97, slashB]
      (List.replicate 6 0) (List.replicate 4 0) = .error ENOTDIR ∧
    realpathRawInner fsGone ⟨false, true, false⟩ [97, slashB]
      (List.replicate 6 0) (List.replicate 4 0)
      = .ok [slashB, 100, slashB, 97] ∧
    realpathRawInner fsFileA Flags.empty [97]
      (List.replicate 6 0) (List.replicate 4 0)
      = .ok [slashB, 100, slashB, 97] :=
  ⟨fun h => ⟨realpath_stat_indep fs fs2 flags path buf0 tmp0 hrl hmax hcwd h,
      mcid_skip fs flags path buf h⟩,
    fun h => mcid_allow fs flags path buf h,
    fun h1 h2 => mcid_check fs flags path buf h1 h2 hroom hInv hnul,
    by decide, by decide, by decide, by decide, by decide⟩


/-- Witness for C4 over `fsFileA`, path `a/`, and an empty two-byte buffer. -/
theorem C4_witness :
    fsFileA.readlink = fsFileA.readlink ∧
      (SliceVec.mk [0, 0] 0).len < (SliceVec.mk [0, 0] 0).capacity ∧
      (SliceVec.mk [0, 0] 0).Inv ∧ ¬ nulB ∈ (SliceVec.mk [0, 0] 0).data ∧
      ((¬ ([slashB].isSuffixOf [97, slashB] ∨
          [slashB, dotB].isSuffixOf [97, slashB]) →
        realpathRawInner fsFileA Flags.empty [97, slashB] [] []
            = realpathRawInner fsFileA Flags.empty [97, slashB] [] [] ∧
          maybe_check_isdir fsFileA Flags.empty [97, slashB]
            (SliceVec.mk [0, 0] 0) = .ok (SliceVec.mk [0, 0] 0)) ∧
      (Flags.empty.allowMissing = true →
        maybe_check_isdir fsFileA Flags.empty [97, slashB]
          (SliceVec.mk [0, 0] 0) = .ok (SliceVec.mk [0, 0] 0)) ∧
      (([slashB].isSuffixOf [97, slashB] ∨
          [slashB, dotB].isSuffixOf [97, slashB]) →
        Flags.empty.allowMissing = false →
        (maybe_check_isdir fsFileA Flags.empty [97, slashB]
            (SliceVec.mk [0, 0] 0)).map SliceVec.data =
          match fsFileA.stat (SliceVec.mk [0, 0] 0).data with
          | .ok true => .ok (SliceVec.mk [0, 0] 0).data
          | .ok false => .error ENOTDIR
          | .error e =>
            if e = ENOENT ∧ Flags.empty.allowLastMissing = true
            then .ok (SliceVec.mk [0, 0] 0).data else .error e) ∧
      realpathRawInner fsFileA Flags.empty [97, slashB]
        (List.replicate 6 0) (List.replicate 4 0) = .error ENOTDIR ∧
      realpathRawInner fsFileA ⟨true, false, false⟩ [97, slashB]
        (List.replicate 6 0) (List.replicate 4 0)
        = .ok [slashB, 100, slashB, 97] ∧
      realpathRawInner fsFileA ⟨false, true, false⟩ [97, slashB]
        (List.replicate 6 0) (List.replicate 4 0) = .error ENOTDIR ∧
      realpathRawInner fsGone ⟨false, true, false⟩ [97, slashB]
        (List.replicate 6 0) (List.replicate 4 0)
        = .ok [slashB, 100, slashB, 97] ∧
      realpathRawInner fsFileA Flags.empty [97]
        (List.replicate 6 0) (List.replicate 4 0)
        = .ok [slashB, 100, slashB, 97]) :=
  ⟨rfl, by decide, by decide, by decide,
    C4_trailing_slash_dircheck fsFileA fsFileA Flags.empty [97, slashB]
      (SliceVec.mk [0, 0] 0) [] [] rfl rfl rfl (by decide) (by decide)
      (by decide)⟩

end RealpathExt

namespace RealpathExt

theorem findIdx?_cons_shift (p : Nat → Bool) (c : Nat) (r : List Nat) :
    (c :: r).findIdx? p = if p c then some 0 else (r.findIdx? p).map (· + 1) := by
  rw [List.findIdx?_cons, List.findIdx?_succ]

theorem mem_strip_leading {x : Nat} {s : List Nat}
    (h : x ∈ strip_leading_slashes s) : x ∈ s := by
  induction s with
  | nil => simpa [strip_leading_slashes] using h
  | cons c r ih =>
    by_cases hc : c = slashB
    · simp only [strip_leading_slashes, hc, if_true] at h
      exact List.mem_cons_of_mem _ (ih (by simpa [slashB] using h))
    · simpa [strip_leading_slashes, hc] using h

theorem strip_leading_no_nul {s : List Nat} (h : ¬ nulB ∈ s) :
    ¬ nulB ∈ strip_leading_slashes s := fun hx => h (mem_strip_leading hx)

theorem skipSlashesNul_eq_strip (s : List Nat) (h : ¬ nulB ∈ s) :
    Stack.skipSlashesNul s = strip_leading_slashes s := by
  unfold Stack.skipSlashesNul
  rcases hs : strip_leading_slashes s with _ | ⟨c, r⟩
  · rfl
  · have hc : ¬ c = nulB := by
      intro hc
      exact strip_leading_no_nul h (by rw [hs, hc]; exact List.mem_cons_self _ _)
    simp [hc]

theorem findIdx?_pred_eq {s : List Nat} (h : ¬ nulB ∈ s) :
    s.findIdx? (fun x => x = slashB ∨ x = nulB)
      = s.findIdx? (fun x => x = slashB) := by
  induction s with
  | nil => rfl
  | cons c r ih =>
    simp only [List.mem_cons, not_or] at h
    rw [findIdx?_cons_shift, findIdx?_cons_shift, ih h.2]
    congr 1
    have : ¬ c = nulB := fun hc => h.1 hc.symm
    simp [this]

theorem lslash_diff (s : List Nat) :
    s.length - (strip_leading_slashes s).length = leadingSlashes s := by
  have h1 := length_strip_leading s
  have h2 := leadingSlashes_le s
  omega

theorem root_cond_iff (path : List Nat) :
    path.length - (strip_leading_slashes path).length = 1 ↔
      (path.head? = some slashB ∧ (path.drop 1).head? ≠ some slashB) := by
  rw [lslash_diff]
  rcases path with _ | ⟨c, r⟩
  · simp [leadingSlashes]
  · by_cases hc : c = slashB
    · subst hc
      simp only [leadingSlashes, if_pos rfl, List.head?, List.drop_one,
        List.tail]
      rcases r with _ | ⟨d, r2⟩
      · simp [leadingSlashes]
      · by_cases hd : d = slashB
        · simp [leadingSlashes, hd]
        · simp only [leadingSlashes, hd, if_false]
          simp only [true_and]
          constructor
          · intro _ h
            simp only [Option.some.injEq] at h
            exact hd h
          · intro _
            rfl
    · simp only [leadingSlashes, hc, if_false]
      constructor
      · intro h
        omega
      · intro h
        rcases h with ⟨h1, _⟩
        simp only [List.head?, Option.some.injEq] at h1
        exact absurd h1 hc

end RealpathExt

namespace RealpathExt

theorem nextF_eq (fuel : Nat) : ∀ s : List Nat, ¬ nulB ∈ s →
    Stack.nextF fuel s = ComponentIter.nextF fuel s := by
  induction fuel with
  | zero => intro s _; rfl
  | succ f ih =>
    intro s h
    rcases hs : s with _ | ⟨c, path⟩
    · rfl
    · subst hs
      simp only [List.mem_cons, not_or] at h
      by_cases hc : c = slashB
      · subst hc
        simp only [Stack.nextF, ComponentIter.nextF, if_pos rfl, if_true]
        rw [skipSlashesNul_eq_strip path h.2]
        by_cases hcond : path.length - (strip_leading_slashes path).length = 1
        · rw [if_pos hcond, if_pos ((root_cond_iff path).mp hcond)]
        · rw [if_neg hcond, if_neg (fun hx => hcond ((root_cond_iff path).mpr hx))]
      · have hnul : ¬ nulB ∈ c :: path := by
          simp only [List.mem_cons, not_or]
          exact h
        simp only [Stack.nextF, ComponentIter.nextF, if_neg hc,
          findIdx?_pred_eq hnul]
        rcases hidx : (c :: path).findIdx? (fun x => decide (x = slashB))
            with _ | idx
        · rfl
        · have hrestnul : ¬ nulB ∈ strip_leading_slashes ((c :: path).drop idx) := by
            intro hx
            exact hnul (List.drop_subset _ _ (mem_strip_leading hx))
          have hidx1 : ∃ j, idx = j + 1 := by
            rw [findIdx?_cons_shift] at hidx
            rw [if_neg (by simp [hc])] at hidx
            rcases h2 : path.findIdx? (fun x => decide (x = slashB)) with _ | j
            · rw [h2] at hidx
              exact absurd hidx (by simp)
            · rw [h2] at hidx
              simp at hidx
              exact ⟨j, by omega⟩
          have hcompne : ¬ (c :: path).take idx = [] := by
            rcases hidx1 with ⟨j, hj⟩
            subst hj
            simp [List.take_succ_cons]
          dsimp only
          rw [skipSlashesNul_eq_strip ((c :: path).drop idx) (fun hx =>
            hnul (List.drop_subset _ _ hx))]
          by_cases hdot : (c :: path).take idx = [dotB]
          · rw [if_pos (Or.inr hdot), if_pos hdot]
            exact ih _ hrestnul
          · rw [if_neg (by
              rintro (hx | hx)
              · exact hcompne hx
              · exact hdot hx), if_neg hdot]

theorem nextC_eq (s : List Nat) (h : ¬ nulB ∈ s) :
    Stack.nextC s = ComponentIter.next s :=
  nextF_eq (s.length + 1) s h

end RealpathExt

namespace RealpathExt

theorem findIdx?_some_spec (p : Nat → Bool) :
    ∀ (s : List Nat) (idx : Nat), s.findIdx? p = some idx →
      ∃ a t, s.drop idx = a :: t ∧ p a = true := by
  intro s
  induction s with
  | nil => intro idx h; simp [List.findIdx?] at h
  | cons c r ih =>
    intro idx h
    rw [findIdx?_cons_shift] at h
    by_cases hc : p c
    · rw [if_pos hc] at h
      simp only [Option.some.injEq] at h
      subst h
      exact ⟨c, r, rfl, hc⟩
    · rw [if_neg hc] at h
      rcases h2 : r.findIdx? p with _ | j
      · rw [h2] at h
        exact absurd h (by simp)
      · rw [h2] at h
        simp only [Option.map_some', Option.some.injEq] at h
        subst h
        rcases ih j h2 with ⟨a, t, hdrop, hpa⟩
        exact ⟨a, t, by simpa using hdrop, hpa⟩

theorem ci_next_shrink :
    ∀ (fuel : Nat) (s c : List Nat) (rest : List Nat),
      ComponentIter.nextF fuel s = (some c, rest) → rest.length < s.length := by
  intro fuel
  induction fuel with
  | zero => intro s c rest h; simp [ComponentIter.nextF] at h
  | succ f ih =>
    intro s c rest h
    rcases s with _ | ⟨x, path⟩
    · simp [ComponentIter.nextF] at h
    · by_cases hx : x = slashB
      · subst hx
        have hlen := length_strip_leading path
        simp only [ComponentIter.nextF, if_pos rfl, if_true] at h
        split at h <;>
          (simp only [Prod.mk.injEq] at h
           rcases h with ⟨_, rfl⟩
           simp only [List.length_cons]
           omega)
      · simp only [ComponentIter.nextF, if_neg hx] at h
        rcases hidx : (x :: path).findIdx? (fun b => decide (b = slashB))
            with _ | idx <;> rw [hidx] at h <;> dsimp only at h
        · split at h <;> simp only [Prod.mk.injEq] at h
          · exact absurd h.1 (by simp)
          · rcases h with ⟨_, rfl⟩
            simp
        · rcases findIdx?_some_spec _ _ _ hidx with ⟨a, t, hdrop, hpa⟩
          have ha : a = slashB := by simpa using hpa
          subst ha
          have hdl : ((x :: path).drop idx).length = (x :: path).length - idx :=
            List.length_drop _ _
          have hstriplen :
              (strip_leading_slashes ((x :: path).drop idx)).length
                < (x :: path).length := by
            rw [hdrop]
            have := length_strip_leading (slashB :: t)
            have h2 : (slashB :: t).length = (x :: path).length - idx := by
              rw [← hdrop, hdl]
            have hidxlt : idx < (x :: path).length := by
              by_contra hge
              rw [List.drop_eq_nil_of_le (by omega)] at hdrop
              exact absurd hdrop (by simp)
            simp only [leadingSlashes, if_pos rfl, if_true] at this
            have h4 := leadingSlashes_le t
            simp only [List.length_cons] at *
            omega
          split at h
          · exact lt_trans (ih _ _ _ h) hstriplen
          · simp only [Prod.mk.injEq] at h
            rcases h with ⟨_, rfl⟩
            exact hstriplen

theorem ci_next_subset :
    ∀ (fuel : Nat) (s : List Nat) (oc : Option (List Nat)) (rest : List Nat),
      ComponentIter.nextF fuel s = (oc, rest) → ∀ x ∈ rest, x ∈ s := by
  intro fuel
  induction fuel with
  | zero =>
    intro s oc rest h
    simp only [ComponentIter.nextF, Prod.mk.injEq] at h
    rw [← h.2]
    exact fun x hx => hx
  | succ f ih =>
    intro s oc rest h
    rcases s with _ | ⟨x, path⟩
    · simp only [ComponentIter.nextF, Prod.mk.injEq] at h
      rw [← h.2]
      exact fun y hy => hy
    · by_cases hx : x = slashB
      · subst hx
        simp only [ComponentIter.nextF, if_pos rfl, if_true] at h
        split at h <;>
          (simp only [Prod.mk.injEq] at h
           rcases h with ⟨_, rfl⟩
           exact fun y hy => List.mem_cons_of_mem _ (mem_strip_leading hy))
      · simp only [ComponentIter.nextF, if_neg hx] at h
        rcases hidx : (x :: path).findIdx? (fun b => decide (b = slashB))
            with _ | idx <;> rw [hidx] at h <;> dsimp only at h
        · split at h <;> simp only [Prod.mk.injEq] at h <;>
            (rcases h with ⟨_, rfl⟩
             exact fun y hy => absurd hy (List.not_mem_nil y))
        · have hsub : ∀ y ∈ strip_leading_slashes ((x :: path).drop idx),
              y ∈ x :: path :=
            fun y hy => List.drop_subset _ _ (mem_strip_leading hy)
          split at h
          · exact fun y hy => hsub y (ih _ _ _ h y hy)
          · simp only [Prod.mk.injEq] at h
            rcases h with ⟨_, rfl⟩
            exact hsub

theorem compsF_congr (next : List Nat → Option (List Nat) × List Nat)
    (hsh : ∀ s c rest, next s = (some c, rest) → rest.length < s.length) :
    ∀ (f1 : Nat), ∀ (f2 : Nat) (s : List Nat), s.length < f1 → s.length < f2 →
      compsF next f1 s = compsF next f2 s := by
  intro f1
  induction f1 with
  | zero => intro f2 s h1; omega
  | succ g ih =>
    intro f2 s h1 h2
    rcases f2 with _ | f2p
    · omega
    · simp only [compsF]
      rcases hn : next s with ⟨oc, rest⟩
      rcases oc with _ | c
      · rfl
      · have hlt := hsh s c rest hn
        dsimp only
        rw [ih f2p rest (by omega) (by omega)]

end RealpathExt

namespace RealpathExt

theorem compsF_next_eq :
    ∀ (f : Nat) (s : List Nat), ¬ nulB ∈ s →
      compsF Stack.nextC f s = compsF ComponentIter.next f s := by
  intro f
  induction f with
  | zero => intro s _; rfl
  | succ g ih =>
    intro s h
    simp only [compsF, nextC_eq s h]
    rcases hn : ComponentIter.next s with ⟨oc, rest⟩
    rcases oc with _ | c
    · rfl
    · dsimp only
      have hrest : ¬ nulB ∈ rest := fun hx =>
        h (ci_next_subset (s.length + 1) s (some c) rest hn nulB hx)
    -- continue
      rw [ih rest hrest]

theorem stackComps_eq_iterComps (s : List Nat) (h : ¬ nulB ∈ s) :
    stackComps s = iterComps s :=
  compsF_next_eq (s.length + 1) s h

theorem iterComps_unfold (s : List Nat) :
    iterComps s = match ComponentIter.next s with
      | (none, _) => []
      | (some c, rest) => c :: iterComps rest := by
  show compsF ComponentIter.next (s.length + 1) s = _
  simp only [compsF]
  rcases hn : ComponentIter.next s with ⟨oc, rest⟩
  rcases oc with _ | c
  · rfl
  · dsimp only
    have hlt : rest.length < s.length := ci_next_shrink (s.length + 1) s c rest hn
    rw [compsF_congr ComponentIter.next
      (fun q cq rq hq => ci_next_shrink (q.length + 1) q cq rq hq)
      s.length (rest.length + 1) rest (by omega) (by omega)]
    rfl

end RealpathExt

namespace RealpathExt

theorem strip_leading_eq_nil_iff (s : List Nat) :
    strip_leading_slashes s = [] ↔ ∀ x ∈ s, x = slashB := by
  induction s with
  | nil => simp [strip_leading_slashes]
  | cons c r ih =>
    by_cases hc : c = slashB
    · subst hc
      simp [strip_leading_slashes, ih]
    · simp [strip_leading_slashes, hc]

theorem strip_trailing_eq_nil_iff (s : List Nat) :
    strip_trailing_slashes s = [] ↔ ∀ x ∈ s, x = slashB := by
  induction s with
  | nil => simp [strip_trailing_slashes]
  | cons c r ih =>
    simp only [strip_trailing_slashes]
    constructor
    · intro h
      by_cases hcond : (strip_trailing_slashes r).isEmpty = true ∧ c = slashB
      · intro x hx
        rcases List.mem_cons.mp hx with h2 | h2
        · rw [h2]
          exact hcond.2
        · exact ih.mp (by simpa [List.isEmpty_iff] using hcond.1) x h2
      · rw [if_neg hcond] at h
        exact absurd h (by simp)
    · intro h
      have hc : c = slashB := h c (List.mem_cons_self c r)
      have hr : strip_trailing_slashes r = [] :=
        ih.mpr fun x hx => h x (List.mem_cons_of_mem _ hx)
      rw [if_pos ⟨by simp [hr], hc⟩]

theorem strip_trailing_cons_ne (c : Nat) (r : List Nat)
    (h : ¬ strip_trailing_slashes r = []) :
    strip_trailing_slashes (c :: r) = c :: strip_trailing_slashes r := by
  simp only [strip_trailing_slashes]
  have hre : (strip_trailing_slashes r).isEmpty = false := by
    simpa [List.isEmpty_iff] using h
  simp [hre]

theorem strip_trailing_cons_nonslash (c : Nat) (r : List Nat)
    (hc : ¬ c = slashB) :
    strip_trailing_slashes (c :: r) = c :: strip_trailing_slashes r := by
  simp [strip_trailing_slashes, hc]

theorem strip_trailing_append (a : List Nat) :
    ∀ b : List Nat, ¬ strip_trailing_slashes b = [] →
      strip_trailing_slashes (a ++ b) = a ++ strip_trailing_slashes b := by
  induction a with
  | nil => intro b _; rfl
  | cons c r ih =>
    intro b hb
    have h2 : ¬ strip_trailing_slashes (r ++ b) = [] := by
      rw [ih b hb]
      intro hx
      rcases List.append_eq_nil.mp hx with ⟨_, hx2⟩
      exact hb hx2
    rw [List.cons_append, strip_trailing_cons_ne c _ h2, ih b hb]
    simp

theorem strip_trailing_noslash (s : List Nat) (h : ∀ x ∈ s, ¬ x = slashB) :
    strip_trailing_slashes s = s := by
  induction s with
  | nil => rfl
  | cons c r ih =>
    rw [strip_trailing_cons_nonslash c r (h c (List.mem_cons_self c r)),
      ih fun x hx => h x (List.mem_cons_of_mem _ hx)]

theorem strip_trailing_snoc_slash (l : List Nat) :
    strip_trailing_slashes (l ++ [slashB]) = strip_trailing_slashes l := by
  induction l with
  | nil => decide
  | cons c r ih => simp only [List.cons_append, strip_trailing_slashes,
      List.append_eq, ih]

theorem strip_trailing_all_slash (a b : List Nat) (h : ∀ x ∈ b, x = slashB) :
    strip_trailing_slashes (a ++ b) = strip_trailing_slashes a := by
  induction b using List.reverseRecOn with
  | nil => simp
  | append_singleton b2 x ih =>
    have hx : x = slashB := h x (by simp)
    subst hx
    rw [← List.append_assoc, strip_trailing_snoc_slash]
    exact ih fun y hy => h y (List.mem_append_left _ hy)

theorem strip_commute (s : List Nat) :
    strip_leading_slashes (strip_trailing_slashes s)
      = strip_trailing_slashes (strip_leading_slashes s) := by
  induction s with
  | nil => rfl
  | cons c r ih =>
    by_cases hc : c = slashB
    · subst hc
      by_cases hr : strip_trailing_slashes r = []
      · have hall := (strip_trailing_eq_nil_iff r).mp hr
        have h1 : strip_trailing_slashes (slashB :: r) = [] := by
          rw [(strip_trailing_eq_nil_iff _).mpr]
          intro x hx
          rcases List.mem_cons.mp hx with h2 | h2
          · exact h2
          · exact hall x h2
        rw [h1]
        have h2 : strip_leading_slashes r = [] :=
          (strip_leading_eq_nil_iff r).mpr hall
        simp [strip_leading_slashes, h2, strip_trailing_slashes]
      · rw [strip_trailing_cons_ne _ _ hr]
        have h3 : strip_leading_slashes (slashB :: strip_trailing_slashes r)
            = strip_leading_slashes (strip_trailing_slashes r) := by
          simp [strip_leading_slashes]
        rw [h3, ih]
        simp [strip_leading_slashes]
    · rw [strip_trailing_cons_nonslash c r hc]
      have h4 : strip_leading_slashes (c :: strip_trailing_slashes r)
          = c :: strip_trailing_slashes r := by
        simp [strip_leading_slashes, hc]
      have h5 : strip_leading_slashes (c :: r) = c :: r := by
        simp [strip_leading_slashes, hc]
      rw [h4, h5, strip_trailing_cons_nonslash c r hc]

theorem leading_strip_trailing (s : List Nat)
    (h : ¬ strip_trailing_slashes s = []) :
    leadingSlashes (strip_trailing_slashes s) = leadingSlashes s := by
  induction s with
  | nil => rfl
  | cons c r ih =>
    by_cases hr : strip_trailing_slashes r = []
    · by_cases hc : c = slashB
      · exfalso
        apply h
        rw [(strip_trailing_eq_nil_iff _).mpr]
        intro x hx
        rcases List.mem_cons.mp hx with h2 | h2
        · rw [h2, hc]
        · exact (strip_trailing_eq_nil_iff r).mp hr x h2
      · rw [strip_trailing_cons_nonslash c r hc, hr]
        simp [leadingSlashes, hc]
    · rw [strip_trailing_cons_ne c r hr]
      by_cases hc : c = slashB
      · simp [leadingSlashes, hc, ih hr]
      · simp [leadingSlashes, hc]

end RealpathExt

namespace RealpathExt

theorem ci_nextF_congr :
    ∀ (f1 f2 : Nat) (s : List Nat), s.length < f1 → s.length < f2 →
      ComponentIter.nextF f1 s = ComponentIter.nextF f2 s := by
  intro f1
  induction f1 with
  | zero => intro f2 s h1; omega
  | succ g ih =>
    intro f2 s h1 h2
    rcases f2 with _ | f2p
    · omega
    · rcases s with _ | ⟨c, path⟩
      · rfl
      · by_cases hc : c = slashB
        · subst hc
          simp only [ComponentIter.nextF, if_pos rfl, if_true]
        · simp only [ComponentIter.nextF, if_neg hc]
          rcases hidx : (c :: path).findIdx? (fun b => decide (b = slashB))
              with _ | idx
          · rfl
          · dsimp only
            by_cases hdot : (c :: path).take idx = [dotB]
            · rw [if_pos hdot, if_pos hdot]
              rcases findIdx?_some_spec _ _ _ hidx with ⟨a, t, hdrop, hpa⟩
              have hlen : (strip_leading_slashes ((c :: path).drop idx)).length
                  ≤ path.length := by
                have h3 := length_strip_leading ((c :: path).drop idx)
                have h4 : ((c :: path).drop idx).length ≤ path.length + 1 := by
                  rw [List.length_drop]
                  simp
                have h5 : 1 ≤ leadingSlashes ((c :: path).drop idx) := by
                  rw [hdrop]
                  have ha : a = slashB := by simpa using hpa
                  simp [leadingSlashes, ha]
                omega
              exact ih f2p _ (by simp at h1 ⊢; omega) (by simp at h2 ⊢; omega)
            · rw [if_neg hdot, if_neg hdot]

theorem ci_next_name_some (c : Nat) (path : List Nat) (idx : Nat)
    (hc : ¬ c = slashB)
    (hidx : (c :: path).findIdx? (fun b => decide (b = slashB)) = some idx) :
    ComponentIter.next (c :: path) =
      if (c :: path).take idx = [dotB] then
        ComponentIter.next (strip_leading_slashes ((c :: path).drop idx))
      else (some ((c :: path).take idx),
        strip_leading_slashes ((c :: path).drop idx)) := by
  show ComponentIter.nextF _ _ = _
  simp only [ComponentIter.nextF, if_neg hc, hidx]
  by_cases hdot : (c :: path).take idx = [dotB]
  · rw [if_pos hdot, if_pos hdot]
    rcases findIdx?_some_spec _ _ _ hidx with ⟨a, t, hdrop, hpa⟩
    have hlen : (strip_leading_slashes ((c :: path).drop idx)).length
        ≤ path.length := by
      have h3 := length_strip_leading ((c :: path).drop idx)
      have h4 : ((c :: path).drop idx).length ≤ path.length + 1 := by
        rw [List.length_drop]
        simp
      have h5 : 1 ≤ leadingSlashes ((c :: path).drop idx) := by
        rw [hdrop]
        have ha : a = slashB := by simpa using hpa
        simp [leadingSlashes, ha]
      omega
    exact ci_nextF_congr (path.length + 1)
      ((strip_leading_slashes ((c :: path).drop idx)).length + 1)
      (strip_leading_slashes ((c :: path).drop idx)) (by omega) (by omega)
  · rw [if_neg hdot, if_neg hdot]

theorem ci_next_name_none (c : Nat) (path : List Nat) (hc : ¬ c = slashB)
    (hidx : (c :: path).findIdx? (fun b => decide (b = slashB)) = none) :
    ComponentIter.next (c :: path) =
      if c :: path = [dotB] then (none, []) else (some (c :: path), []) := by
  show ComponentIter.nextF _ _ = _
  simp only [ComponentIter.nextF, if_neg hc, hidx]

end RealpathExt

namespace RealpathExt

theorem strip_trailing_cons_of_ne (x : Nat) (y : List Nat)
    (h : ¬ strip_trailing_slashes (x :: y) = []) :
    strip_trailing_slashes (x :: y) = x :: strip_trailing_slashes y := by
  by_cases hy : strip_trailing_slashes y = []
  · by_cases hx : x = slashB
    · exact absurd (by simp [strip_trailing_slashes, hy, hx]) h
    · simp [strip_trailing_slashes, hy, hx]
  · exact strip_trailing_cons_ne x y hy

theorem strip_leading_head_ne (s : List Nat) (c : Nat) (t : List Nat)
    (h : strip_leading_slashes s = c :: t) : ¬ c = slashB := by
  induction s with
  | nil => simp [strip_leading_slashes] at h
  | cons x r ih =>
    by_cases hx : x = slashB
    · exact ih (by simpa [strip_leading_slashes, hx] using h)
    · simp only [strip_leading_slashes, hx, if_false] at h
      cases h
      exact hx

theorem strip_leading_all_slash_eq_nil (s : List Nat)
    (h : ∀ x ∈ strip_leading_slashes s, x = slashB) :
    strip_leading_slashes s = [] := by
  rcases hs : strip_leading_slashes s with _ | ⟨c, t⟩
  · rfl
  · exact absurd (h c (by rw [hs]; exact List.mem_cons_self c t))
      (strip_leading_head_ne s c t hs)

theorem findIdx?_take_false (p : Nat → Bool) :
    ∀ (s : List Nat) (idx : Nat), s.findIdx? p = some idx →
      ∀ x ∈ s.take idx, p x = false := by
  intro s
  induction s with
  | nil => intro idx h; simp
  | cons c r ih =>
    intro idx h x hx
    rw [findIdx?_cons_shift] at h
    by_cases hc : p c
    · rw [if_pos hc] at h
      simp only [Option.some.injEq] at h
      subst h
      simp at hx
    · rw [if_neg hc] at h
      rcases h2 : r.findIdx? p with _ | j <;> rw [h2] at h
      · exact absurd h (by simp)
      · simp only [Option.map_some', Option.some.injEq] at h
        subst h
        rcases List.mem_cons.mp (by simpa using hx) with h3 | h3
        · rw [h3]
          simpa using hc
        · exact ih j h2 x h3

theorem findIdx?_pos (p : Nat → Bool) (c : Nat) (r : List Nat) (idx : Nat)
    (hc : p c = false) (h : (c :: r).findIdx? p = some idx) :
    ∃ j, idx = j + 1 ∧ r.findIdx? p = some j := by
  rw [findIdx?_cons_shift, if_neg (by simp [hc])] at h
  rcases h2 : r.findIdx? p with _ | j <;> rw [h2] at h
  · exact absurd h (by simp)
  · simp only [Option.map_some', Option.some.injEq] at h
    exact ⟨j, h.symm, rfl⟩

theorem findIdx?_append_first (p : Nat → Bool) (b0 : Nat) (brest : List Nat)
    (hb : p b0 = true) :
    ∀ a : List Nat, (∀ x ∈ a, p x = false) →
      (a ++ b0 :: brest).findIdx? p = some a.length := by
  intro a
  induction a with
  | nil => intro _; simp [findIdx?_cons_shift, hb]
  | cons c t ih =>
    intro h
    rw [List.cons_append, findIdx?_cons_shift,
      if_neg (by simp [h c (List.mem_cons_self c t)]),
      ih fun x hx => h x (List.mem_cons_of_mem _ hx)]
    rfl

theorem leadingSlashes_all (s : List Nat) (h : ∀ x ∈ s, x = slashB) :
    leadingSlashes s = s.length := by
  induction s with
  | nil => rfl
  | cons c r ih =>
    simp [leadingSlashes, h c (List.mem_cons_self c r),
      ih fun x hx => h x (List.mem_cons_of_mem _ hx)]

theorem iterComps_name_none (c : Nat) (path : List Nat) (hc : ¬ c = slashB)
    (hidx : (c :: path).findIdx? (fun b => decide (b = slashB)) = none) :
    iterComps (c :: path) =
      if c :: path = [dotB] then [] else [c :: path] := by
  rw [iterComps_unfold, ci_next_name_none c path hc hidx]
  by_cases hdot : c :: path = [dotB]
  · simp [hdot]
  · simp only [hdot, if_false]
    rfl

end RealpathExt

namespace RealpathExt

theorem iterComps_all_slash (p : List Nat) (hne : ¬ p = [])
    (h : ∀ x ∈ p, x = slashB) :
    iterComps p = [if p.length = 2 then [slashB, slashB] else [slashB]] := by
  rcases p with _ | ⟨c, rest⟩
  · exact absurd rfl hne
  have hc : c = slashB := h c (List.mem_cons_self c rest)
  subst hc
  have hrest : ∀ x ∈ rest, x = slashB := fun x hx => h x (List.mem_cons_of_mem _ hx)
  have hstrip : strip_leading_slashes rest = [] :=
    (strip_leading_eq_nil_iff rest).mpr hrest
  rw [iterComps_unfold, iter_next_root rest, hstrip]
  simp only [List.length_nil, Nat.sub_zero, List.length_cons]
  by_cases h1 : rest.length = 1
  · rw [if_pos h1, if_pos (by omega)]
    rfl
  · rw [if_neg h1, if_neg (by omega)]
    rfl

theorem iterComps_strip_trailing_aux :
    ∀ (n : Nat) (p : List Nat), p.length ≤ n →
      ¬ strip_trailing_slashes p = [] →
      iterComps (strip_trailing_slashes p) = iterComps p := by
  intro n
  induction n with
  | zero =>
    intro p hlen h
    rcases p with _ | ⟨c, r⟩
    · exact absurd rfl h
    · simp at hlen
  | succ n ih =>
    intro p hlen h
    rcases p with _ | ⟨c, path⟩
    · exact absurd rfl h
    by_cases hc : c = slashB
    · subst hc
      have hpath : ¬ strip_trailing_slashes path = [] := by
        intro hx
        exact h ((strip_trailing_eq_nil_iff _).mpr fun x hx2 =>
          (List.mem_cons.mp hx2).elim (fun h3 => h3)
            ((strip_trailing_eq_nil_iff path).mp hx x))
      rw [strip_trailing_cons_ne slashB path hpath]
      rw [iterComps_unfold (slashB :: strip_trailing_slashes path),
          iterComps_unfold (slashB :: path),
          iter_next_root (strip_trailing_slashes path), iter_next_root path]
      have hcond : (strip_trailing_slashes path).length -
          (strip_leading_slashes (strip_trailing_slashes path)).length =
          path.length - (strip_leading_slashes path).length := by
        rw [lslash_diff, lslash_diff, leading_strip_trailing path hpath]
      rw [hcond, strip_commute path]
      have hrec : iterComps (strip_trailing_slashes (strip_leading_slashes path)) =
          iterComps (strip_leading_slashes path) := by
        by_cases hsl : strip_leading_slashes path = []
        · rw [hsl]
          rfl
        · apply ih
          · have h1 := length_strip_leading path
            have h2 : (slashB :: path).length ≤ n + 1 := hlen
            simp only [List.length_cons] at h2
            omega
          · intro hx
            rcases hsl2 : strip_leading_slashes path with _ | ⟨d, t⟩
            · exact hsl hsl2
            · have hd := strip_leading_head_ne path d t hsl2
              rw [hsl2] at hx
              exact hd ((strip_trailing_eq_nil_iff _).mp hx d (List.mem_cons_self d t))
      by_cases hr : path.length - (strip_leading_slashes path).length = 1
      · rw [if_pos hr, if_pos hr]
        dsimp only
        rw [hrec]
      · rw [if_neg hr, if_neg hr]
        dsimp only
        rw [hrec]
    · rcases hidx : (c :: path).findIdx? (fun b => decide (b = slashB)) with _ | idx
      · have hall : ∀ x ∈ c :: path, ¬ x = slashB := by
          intro x hx
          have h2 := List.findIdx?_eq_none_iff.mp hidx x hx
          simpa using h2
        rw [strip_trailing_noslash (c :: path) hall]
      · obtain ⟨j, hj, hjr⟩ := findIdx?_pos _ c path idx (by simp [hc]) hidx
        have htakef := findIdx?_take_false _ (c :: path) idx hidx
        have hcompns : ∀ x ∈ (c :: path).take idx, ¬ x = slashB := by
          intro x hx
          have h2 := htakef x hx
          simpa using h2
        obtain ⟨a, t, hdrop, hpa⟩ := findIdx?_some_spec _ (c :: path) idx hidx
        have ha : a = slashB := by simpa using hpa
        subst ha
        have hido : idx < (c :: path).length := by
          by_contra hge
          push_neg at hge
          rw [List.drop_eq_nil_of_le hge] at hdrop
          exact absurd hdrop (by simp)
        have hlen_take : ((c :: path).take idx).length = idx := by
          simp only [List.length_take]
          omega
        have htake_cons : (c :: path).take idx = c :: path.take j := by
          subst hj
          simp [List.take_succ_cons]
        have hsplit : c :: path = (c :: path).take idx ++ (c :: path).drop idx :=
          (List.take_append_drop idx (c :: path)).symm
        rw [iterComps_unfold (c :: path), ci_next_name_some c path idx hc hidx]
        by_cases hrnil : strip_leading_slashes ((c :: path).drop idx) = []
        · have hdall : ∀ x ∈ (c :: path).drop idx, x = slashB :=
            (strip_leading_eq_nil_iff _).mp hrnil
          have hst : strip_trailing_slashes (c :: path) = (c :: path).take idx := by
            conv_lhs => rw [hsplit]
            rw [strip_trailing_all_slash _ _ hdall, strip_trailing_noslash _ hcompns]
          rw [hst, hrnil]
          by_cases hdot : (c :: path).take idx = [dotB]
          · rw [if_pos hdot, hdot]
            decide
          · rw [if_neg hdot]
            dsimp only
            rw [htake_cons] at hdot ⊢
            rw [iterComps_name_none c (path.take j) hc ?hnone, if_neg hdot]
            case hnone =>
              rw [List.findIdx?_eq_none_iff]
              intro x hx
              rw [← htake_cons] at hx
              simp [hcompns x hx]
            rfl
        · have hdne : ¬ strip_trailing_slashes ((c :: path).drop idx) = [] := by
            intro hx
            exact hrnil ((strip_leading_eq_nil_iff _).mpr
              ((strip_trailing_eq_nil_iff _).mp hx))
          have hst : strip_trailing_slashes (c :: path) =
              (c :: path).take idx ++ strip_trailing_slashes ((c :: path).drop idx) := by
            conv_lhs => rw [hsplit]
            exact strip_trailing_append _ _ hdne
          have hdcons : strip_trailing_slashes ((c :: path).drop idx) =
              slashB :: strip_trailing_slashes t := by
            rw [hdrop]
            exact strip_trailing_cons_of_ne slashB t (hdrop ▸ hdne)
          have hidx2 : (strip_trailing_slashes (c :: path)).findIdx?
              (fun b => decide (b = slashB)) = some idx := by
            rw [hst, hdcons,
              findIdx?_append_first (fun b => decide (b = slashB)) slashB
                (strip_trailing_slashes t) (by simp) ((c :: path).take idx) htakef,
              hlen_take]
          rw [hst, htake_cons, List.cons_append] at hidx2 ⊢
          rw [iterComps_unfold
              (c :: (path.take j ++ strip_trailing_slashes ((c :: path).drop idx))),
            ci_next_name_some c
              (path.take j ++ strip_trailing_slashes ((c :: path).drop idx)) idx hc hidx2]
          have hq_take : (c :: (path.take j ++
              strip_trailing_slashes ((c :: path).drop idx))).take idx = c :: path.take j := by
            subst hj
            rw [List.take_succ_cons]
            have hjl : (path.take j).length = j := by
              simp only [List.length_take]
              simp only [List.length_cons] at hido
              omega
            rw [List.take_left' hjl]
          have hq_drop : (c :: (path.take j ++
              strip_trailing_slashes ((c :: path).drop idx))).drop idx =
              strip_trailing_slashes ((c :: path).drop idx) := by
            subst hj
            rw [List.drop_succ_cons]
            have hjl : (path.take j).length = j := by
              simp only [List.length_take]
              simp only [List.length_cons] at hido
              omega
            rw [List.drop_left' hjl]
          rw [hq_take, hq_drop]
          have hkey : strip_leading_slashes
              (strip_trailing_slashes ((c :: path).drop idx)) =
              strip_trailing_slashes (strip_leading_slashes ((c :: path).drop idx)) :=
            strip_commute _
          rw [hkey]
          have hrec : iterComps (strip_trailing_slashes
              (strip_leading_slashes ((c :: path).drop idx))) =
              iterComps (strip_leading_slashes ((c :: path).drop idx)) := by
            apply ih
            · have h1 := length_strip_leading ((c :: path).drop idx)
              have h2 : ((c :: path).drop idx).length = path.length + 1 - idx := by
                simp [List.length_drop]
              have h3 := leadingSlashes_le ((c :: path).drop idx)
              simp only [List.length_cons] at hlen
              omega
            · intro hx
              rcases hr2 : strip_leading_slashes ((c :: path).drop idx) with _ | ⟨e, u⟩
              · exact hrnil hr2
              · have he := strip_leading_head_ne _ e u hr2
                rw [hr2] at hx
                exact he ((strip_trailing_eq_nil_iff _).mp hx e (List.mem_cons_self e u))
          by_cases hdot : c :: path.take j = [dotB]
          · rw [if_pos hdot, if_pos hdot]
            rw [← iterComps_unfold
                (strip_trailing_slashes (strip_leading_slashes ((c :: path).drop idx))),
              ← iterComps_unfold (strip_leading_slashes ((c :: path).drop idx))]
            exact hrec
          · rw [if_neg hdot, if_neg hdot]
            dsimp only
            rw [hrec]

end RealpathExt

namespace RealpathExt

theorem iterComps_strip_trailing (p : List Nat)
    (h : ¬ strip_trailing_slashes p = []) :
    iterComps (strip_trailing_slashes p) = iterComps p :=
  iterComps_strip_trailing_aux p.length p (Nat.le_refl _) h

theorem length_strip_trailing_le (s : List Nat) :
    (strip_trailing_slashes s).length ≤ s.length := by
  induction s with
  | nil => simp [strip_trailing_slashes]
  | cons c r ih =>
    by_cases hcond : (strip_trailing_slashes r).isEmpty = true ∧ c = slashB
    · simp [strip_trailing_slashes, hcond]
    · simp only [strip_trailing_slashes, if_neg hcond, List.length_cons]
      omega

theorem mem_strip_trailing {x : Nat} : ∀ {s : List Nat},
    x ∈ strip_trailing_slashes s → x ∈ s := by
  intro s
  induction s with
  | nil => intro h; simpa [strip_trailing_slashes] using h
  | cons c r ih =>
    intro h
    by_cases hr : strip_trailing_slashes r = []
    · by_cases hc2 : c = slashB
      · rw [show strip_trailing_slashes (c :: r) = [] from by
          simp [strip_trailing_slashes, hr, hc2]] at h
        simp at h
      · rw [strip_trailing_cons_nonslash c r hc2] at h
        rcases List.mem_cons.mp h with h2 | h2
        · simp [h2]
        · exact List.mem_cons_of_mem _ (ih h2)
    · rw [strip_trailing_cons_ne c r hr] at h
      rcases List.mem_cons.mp h with h2 | h2
      · simp [h2]
      · exact List.mem_cons_of_mem _ (ih h2)

theorem drop_listWrite_self (l s : List Nat) (i : Nat)
    (h : i + s.length = l.length) :
    (listWrite l i s).drop i = s := by
  have h1 : (l.take i).length = i := by simp; omega
  have h2 : l.drop (i + s.length) = [] := List.drop_eq_nil_of_le (by omega)
  simp only [listWrite, h2, List.append_nil]
  rw [List.drop_left' h1]

theorem push_new_ok (b p p2 : List Nat) (hp : ¬ p = []) (hnul : ¬ nulB ∈ p)
    (hp2 : (if strip_trailing_slashes p = [] then
        if p.length = 2 then [slashB, slashB] else [slashB]
      else strip_trailing_slashes p) = p2)
    (hlen : p2.length ≤ b.length) :
    Stack.push (Stack.new b) p =
      .ok ⟨listWrite b (b.length - p2.length) p2, b.length - p2.length⟩ := by
  unfold Stack.push
  rw [if_neg (by simp [List.isEmpty_iff, hp]),
    if_neg (by simp [hnul])]
  dsimp only [Stack.new]
  rw [if_pos rfl, hp2, if_pos hlen]

/-- The agreement property of claim C8 between `ComponentStack::push` on an
empty stack and `ComponentIter::new`: either both fail with the same error
code, or both succeed and popping the stack until empty yields the same
component sequence as iterating over the path. -/
def pushIterAgree (p b : List Nat) : Prop :=
  match Stack.push (Stack.new b) p, ComponentIter.new p with
  | .error e1, .error e2 => e1 = e2
  | .ok st, .ok q => stackComps st.content = iterComps q
  | .ok _, .error _ => False
  | .error _, .ok _ => False

/-- Claim C8: for every byte string `p` and an empty component stack whose
backing region is at least as long as `p` (a sufficiently large region),
`ComponentStack::push p` fails with exactly the error codes of
`ComponentIter::new p` (`ENOENT` for empty input, `EINVAL` for input with an
interior `NUL`), and when both succeed, repeatedly calling the stack's `next`
until exhaustion yields exactly the components that the `ComponentIter`
yields over `p`. -/
theorem C8_stack_matches_iterator (p b : List Nat) (hfit : p.length ≤ b.length) :
    pushIterAgree p b := by
  unfold pushIterAgree
  by_cases hp : p = []
  · subst hp
    rw [show Stack.push (Stack.new b) [] = .error ENOENT from rfl]
    rfl
  · by_cases hnul : nulB ∈ p
    · rw [show Stack.push (Stack.new b) p = .error EINVAL from by
          unfold Stack.push
          rw [if_neg (by simp [List.isEmpty_iff, hp]), if_pos (by simpa using hnul)],
        show ComponentIter.new p = .error EINVAL from by
          simp [ComponentIter.new, List.isEmpty_iff, hp, hnul]]
    · have hnew : ComponentIter.new p = .ok p := by
        simp [ComponentIter.new, List.isEmpty_iff, hp, hnul]
      by_cases hst : strip_trailing_slashes p = []
      · have hallp : ∀ x ∈ p, x = slashB := (strip_trailing_eq_nil_iff p).mp hst
        have hp1 : 1 ≤ p.length := by
          rcases p with _ | _
          · exact absurd rfl hp
          · simp
        by_cases h2 : p.length = 2
        · rw [push_new_ok b p [slashB, slashB] hp hnul
              (by rw [if_pos hst, if_pos h2]) (by simp; omega), hnew]
          have hcontent : (⟨listWrite b (b.length - 2) [slashB, slashB],
              b.length - 2⟩ : Stack).content = [slashB, slashB] := by
            show (listWrite b (b.length - 2) [slashB, slashB]).drop (b.length - 2) = _
            apply drop_listWrite_self
            simp
            omega
          show stackComps (⟨listWrite b (b.length - 2) [slashB, slashB],
              b.length - 2⟩ : Stack).content = iterComps p
          rw [hcontent, stackComps_eq_iterComps _ (by decide),
            iterComps_all_slash p hp hallp, if_pos h2]
          decide
        · rw [push_new_ok b p [slashB] hp hnul
              (by rw [if_pos hst, if_neg h2]) (by simp; omega), hnew]
          have hcontent : (⟨listWrite b (b.length - 1) [slashB],
              b.length - 1⟩ : Stack).content = [slashB] := by
            show (listWrite b (b.length - 1) [slashB]).drop (b.length - 1) = _
            apply drop_listWrite_self
            simp
            omega
          show stackComps (⟨listWrite b (b.length - 1) [slashB],
              b.length - 1⟩ : Stack).content = iterComps p
          rw [hcontent, stackComps_eq_iterComps _ (by decide),
            iterComps_all_slash p hp hallp, if_neg h2]
          decide
      · have hlen2 : (strip_trailing_slashes p).length ≤ b.length :=
          le_trans (length_strip_trailing_le p) hfit
        rw [push_new_ok b p (strip_trailing_slashes p) hp hnul
            (by rw [if_neg hst]) hlen2, hnew]
        have hcontent : (⟨listWrite b (b.length - (strip_trailing_slashes p).length)
            (strip_trailing_slashes p),
            b.length - (strip_trailing_slashes p).length⟩ : Stack).content =
            strip_trailing_slashes p := by
          show (listWrite b (b.length - (strip_trailing_slashes p).length)
            (strip_trailing_slashes p)).drop
            (b.length - (strip_trailing_slashes p).length) = _
          apply drop_listWrite_self
          omega
        show stackComps (⟨listWrite b (b.length - (strip_trailing_slashes p).length)
            (strip_trailing_slashes p),
            b.length - (strip_trailing_slashes p).length⟩ : Stack).content = iterComps p
        rw [hcontent,
          stackComps_eq_iterComps _ (fun hx => hnul (mem_strip_trailing hx)),
          iterComps_strip_trailing p hst]

/-- Witness for C8 at the path `"a//b/."` in a 6-byte region. -/
theorem C8_witness :
    ([97, slashB, slashB, 98, slashB, dotB] : List Nat).length ≤
        ([0, 0, 0, 0, 0, 0] : List Nat).length ∧
      pushIterAgree [97, slashB, slashB, 98, slashB, dotB] [0, 0, 0, 0, 0, 0] :=
  ⟨by decide, C8_stack_matches_iterator
    [97, slashB, slashB, 98, slashB, dotB] [0, 0, 0, 0, 0, 0] (by decide)⟩

end RealpathExt

namespace RealpathExt

/-- The bytes of a non-first component in a slash-joined path: a `/`
separator followed by the component. -/
def joinRest : List (List Nat) → List Nat
  | [] => []
  | c :: rest => slashB :: (c ++ joinRest rest)

/-- Components joined with single `/` separators (no leading or trailing
separator). -/
def joinComps : List (List Nat) → List Nat
  | [] => []
  | c :: rest => c ++ joinRest rest

/-- Well-formed name components of a normalized path: nonempty, free of `/`,
and neither `.` nor `..`. -/
def nameOK (names : List (List Nat)) : Prop :=
  ∀ nm ∈ names, ¬ nm = [] ∧ ¬ slashB ∈ nm ∧ ¬ nm = [dotB] ∧ ¬ nm = [dotB, dotB]

/-- The normal form of claim C10: an optional root marker (`/` or `//`,
the only place a double slash may occur), then — only when rootless — a
single contiguous run of `..` components, then well-formed name components,
all joined by single slashes (so the result never ends in `/` unless it is
exactly the root marker, and contains no empty or `.` components). -/
def NormForm (d : List Nat) : Prop :=
  ∃ root k names,
    (root = [] ∨ root = [slashB] ∨ root = [slashB, slashB]) ∧
    (¬ root = [] → k = 0) ∧
    nameOK names ∧
    d = root ++ joinComps (List.replicate k [dotB, dotB] ++ names)

/-- The shape of every component yielded by `ComponentIter`: a root marker
or a nonempty slash-free non-`.` name. -/
def compOK (c : List Nat) : Prop :=
  c = [slashB] ∨ c = [slashB, slashB] ∨
    (¬ c = [] ∧ ¬ slashB ∈ c ∧ ¬ c = [dotB])

theorem joinRest_append (nm : List Nat) :
    ∀ r : List (List Nat), joinRest (r ++ [nm]) = joinRest r ++ slashB :: nm := by
  intro r
  induction r with
  | nil => simp [joinRest]
  | cons c rest ih => simp [joinRest, ih]

theorem joinComps_append_single (l : List (List Nat)) (nm : List Nat) :
    joinComps (l ++ [nm]) =
      if l = [] then nm else joinComps l ++ slashB :: nm := by
  rcases l with _ | ⟨c, rest⟩
  · simp [joinComps, joinRest]
  · simp [joinComps, joinRest_append nm rest]

theorem joinComps_ne_nil (l : List (List Nat)) (h : ¬ l = [])
    (h2 : ∀ c ∈ l, ¬ c = []) : ¬ joinComps l = [] := by
  rcases l with _ | ⟨c, rest⟩
  · exact absurd rfl h
  · have hc := h2 c (List.mem_cons_self c rest)
    simp [joinComps]
    intro hx
    exact absurd hx hc

theorem rposition_none (x : Nat) :
    ∀ t : List Nat, ¬ x ∈ t → SliceVec.rposition t x = none := by
  intro t
  induction t with
  | nil => intro _; rfl
  | cons c r ih =>
    intro h
    have hc : ¬ c = x := fun hx => h (by simp [hx])
    have hr := ih fun hx => h (List.mem_cons_of_mem _ hx)
    simp [SliceVec.rposition, hr, hc]

theorem rposition_append_noslash (x : Nat) (t : List Nat) (ht : ¬ x ∈ t) :
    ∀ r : List Nat, SliceVec.rposition (r ++ t) x = SliceVec.rposition r x := by
  intro r
  induction r with
  | nil => simpa [SliceVec.rposition] using rposition_none x t ht
  | cons c r2 ih => simp [SliceVec.rposition, ih]

theorem rposition_snoc_self (x : Nat) :
    ∀ t : List Nat, SliceVec.rposition (t ++ [x]) x = some t.length := by
  intro t
  induction t with
  | nil => simp [SliceVec.rposition]
  | cons c r ih => simp [SliceVec.rposition, ih]

theorem suffix_append_cases (s t nm : List Nat) (h : s <:+ t ++ nm) :
    s <:+ nm ∨ nm <:+ s :=
  List.suffix_or_suffix_of_suffix h (List.suffix_append t nm)

theorem mpp_cond_false (t nm : List Nat) (h1 : ¬ nm = [])
    (h2 : ¬ slashB ∈ nm) (h3 : ¬ nm = [dotB]) (h4 : ¬ nm = [dotB, dotB]) :
    ¬ (t ++ nm = [dotB, dotB] ∨
       [slashB, dotB, dotB].isSuffixOf (t ++ nm) = true) := by
  rintro (he | hs)
  · rcases t with _ | ⟨x, _ | ⟨y, _ | ⟨z, t3⟩⟩⟩
    · exact h4 (by simpa using he)
    · simp only [List.cons_append, List.cons.injEq] at he
      exact h3 he.2
    · simp only [List.cons_append, List.cons.injEq] at he
      exact h1 he.2.2
    · have := congrArg List.length he
      simp at this
  · rw [List.isSuffixOf_iff_suffix] at hs
    rcases suffix_append_cases _ t nm hs with hin | hin
    · exact h2 (hin.mem (by simp))
    · obtain ⟨u, hu⟩ := hin
      rcases u with _ | ⟨x, _ | ⟨y, _ | ⟨z, _ | ⟨w, u4⟩⟩⟩⟩
      · simp only [List.nil_append] at hu
        exact h2 (by rw [hu]; simp)
      · simp only [List.cons_append, List.cons.injEq, List.nil_append] at hu
        exact h4 hu.2
      · simp only [List.cons_append, List.cons.injEq, List.nil_append] at hu
        exact h3 hu.2.2
      · simp only [List.cons_append, List.cons.injEq, List.nil_append] at hu
        exact h1 hu.2.2.2
      · have := congrArg List.length hu
        simp at this

end RealpathExt

namespace RealpathExt

/-- The result of `makeParentPathSpec` in the truncating branch, as a
function of the last-slash index. -/
def mppArm (d : List Nat) (i : Nat) : List Nat :=
  if i = 0 then [slashB]
  else if i = 1 then
    if d.head? = some slashB then [slashB, slashB] else d.take 1
  else d.take i

theorem mpp_of_rposition (d : List Nat) (i : Nat) (hne : ¬ d = [])
    (hcond : ¬ (d = [dotB, dotB] ∨ [slashB, dotB, dotB].isSuffixOf d = true))
    (hrp : SliceVec.rposition d slashB = some i) :
    makeParentPathSpec d = mppArm d i := by
  simp only [makeParentPathSpec, if_neg hne, if_neg hcond, hrp]
  rcases i with _ | ⟨_ | m⟩
  · rfl
  · simp [mppArm]
  · simp [mppArm]

theorem normForm_nil : NormForm [] :=
  ⟨[], 0, [], Or.inl rfl, fun _ => rfl, fun nm hm => absurd hm (by simp), rfl⟩

theorem normForm_root (root : List Nat)
    (h : root = [slashB] ∨ root = [slashB, slashB]) : NormForm root :=
  ⟨root, 0, [], Or.inr h, fun _ => rfl, fun nm hm => absurd hm (by simp),
    by simp [joinComps]⟩

theorem normForm_single_name (nm : List Nat) (h1 : ¬ nm = [])
    (h2 : ¬ slashB ∈ nm) (h3 : ¬ nm = [dotB]) (h4 : ¬ nm = [dotB, dotB]) :
    NormForm nm :=
  ⟨[], 0, [nm], Or.inl rfl, fun _ => rfl,
    fun m hm => by
      rw [List.mem_singleton] at hm
      subst hm
      exact ⟨h1, h2, h3, h4⟩,
    by simp [joinComps, joinRest]⟩

theorem normForm_dots (k : Nat) :
    NormForm (joinComps (List.replicate k [dotB, dotB])) :=
  ⟨[], k, [], Or.inl rfl, fun hc => absurd rfl hc,
    fun nm hm => absurd hm (by simp), by simp⟩

theorem joinRest_cons_ne_nil (c : List Nat) (r : List (List Nat)) :
    ¬ joinRest (c :: r) = [] := by simp [joinRest]

theorem mpp_norm (d : List Nat) (h : NormForm d) :
    NormForm (makeParentPathSpec d) := by
  obtain ⟨root, k, names, hroot, hrk, hnames, hd⟩ := h
  subst hd
  rcases List.eq_nil_or_concat names with hns | ⟨ns, nm, hns⟩
  · subst hns
    rcases Nat.eq_zero_or_pos k with hk | hk
    · subst hk
      rcases hroot with hr | hr | hr <;> subst hr
      · rw [show makeParentPathSpec ([] ++ joinComps (List.replicate 0 [dotB, dotB] ++ [])) = [dotB, dotB] from by decide]
        exact ⟨[], 1, [], Or.inl rfl, fun hc => absurd rfl hc,
          fun nm hm => absurd hm (by simp), rfl⟩
      · rw [show makeParentPathSpec ([slashB] ++ joinComps (List.replicate 0 [dotB, dotB] ++ [])) = [slashB] from by decide]
        exact normForm_root [slashB] (Or.inl rfl)
      · rw [show makeParentPathSpec ([slashB, slashB] ++ joinComps (List.replicate 0 [dotB, dotB] ++ [])) = [slashB, slashB] from by decide]
        exact normForm_root [slashB, slashB] (Or.inr rfl)
    · have hr0 : root = [] := by
        by_contra hc
        have := hrk hc
        omega
      subst hr0
      simp only [List.nil_append, List.append_nil]
      obtain ⟨j, rfl⟩ : ∃ j, k = j + 1 := ⟨k - 1, by omega⟩
      have hrepne : ¬ (List.replicate (j + 1) [dotB, dotB] : List (List Nat)) = [] := by
        simp
      have hrepOK : ∀ c ∈ List.replicate (j + 1) [dotB, dotB], ¬ c = [] := by
        intro c hc
        rw [List.eq_of_mem_replicate hc]
        simp
      have hne := joinComps_ne_nil _ hrepne hrepOK
      have hcond : joinComps (List.replicate (j + 1) [dotB, dotB]) = [dotB, dotB] ∨
          [slashB, dotB, dotB].isSuffixOf
            (joinComps (List.replicate (j + 1) [dotB, dotB])) = true := by
        rcases j with _ | i
        · left
          decide
        · right
          rw [List.replicate_succ' (i + 1), joinComps_append_single,
            if_neg (by simp)]
          rw [List.isSuffixOf_iff_suffix]
          exact ⟨joinComps (List.replicate (i + 1) [dotB, dotB]), rfl⟩
      simp only [makeParentPathSpec, if_neg hne, if_pos hcond]
      rw [show joinComps (List.replicate (j + 1) [dotB, dotB]) ++ [slashB, dotB, dotB]
          = joinComps (List.replicate (j + 2) [dotB, dotB]) from by
        rw [List.replicate_succ' (j + 1), joinComps_append_single,
          if_neg (by simp)]]
      exact normForm_dots (j + 2)
  · rw [List.concat_eq_append] at hns
    subst hns
    obtain ⟨hnm1, hnm2, hnm3, hnm4⟩ := hnames nm (by simp)
    have hnsOK : nameOK ns := fun m hm => hnames m (by simp [hm])
    rw [show List.replicate k [dotB, dotB] ++ (ns ++ [nm])
        = (List.replicate k [dotB, dotB] ++ ns) ++ [nm] from by
      rw [List.append_assoc]]
    have hlOK : ∀ c ∈ List.replicate k [dotB, dotB] ++ ns, ¬ c = [] := by
      intro c hc
      rcases List.mem_append.mp hc with h2 | h2
      · rw [List.eq_of_mem_replicate h2]
        simp
      · exact (hnsOK c h2).1
    by_cases hlnil : (List.replicate k [dotB, dotB] ++ ns : List (List Nat)) = []
    · rw [hlnil, joinComps_append_single, if_pos rfl]
      rcases hroot with hr | hr | hr <;> subst hr
      · simp only [List.nil_append]
        have hcond := mpp_cond_false [] nm hnm1 hnm2 hnm3 hnm4
        simp only [List.nil_append] at hcond
        have hrp : SliceVec.rposition nm slashB = none :=
          rposition_none slashB nm hnm2
        simp only [makeParentPathSpec, if_neg hnm1, if_neg hcond, hrp]
        exact normForm_nil
      · have hcond := mpp_cond_false [slashB] nm hnm1 hnm2 hnm3 hnm4
        have hrp : SliceVec.rposition ([slashB] ++ nm) slashB = some 0 := by
          rw [rposition_append_noslash slashB nm hnm2]
          decide
        have hne : ¬ ([slashB] ++ nm : List Nat) = [] := by simp
        rw [mpp_of_rposition _ 0 hne hcond hrp,
          show mppArm ([slashB] ++ nm) 0 = [slashB] from rfl]
        exact normForm_root [slashB] (Or.inl rfl)
      · have hcond := mpp_cond_false [slashB, slashB] nm hnm1 hnm2 hnm3 hnm4
        have hrp : SliceVec.rposition ([slashB, slashB] ++ nm) slashB = some 1 := by
          rw [rposition_append_noslash slashB nm hnm2]
          decide
        have hne : ¬ ([slashB, slashB] ++ nm : List Nat) = [] := by simp
        rw [mpp_of_rposition _ 1 hne hcond hrp,
          show mppArm ([slashB, slashB] ++ nm) 1 = [slashB, slashB] from by
            simp [mppArm]]
        exact normForm_root [slashB, slashB] (Or.inr rfl)
    · rw [joinComps_append_single, if_neg hlnil]
      have hjl := joinComps_ne_nil _ hlnil hlOK
      rw [show root ++ (joinComps (List.replicate k [dotB, dotB] ++ ns) ++ slashB :: nm)
          = ((root ++ joinComps (List.replicate k [dotB, dotB] ++ ns)) ++ [slashB]) ++ nm
          from by simp [List.append_assoc]]
      have hrp : SliceVec.rposition
          (((root ++ joinComps (List.replicate k [dotB, dotB] ++ ns)) ++ [slashB]) ++ nm)
          slashB = some (root ++ joinComps (List.replicate k [dotB, dotB] ++ ns)).length := by
        rw [rposition_append_noslash slashB nm hnm2, rposition_snoc_self]
      have hne : ¬ (((root ++ joinComps (List.replicate k [dotB, dotB] ++ ns)) ++ [slashB])
          ++ nm : List Nat) = [] := by simp
      have hcond := mpp_cond_false
        ((root ++ joinComps (List.replicate k [dotB, dotB] ++ ns)) ++ [slashB]) nm
        hnm1 hnm2 hnm3 hnm4
      rw [mpp_of_rposition _ _ hne hcond hrp]
      rcases hN : (root ++ joinComps (List.replicate k [dotB, dotB] ++ ns)).length
          with _ | N1
      · exfalso
        simp only [List.length_append] at hN
        have := List.length_pos.mpr hjl
        omega
      rcases N1 with _ | m
      · -- length 1: root = [] and the single joined component is a 1-byte name
        have hlen1 : root.length +
            (joinComps (List.replicate k [dotB, dotB] ++ ns)).length = 1 := by
          simpa [List.length_append] using hN
        have hjlpos := List.length_pos.mpr hjl
        have hr0 : root = [] := by
          rcases hroot with hr | hr | hr <;> subst hr
          · rfl
          · simp only [List.length_cons, List.length_nil, Nat.zero_add] at hlen1
            omega
          · simp only [List.length_cons, List.length_nil, Nat.zero_add] at hlen1
            omega
        subst hr0
        simp only [List.length_nil, Nat.zero_add] at hlen1
        rcases hl2 : (List.replicate k [dotB, dotB] ++ ns : List (List Nat))
            with _ | ⟨c, lr⟩
        · exact absurd hl2 hlnil
        rcases lr with _ | ⟨c2, lr2⟩
        swap
        · exfalso
          rw [hl2] at hlen1
          simp only [joinComps, joinRest, List.length_append, List.length_cons] at hlen1
          have hcpos : 0 < c.length := by
            have := hlOK c (by rw [hl2]; exact List.mem_cons_self c _)
            exact List.length_pos.mpr this
          omega
        rw [hl2] at hlen1
        simp only [joinComps, joinRest, List.append_nil] at hlen1
        have hcn : c ∈ ns := by
          have hcl : c ∈ List.replicate k [dotB, dotB] ++ ns := by
            rw [hl2]
            exact List.mem_cons_self c _
          rcases List.mem_append.mp hcl with h2 | h2
          · exfalso
            rw [List.eq_of_mem_replicate h2] at hlen1
            simp at hlen1
          · exact h2
        obtain ⟨hc1, hc2, hc3, hc4⟩ := hnsOK c hcn
        rcases hc : c with _ | ⟨x, cr⟩
        · exact absurd hc hc1
        rcases cr with _ | _
        swap
        · exfalso
          rw [hc] at hlen1
          simp at hlen1
        have hxs : ¬ x = slashB := by
          intro hx
          exact hc2 (by rw [hc, hx]; simp)
        rw [show ([] ++ joinComps [[x]] ++ [slashB] ++ nm : List Nat)
            = x :: ([slashB] ++ nm) from by simp [joinComps, joinRest]]
        rw [show mppArm (x :: ([slashB] ++ nm)) (0 + 1) = [x] from by
          simp [mppArm, hxs]]
        exact normForm_single_name [x] (by simp)
          (by intro hx; exact hxs (Eq.symm (by simpa using hx)))
          (by intro hx; exact hc3 (hc.trans hx))
          (by intro hx
              have := congrArg List.length hx
              simp at this)
      · -- length at least 2: truncate back to the decomposition without `nm`
        rw [show mppArm (root ++ joinComps (List.replicate k [dotB, dotB] ++ ns)
              ++ [slashB] ++ nm) (m + 1 + 1)
            = (root ++ joinComps (List.replicate k [dotB, dotB] ++ ns)
              ++ ([slashB] ++ nm)).take (m + 1 + 1) from by
          simp [mppArm, List.append_assoc]]
        rw [List.take_left' hN]
        exact ⟨root, k, ns, hroot, hrk, hnsOK, rfl⟩

end RealpathExt

namespace RealpathExt

theorem ci_nextF_out : ∀ (fuel : Nat) (s c rest : List Nat),
    ComponentIter.nextF fuel s = (some c, rest) → compOK c := by
  intro fuel
  induction fuel with
  | zero =>
    intro s c rest h
    exact absurd h (by simp [ComponentIter.nextF])
  | succ f ih =>
    intro s c rest h
    rcases s with _ | ⟨x, path⟩
    · exact absurd h (by simp [ComponentIter.nextF])
    by_cases hx : x = slashB
    · simp only [ComponentIter.nextF, if_pos hx] at h
      by_cases hcond : path.length - (strip_leading_slashes path).length = 1
      · rw [if_pos hcond] at h
        simp only [Prod.mk.injEq, Option.some.injEq] at h
        exact Or.inr (Or.inl h.1.symm)
      · rw [if_neg hcond] at h
        simp only [Prod.mk.injEq, Option.some.injEq] at h
        exact Or.inl h.1.symm
    · simp only [ComponentIter.nextF, if_neg hx] at h
      rcases hidx : (x :: path).findIdx? (fun b => decide (b = slashB)) with _ | idx
      · rw [hidx] at h
        dsimp only at h
        by_cases hd : x :: path = [dotB]
        · rw [if_pos hd] at h
          exact absurd h (by simp)
        · rw [if_neg hd] at h
          simp only [Prod.mk.injEq, Option.some.injEq] at h
          refine Or.inr (Or.inr ?_)
          rw [← h.1]
          refine ⟨by simp, ?_, hd⟩
          intro hmem
          have h2 := List.findIdx?_eq_none_iff.mp hidx slashB hmem
          simp at h2
      · rw [hidx] at h
        dsimp only at h
        by_cases hdot : (x :: path).take idx = [dotB]
        · rw [if_pos hdot] at h
          exact ih _ _ _ h
        · rw [if_neg hdot] at h
          simp only [Prod.mk.injEq, Option.some.injEq] at h
          refine Or.inr (Or.inr ?_)
          rw [← h.1]
          obtain ⟨j, hj, _⟩ := findIdx?_pos _ x path idx (by simp [hx]) hidx
          refine ⟨?_, ?_, hdot⟩
          · subst hj
            simp [List.take_succ_cons]
          · intro hmem
            have h2 := findIdx?_take_false _ (x :: path) idx hidx slashB hmem
            simp at h2

theorem compsF_out : ∀ (fuel : Nat) (s : List Nat),
    ∀ c ∈ compsF ComponentIter.next fuel s, compOK c := by
  intro fuel
  induction fuel with
  | zero => intro s c hc; simp [compsF] at hc
  | succ f ih =>
    intro s c hc
    rcases hn : ComponentIter.next s with ⟨oc, rest⟩
    rcases oc with _ | c2
    · rw [compsF, hn] at hc
      simp at hc
    · rw [compsF, hn] at hc
      rcases List.mem_cons.mp hc with h2 | h2
      · subst h2
        exact ci_nextF_out (s.length + 1) s c rest hn
      · exact ih rest c h2

theorem iterComps_out (s : List Nat) : ∀ c ∈ iterComps s, compOK c :=
  compsF_out (s.length + 1) s

end RealpathExt

namespace RealpathExt

theorem normForm_root_name (root c : List Nat)
    (hr : root = [slashB] ∨ root = [slashB, slashB])
    (h1 : ¬ c = []) (h2 : ¬ slashB ∈ c) (h3 : ¬ c = [dotB])
    (h4 : ¬ c = [dotB, dotB]) : NormForm (root ++ c) :=
  ⟨root, 0, [c], Or.inr hr, fun _ => rfl,
    fun m hm => by
      rw [List.mem_singleton] at hm
      subst hm
      exact ⟨h1, h2, h3, h4⟩,
    by simp [joinComps, joinRest]⟩

theorem normForm_append_name_sep (d nm : List Nat) (h : NormForm d)
    (h1 : ¬ nm = []) (h2 : ¬ slashB ∈ nm) (h3 : ¬ nm = [dotB])
    (h4 : ¬ nm = [dotB, dotB]) (hne : ¬ d = []) (hne1 : ¬ d = [slashB])
    (hne2 : ¬ d = [slashB, slashB]) : NormForm ((d ++ [slashB]) ++ nm) := by
  obtain ⟨root, k, names, hroot, hrk, hnames, hd⟩ := h
  subst hd
  have hl : ¬ (List.replicate k [dotB, dotB] ++ names : List (List Nat)) = [] := by
    intro hx
    rw [hx] at hne hne1 hne2
    rcases hroot with hr | hr | hr <;> subst hr <;>
      simp [joinComps] at hne hne1 hne2
  refine ⟨root, k, names ++ [nm], hroot, hrk, ?_, ?_⟩
  · intro m hm
    rcases List.mem_append.mp hm with hm2 | hm2
    · exact hnames m hm2
    · rw [List.mem_singleton] at hm2
      subst hm2
      exact ⟨h1, h2, h3, h4⟩
  · rw [show List.replicate k [dotB, dotB] ++ (names ++ [nm])
        = (List.replicate k [dotB, dotB] ++ names) ++ [nm] from
      (List.append_assoc _ _ _).symm]
    rw [joinComps_append_single, if_neg hl]
    simp [List.append_assoc]

theorem normLoop_norm : ∀ (comps : List (List Nat)) (buf : SliceVec),
    buf.Inv → NormForm buf.data → (∀ c ∈ comps, compOK c) →
    ∀ out, normLoop comps buf = .ok out → out.Inv ∧ NormForm out.data := by
  intro comps
  induction comps with
  | nil =>
    intro buf hInv hNF _ out h
    simp only [normLoop] at h
    injection h with h2
    subst h2
    exact ⟨hInv, hNF⟩
  | cons c rest ih =>
    intro buf hInv hNF hcomps out h
    have hc := hcomps c (List.mem_cons_self c rest)
    have hrest : ∀ x ∈ rest, compOK x :=
      fun x hx => hcomps x (List.mem_cons_of_mem _ hx)
    simp only [normLoop] at h
    by_cases hcroot : c = [slashB] ∨ c = [slashB, slashB]
    · rw [if_pos hcroot] at h
      rcases hrep : buf.replace c with e | buf2 <;> rw [hrep] at h
      · simp at h
      · dsimp only at h
        have hInv2 : buf2.Inv := by
          have h2 := replace_invOk buf c
          rw [hrep] at h2
          exact h2
        have hdata2 : buf2.data = c := by
          by_cases hcap : c.length ≤ buf.capacity
          · rw [SliceVec.replace_ok buf c hcap] at hrep
            injection hrep with h2
            rw [← h2]
            exact SliceVec.replace_ok_data buf c hcap
          · rw [SliceVec.replace_err buf c (by omega)] at hrep
            exact absurd hrep (by simp)
        refine ih buf2 hInv2 ?_ hrest out h
        rw [hdata2]
        exact normForm_root c hcroot
    · rw [if_neg hcroot] at h
      by_cases hcdd : c = [dotB, dotB]
      · rw [if_pos hcdd] at h
        rcases hmp : buf.make_parent_path with e | buf2 <;> rw [hmp] at h
        · simp at h
        · dsimp only at h
          have hInv2 : buf2.Inv := by
            have h2 := make_parent_invOk buf hInv
            rw [hmp] at h2
            exact h2
          have hdata2 : buf2.data = makeParentPathSpec buf.data := by
            have h2 := make_parent_path_eq_spec buf hInv
            rw [hmp] at h2
            by_cases hfit : (makeParentPathSpec buf.data).length ≤ buf.capacity
            · rw [if_pos hfit] at h2
              simpa [Except.map] using h2
            · rw [if_neg hfit] at h2
              simp [Except.map] at h2
          refine ih buf2 hInv2 ?_ hrest out h
          rw [hdata2]
          exact mpp_norm buf.data hNF
      · rw [if_neg hcdd] at h
        rcases hc with hc1 | hc1 | ⟨hcne, hcs, hcdot⟩
        · exact absurd (Or.inl hc1) hcroot
        · exact absurd (Or.inr hc1) hcroot
        by_cases hsep : buf.data = [slashB] ∨ buf.data = [slashB, slashB] ∨
            buf.data = []
        · rw [if_pos hsep] at h
          dsimp only at h
          rcases hext : buf.extend_from_slice c with e | buf2 <;> rw [hext] at h
          · simp at h
          · dsimp only at h
            have hInv2 : buf2.Inv := by
              have h2 := extend_invOk buf c
              rw [hext] at h2
              exact h2
            have hdata2 : buf2.data = buf.data ++ c := by
              have h2 := extend_map_data buf c hInv
              rw [hext] at h2
              by_cases hfit : buf.data.length + c.length ≤ buf.capacity
              · rw [if_pos hfit] at h2
                simpa [Except.map] using h2
              · rw [if_neg hfit] at h2
                simp [Except.map] at h2
            refine ih buf2 hInv2 ?_ hrest out h
            rw [hdata2]
            rcases hsep with hs | hs | hs <;> rw [hs]
            · exact normForm_root_name [slashB] c (Or.inl rfl) hcne hcs hcdot hcdd
            · exact normForm_root_name [slashB, slashB] c (Or.inr rfl)
                hcne hcs hcdot hcdd
            · rw [List.nil_append]
              exact normForm_single_name c hcne hcs hcdot hcdd
        · rw [if_neg hsep] at h
          push_neg at hsep
          obtain ⟨hs1, hs2, hs3⟩ := hsep
          rcases hpush : buf.push slashB with e | bufp <;> rw [hpush] at h
          · simp at h
          · dsimp only at h
            have hInvp : bufp.Inv := by
              have h2 := push_invOk buf slashB
              rw [hpush] at h2
              exact h2
            have hdatap : bufp.data = buf.data ++ [slashB] := by
              by_cases hlt : buf.len < buf.capacity
              · rw [SliceVec.push_ok buf slashB hlt] at hpush
                injection hpush with h2
                rw [← h2]
                exact SliceVec.push_ok_data buf slashB hlt
              · rw [SliceVec.push_err buf slashB (by omega)] at hpush
                exact absurd hpush (by simp)
            rcases hext : bufp.extend_from_slice c with e | buf2 <;> rw [hext] at h
            · simp at h
            · dsimp only at h
              have hInv2 : buf2.Inv := by
                have h2 := extend_invOk bufp c
                rw [hext] at h2
                exact h2
              have hdata2 : buf2.data = (buf.data ++ [slashB]) ++ c := by
                have h2 := extend_map_data bufp c hInvp
                rw [hext] at h2
                by_cases hfit : bufp.data.length + c.length ≤ bufp.capacity
                · rw [if_pos hfit] at h2
                  rw [hdatap] at h2
                  simpa [Except.map] using h2
                · rw [if_neg hfit] at h2
                  simp [Except.map] at h2
              refine ih buf2 hInv2 ?_ hrest out h
              rw [hdata2]
              exact normForm_append_name_sep buf.data c hNF hcne hcs hcdot hcdd
                hs3 hs1 hs2

/-- Claim C10: every successful `normpath_raw` output is in normal form —
nonempty (a path collapsing to nothing yields `.`), and otherwise an optional
root marker `/` or `//` (the only permitted double slash), a contiguous run of
`..` components only when rootless, and nonempty slash-free non-`.`/`..` name
components, all joined by single slashes (hence no empty or `.` components and
no trailing slash except in the bare root markers). -/
theorem C10_normpath_normal_form (p buf0 q : List Nat)
    (h : normpath_raw p buf0 = .ok q) :
    ¬ q = [] ∧ (q = [dotB] ∨ NormForm q) := by
  unfold normpath_raw at h
  rcases hnew : ComponentIter.new p with e | p2 <;> rw [hnew] at h
  · simp at h
  · dsimp only at h
    rcases hnl : normLoop (iterComps p2) (SliceVec.empty buf0)
        with e | buf <;> rw [hnl] at h
    · simp at h
    · dsimp only at h
      have hstart : (SliceVec.empty buf0).Inv := Nat.zero_le _
      have hstartNF : NormForm (SliceVec.empty buf0).data := by
        rw [SliceVec.empty_data]
        exact normForm_nil
      obtain ⟨hInv, hNF⟩ := normLoop_norm (iterComps p2) (SliceVec.empty buf0)
        hstart hstartNF (iterComps_out p2) buf hnl
      by_cases hq0 : buf.data.isEmpty
      · rw [if_pos hq0] at h
        rcases hpd : buf.push dotB with e | buf2 <;> rw [hpd] at h
        · simp at h
        · dsimp only at h
          injection h with h2
          subst h2
          have hd2 : buf2.data = buf.data ++ [dotB] := by
            by_cases hlt : buf.len < buf.capacity
            · rw [SliceVec.push_ok buf dotB hlt] at hpd
              injection hpd with h3
              rw [← h3]
              exact SliceVec.push_ok_data buf dotB hlt
            · rw [SliceVec.push_err buf dotB (by omega)] at hpd
              exact absurd hpd (by simp)
          have hde : buf.data = [] := by simpa [List.isEmpty_iff] using hq0
          rw [hd2, hde]
          exact ⟨by simp, Or.inl rfl⟩
      · rw [if_neg hq0] at h
        injection h with h2
        subst h2
        exact ⟨by simpa [List.isEmpty_iff] using hq0, Or.inr hNF⟩

/-- Witness for C10 at the input `/a/../b/` in a 4-byte buffer, which
normalizes to `/b`. -/
theorem C10_witness :
    normpath_raw [slashB, 97, slashB, dotB, dotB, slashB, 98, slashB]
        [0, 0, 0, 0] = .ok [slashB, 98] ∧
      (¬ ([slashB, 98] : List Nat) = [] ∧
        (([slashB, 98] : List Nat) = [dotB] ∨ NormForm [slashB, 98])) :=
  ⟨by decide, C10_normpath_normal_form
    [slashB, 97, slashB, dotB, dotB, slashB, 98, slashB] [0, 0, 0, 0]
    [slashB, 98] (by decide)⟩

end RealpathExt

namespace RealpathExt

theorem truncate_inv (v : SliceVec) (n : Nat) (h : v.Inv) :
    (v.truncate n).Inv := by
  simp only [SliceVec.truncate, SliceVec.Inv, SliceVec.capacity] at h ⊢
  omega

theorem pop_inv (v : SliceVec) (h : v.Inv) : v.pop.Inv := by
  simp only [SliceVec.pop, SliceVec.Inv, SliceVec.capacity] at h ⊢
  omega

theorem clear_inv (v : SliceVec) : v.clear.Inv := by
  simp [SliceVec.clear, SliceVec.Inv]

theorem truncate_cap (v : SliceVec) (n : Nat) :
    (v.truncate n).capacity = v.capacity := rfl

theorem pop_cap (v : SliceVec) : v.pop.capacity = v.capacity := rfl

theorem clear_cap (v : SliceVec) : v.clear.capacity = v.capacity := rfl

theorem push_cap (v : SliceVec) (c : Nat) (w : SliceVec)
    (h : v.push c = .ok w) : w.capacity = v.capacity := by
  unfold SliceVec.push at h
  by_cases hlt : v.len < v.capacity
  · rw [if_pos hlt] at h
    injection h with h2
    subst h2
    simp [SliceVec.capacity]
  · rw [if_neg hlt] at h
    exact absurd h (by simp)

theorem extend_cap (v : SliceVec) (s : List Nat) (w : SliceVec)
    (h : v.extend_from_slice s = .ok w) : w.capacity = v.capacity := by
  unfold SliceVec.extend_from_slice at h
  by_cases hc : v.len + s.length ≤ v.capacity
  · rw [if_pos hc] at h
    injection h with h2
    subst h2
    simp only [SliceVec.capacity]
    exact length_listWrite v.buf s v.len hc
  · rw [if_neg hc] at h
    exact absurd h (by simp)

theorem replace_cap (v : SliceVec) (s : List Nat) (w : SliceVec)
    (h : v.replace s = .ok w) : w.capacity = v.capacity := by
  unfold SliceVec.replace at h
  by_cases hc : s.length ≤ v.capacity
  · rw [if_pos hc] at h
    injection h with h2
    subst h2
    simp only [SliceVec.capacity]
    exact length_listWrite v.buf s 0 (by simpa using hc)
  · rw [if_neg hc] at h
    exact absurd h (by simp)

theorem make_parent_cap (v : SliceVec) (w : SliceVec)
    (h : v.make_parent_path = .ok w) : w.capacity = v.capacity := by
  unfold SliceVec.make_parent_path at h
  by_cases h0 : v.data.isEmpty
  · rw [if_pos h0] at h
    exact extend_cap v _ w h
  · rw [if_neg h0] at h
    by_cases h1 : v.data = [dotB, dotB] ∨ [slashB, dotB, dotB].isSuffixOf v.data
    · rw [if_pos h1] at h
      exact extend_cap v _ w h
    · rw [if_neg h1] at h
      rcases hrp : SliceVec.rposition v.data slashB with _ | n <;> rw [hrp] at h
      · injection h with h2
        subst h2
        rfl
      · match n, h with
        | 0, h =>
          injection h with h2
          subst h2
          rfl
        | 1, h =>
          by_cases hh : v.data.head? = some slashB
          · rw [if_pos hh] at h
            injection h with h2
            subst h2
            rfl
          · rw [if_neg hh] at h
            injection h with h2
            subst h2
            rfl
        | (m + 2), h =>
          injection h with h2
          subst h2
          rfl

theorem remove_range0_data (v : SliceVec) (stop : Nat) (h : v.Inv) :
    (v.remove_range 0 stop).data = v.data.drop stop := by
  have hb : v.len ≤ v.buf.length := h
  show (listWrite v.buf 0 ((v.buf.drop stop).take (v.len - stop))).take
      (v.len - (stop - 0)) = (v.buf.take v.len).drop stop
  by_cases hs : stop ≤ v.len
  · have hslen : ((v.buf.drop stop).take (v.len - stop)).length = v.len - stop := by
      simp only [List.length_take, List.length_drop]
      omega
    rw [show v.len - (stop - 0) = v.len - stop from by omega]
    rw [show listWrite v.buf 0 ((v.buf.drop stop).take (v.len - stop))
        = (v.buf.drop stop).take (v.len - stop)
          ++ v.buf.drop (0 + ((v.buf.drop stop).take (v.len - stop)).length)
        from rfl]
    rw [List.take_left' hslen, List.drop_take]
  · have h1 : v.len - stop = 0 := by omega
    have h2 : v.len - (stop - 0) = 0 := by omega
    rw [h1, h2, List.take_zero]
    rw [List.drop_eq_nil_of_le (by
      simp only [List.length_take]
      omega)]

theorem remove_range0_inv (v : SliceVec) (stop : Nat) (h : v.Inv) :
    (v.remove_range 0 stop).Inv := by
  have hb : v.len ≤ v.buf.length := h
  have hslen : ((v.buf.drop stop).take (v.len - stop)).length ≤ v.buf.length := by
    simp only [List.length_take, List.length_drop]
    omega
  show v.len - (stop - 0) ≤ (listWrite v.buf 0 _).length
  rw [length_listWrite v.buf _ 0 (by omega)]
  omega

theorem remove_range0_cap (v : SliceVec) (stop : Nat) (h : v.Inv) :
    (v.remove_range 0 stop).capacity = v.capacity := by
  have hb : v.len ≤ v.buf.length := h
  have hslen : ((v.buf.drop stop).take (v.len - stop)).length ≤ v.buf.length := by
    simp only [List.length_take, List.length_drop]
    omega
  show (listWrite v.buf 0 _).length = v.buf.length
  rw [length_listWrite v.buf _ 0 (by omega)]

end RealpathExt

namespace RealpathExt

/-- Relation between the outcomes of the same buffer operation performed on a
smaller-capacity and a larger-capacity buffer holding the same contents: on
the large buffer the operation can only do better — either both succeed with
the same contents (and preserved invariant/capacity), or the small one fails
with the capacity error, or both fail with the same error. -/
def MirrorStep (vS vB : SliceVec) (rS rB : Except Int SliceVec) : Prop :=
  match rS, rB with
  | .ok wS, .ok wB => wS.data = wB.data ∧ wS.Inv ∧ wB.Inv ∧
      wS.capacity = vS.capacity ∧ wB.capacity = vB.capacity
  | .error e1, .error e2 => e1 = e2 ∨ e1 = ENAMETOOLONG
  | .error e1, .ok _ => e1 = ENAMETOOLONG
  | .ok _, .error _ => False

theorem mirror_replace (vS vB : SliceVec) (s : List Nat)
    (hd : vS.data = vB.data) (hc : vS.capacity ≤ vB.capacity) :
    MirrorStep vS vB (vS.replace s) (vB.replace s) := by
  by_cases h1 : s.length ≤ vS.capacity
  · rw [SliceVec.replace_ok vS s h1, SliceVec.replace_ok vB s (le_trans h1 hc)]
    refine ⟨?_, ?_, ?_, ?_, ?_⟩
    · rw [SliceVec.replace_ok_data vS s h1,
        SliceVec.replace_ok_data vB s (le_trans h1 hc)]
    · have h2 := replace_invOk vS s
      rw [SliceVec.replace_ok vS s h1] at h2
      exact h2
    · have h2 := replace_invOk vB s
      rw [SliceVec.replace_ok vB s (le_trans h1 hc)] at h2
      exact h2
    · exact replace_cap vS s _ (SliceVec.replace_ok vS s h1)
    · exact replace_cap vB s _ (SliceVec.replace_ok vB s (le_trans h1 hc))
  · rw [SliceVec.replace_err vS s (by omega)]
    by_cases h2 : s.length ≤ vB.capacity
    · rw [SliceVec.replace_ok vB s h2]
      exact rfl
    · rw [SliceVec.replace_err vB s (by omega)]
      exact Or.inl rfl

theorem mirror_push (vS vB : SliceVec) (c : Nat)
    (hd : vS.data = vB.data) (hc : vS.capacity ≤ vB.capacity)
    (hIS : vS.Inv) (hIB : vB.Inv) :
    MirrorStep vS vB (vS.push c) (vB.push c) := by
  have hleq : vS.len = vB.len := by
    rw [← SliceVec.data_length vS hIS, hd, SliceVec.data_length vB hIB]
  by_cases h1 : vS.len < vS.capacity
  · have h2 : vB.len < vB.capacity := by omega
    rw [SliceVec.push_ok vS c h1, SliceVec.push_ok vB c h2]
    refine ⟨?_, ?_, ?_, ?_, ?_⟩
    · rw [SliceVec.push_ok_data vS c h1, SliceVec.push_ok_data vB c h2, hd]
    · have h3 := push_invOk vS c
      rw [SliceVec.push_ok vS c h1] at h3
      exact h3
    · have h3 := push_invOk vB c
      rw [SliceVec.push_ok vB c h2] at h3
      exact h3
    · exact push_cap vS c _ (SliceVec.push_ok vS c h1)
    · exact push_cap vB c _ (SliceVec.push_ok vB c h2)
  · rw [SliceVec.push_err vS c (by omega)]
    by_cases h2 : vB.len < vB.capacity
    · rw [SliceVec.push_ok vB c h2]
      exact rfl
    · rw [SliceVec.push_err vB c (by omega)]
      exact Or.inl rfl

theorem mirror_extend (vS vB : SliceVec) (s : List Nat)
    (hd : vS.data = vB.data) (hc : vS.capacity ≤ vB.capacity)
    (hIS : vS.Inv) (hIB : vB.Inv) :
    MirrorStep vS vB (vS.extend_from_slice s) (vB.extend_from_slice s) := by
  have hleq : vS.len = vB.len := by
    rw [← SliceVec.data_length vS hIS, hd, SliceVec.data_length vB hIB]
  by_cases h1 : vS.len + s.length ≤ vS.capacity
  · have h2 : vB.len + s.length ≤ vB.capacity := by omega
    rw [SliceVec.extend_ok vS s h1, SliceVec.extend_ok vB s h2]
    refine ⟨?_, ?_, ?_, ?_, ?_⟩
    · rw [SliceVec.extend_ok_data vS s hIS h1,
        SliceVec.extend_ok_data vB s hIB h2, hd]
    · have h3 := extend_invOk vS s
      rw [SliceVec.extend_ok vS s h1] at h3
      exact h3
    · have h3 := extend_invOk vB s
      rw [SliceVec.extend_ok vB s h2] at h3
      exact h3
    · exact extend_cap vS s _ (SliceVec.extend_ok vS s h1)
    · exact extend_cap vB s _ (SliceVec.extend_ok vB s h2)
  · rw [SliceVec.extend_err vS s (by omega)]
    by_cases h2 : vB.len + s.length ≤ vB.capacity
    · rw [SliceVec.extend_ok vB s h2]
      exact rfl
    · rw [SliceVec.extend_err vB s (by omega)]
      exact Or.inl rfl

theorem mirror_make_parent (vS vB : SliceVec)
    (hd : vS.data = vB.data) (hc : vS.capacity ≤ vB.capacity)
    (hIS : vS.Inv) (hIB : vB.Inv) :
    MirrorStep vS vB vS.make_parent_path vB.make_parent_path := by
  have hSspec := make_parent_path_eq_spec vS hIS
  have hBspec := make_parent_path_eq_spec vB hIB
  rw [hd] at hSspec
  by_cases h1 : (makeParentPathSpec vB.data).length ≤ vS.capacity
  · rw [if_pos h1] at hSspec
    rw [if_pos (le_trans h1 hc)] at hBspec
    rcases hS : vS.make_parent_path with e | wS <;> rw [hS] at hSspec
    · exact absurd hSspec (by simp [Except.map])
    rcases hB : vB.make_parent_path with e | wB <;> rw [hB] at hBspec
    · exact absurd hBspec (by simp [Except.map])
    have hdS : wS.data = makeParentPathSpec vB.data := by
      simpa [Except.map] using hSspec
    have hdB : wB.data = makeParentPathSpec vB.data := by
      simpa [Except.map] using hBspec
    refine ⟨hdS.trans hdB.symm, ?_, ?_, ?_, ?_⟩
    · have h3 := make_parent_invOk vS hIS
      rw [hS] at h3
      exact h3
    · have h3 := make_parent_invOk vB hIB
      rw [hB] at h3
      exact h3
    · exact make_parent_cap vS wS hS
    · exact make_parent_cap vB wB hB
  · rw [if_neg h1] at hSspec
    rcases hS : vS.make_parent_path with e | wS <;> rw [hS] at hSspec
    swap
    · exact absurd hSspec (by simp [Except.map])
    have heS : e = ENAMETOOLONG := by
      simpa [Except.map] using hSspec
    rcases hB : vB.make_parent_path with e2 | wB
    · subst heS
      exact Or.inr rfl
    · exact heS

end RealpathExt

namespace RealpathExt

theorem getcwd_head (l : List Nat) (fs : Fs) :
    (listWrite l 0 (fs.cwd ++ [nulB])).head? = (fs.cwd ++ [nulB]).head? := by
  show ((fs.cwd ++ [nulB]) ++ l.drop (0 + (fs.cwd ++ [nulB]).length)).head? = _
  rcases h : fs.cwd ++ [nulB] with _ | ⟨x, t⟩
  · exact absurd h (by simp)
  · rfl

theorem getcwd_ok_parts (l : List Nat) (fs : Fs)
    (hcap : fs.cwd.length + 1 ≤ l.length) :
    (listWrite l 0 (fs.cwd ++ [nulB])).length = l.length ∧
    (listWrite l 0 (fs.cwd ++ [nulB])).findIdx (fun x => x = nulB)
      = (fs.cwd ++ [nulB]).findIdx (fun x => x = nulB) ∧
    (listWrite l 0 (fs.cwd ++ [nulB])).take
        ((fs.cwd ++ [nulB]).findIdx (fun x => x = nulB))
      = (fs.cwd ++ [nulB]).take ((fs.cwd ++ [nulB]).findIdx (fun x => x = nulB)) ∧
    (fs.cwd ++ [nulB]).findIdx (fun x => x = nulB) < fs.cwd.length + 1 := by
  have hlt : (fs.cwd ++ [nulB]).findIdx (fun x => x = nulB)
      < (fs.cwd ++ [nulB]).length :=
    List.findIdx_lt_length_of_exists ⟨nulB, by simp, by simp⟩
  have hwlen : (fs.cwd ++ [nulB]).length = fs.cwd.length + 1 := by simp
  have hb : listWrite l 0 (fs.cwd ++ [nulB])
      = (fs.cwd ++ [nulB]) ++ l.drop (0 + (fs.cwd ++ [nulB]).length) := rfl
  refine ⟨?_, ?_, ?_, by omega⟩
  · exact length_listWrite l _ 0 (by simpa using hcap)
  · rw [hb, List.findIdx_append, if_pos hlt]
  · rw [hb, List.take_append_of_le_length (by omega)]

theorem mirror_getcwd (fs : Fs) (vS vB : SliceVec)
    (hd : vS.data = vB.data) (hc : vS.capacity ≤ vB.capacity) :
    MirrorStep vS vB (getcwdInto fs vS) (getcwdInto fs vB) := by
  unfold getcwdInto
  by_cases h1 : vS.capacity < fs.cwd.length + 1
  · rw [if_pos h1]
    by_cases h2 : vB.capacity < fs.cwd.length + 1
    · rw [if_pos h2]
      exact Or.inl rfl
    · rw [if_neg h2]
      dsimp only
      by_cases h3 : (listWrite vB.buf 0 (fs.cwd ++ [nulB])).head? ≠ some slashB
      · rw [if_pos h3]
        exact Or.inr rfl
      · rw [if_neg h3]
        exact rfl
  · have h1B : ¬ vB.capacity < fs.cwd.length + 1 := by omega
    rw [if_neg h1, if_neg h1B]
    dsimp only
    have hcS : vS.capacity = vS.buf.length := rfl
    have hcB : vB.capacity = vB.buf.length := rfl
    obtain ⟨hlenS, hidxS, htakeS, hltw⟩ := getcwd_ok_parts vS.buf fs (by omega)
    obtain ⟨hlenB, hidxB, htakeB, _⟩ := getcwd_ok_parts vB.buf fs (by omega)
    simp only [getcwd_head]
    by_cases h3 : (fs.cwd ++ [nulB]).head? ≠ some slashB
    · rw [if_pos h3, if_pos h3]
      exact Or.inl rfl
    · rw [if_neg h3, if_neg h3]
      refine ⟨?_, ?_, ?_, ?_, ?_⟩
      · show (listWrite vS.buf 0 (fs.cwd ++ [nulB])).take
            ((listWrite vS.buf 0 (fs.cwd ++ [nulB])).findIdx (fun x => x = nulB))
          = (listWrite vB.buf 0 (fs.cwd ++ [nulB])).take
            ((listWrite vB.buf 0 (fs.cwd ++ [nulB])).findIdx (fun x => x = nulB))
        rw [hidxS, hidxB, htakeS, htakeB]
      · show (listWrite vS.buf 0 (fs.cwd ++ [nulB])).findIdx _
            ≤ (listWrite vS.buf 0 (fs.cwd ++ [nulB])).length
        rw [hidxS, hlenS]
        omega
      · show (listWrite vB.buf 0 (fs.cwd ++ [nulB])).findIdx _
            ≤ (listWrite vB.buf 0 (fs.cwd ++ [nulB])).length
        rw [hidxB, hlenB]
        omega
      · show (listWrite vS.buf 0 (fs.cwd ++ [nulB])).length = vS.capacity
        rw [hlenS, hcS]
      · show (listWrite vB.buf 0 (fs.cwd ++ [nulB])).length = vB.capacity
        rw [hlenB, hcB]

theorem insert0_data_eq (v : SliceVec) (s : List Nat) (hIv : v.Inv)
    (hfit : v.len + s.length ≤ v.capacity) :
    (SliceVec.mk (listWrite (listWrite v.buf (0 + s.length)
        ((v.buf.drop 0).take (v.len - 0))) 0 s) (v.len + s.length)).data
      = s ++ v.data := by
  have hb : v.len ≤ v.buf.length := hIv
  have hcap : v.capacity = v.buf.length := rfl
  show (listWrite (listWrite v.buf (0 + s.length)
      ((v.buf.drop 0).take (v.len - 0))) 0 s).take (v.len + s.length)
    = s ++ v.buf.take v.len
  simp only [List.drop_zero, Nat.sub_zero, Nat.zero_add]
  have htl : (v.buf.take v.len).length = v.len := by
    simp only [List.length_take]
    omega
  have hsl : (v.buf.take s.length).length = s.length := by
    simp only [List.length_take]
    omega
  have h2 : listWrite (listWrite v.buf s.length (v.buf.take v.len)) 0 s
      = s ++ (listWrite v.buf s.length (v.buf.take v.len)).drop (0 + s.length) :=
    rfl
  rw [h2]
  have h3 : (listWrite v.buf s.length (v.buf.take v.len)).drop (0 + s.length)
      = v.buf.take v.len ++ v.buf.drop (s.length + (v.buf.take v.len).length) := by
    show ((v.buf.take s.length ++ v.buf.take v.len)
        ++ v.buf.drop (s.length + (v.buf.take v.len).length)).drop (0 + s.length)
      = _
    rw [List.append_assoc, Nat.zero_add, List.drop_left' hsl]
  rw [h3, ← List.append_assoc]
  rw [List.take_left' (by
    simp only [List.length_append, htl]
    omega)]

theorem insert0_cap_eq (v : SliceVec) (s : List Nat) (hIv : v.Inv)
    (hfit : v.len + s.length ≤ v.capacity) :
    (SliceVec.mk (listWrite (listWrite v.buf (0 + s.length)
        ((v.buf.drop 0).take (v.len - 0))) 0 s) (v.len + s.length)).capacity
      = v.capacity := by
  have hb : v.len ≤ v.buf.length := hIv
  have hcap : v.capacity = v.buf.length := rfl
  show (listWrite (listWrite v.buf (0 + s.length)
      ((v.buf.drop 0).take (v.len - 0))) 0 s).length = v.capacity
  simp only [List.drop_zero, Nat.sub_zero, Nat.zero_add]
  have hb1 : (listWrite v.buf s.length (v.buf.take v.len)).length
      = v.buf.length := by
    apply length_listWrite
    simp only [List.length_take]
    omega
  rw [length_listWrite _ s 0 (by omega), hb1, hcap]

theorem mirror_insert0 (vS vB : SliceVec) (s : List Nat)
    (hd : vS.data = vB.data) (hc : vS.capacity ≤ vB.capacity)
    (hIS : vS.Inv) (hIB : vB.Inv) :
    MirrorStep vS vB (vS.insert_from_slice 0 s) (vB.insert_from_slice 0 s) := by
  have hleq : vS.len = vB.len := by
    rw [← SliceVec.data_length vS hIS, hd, SliceVec.data_length vB hIB]
  unfold SliceVec.insert_from_slice
  by_cases hse : s.isEmpty
  · rw [if_pos hse, if_pos hse]
    exact ⟨hd, hIS, hIB, rfl, rfl⟩
  · rw [if_neg hse, if_neg hse]
    by_cases h1 : vS.capacity < vS.len + s.length
    · rw [if_pos h1]
      by_cases h2 : vB.capacity < vB.len + s.length
      · rw [if_pos h2]
        exact Or.inl rfl
      · rw [if_neg h2]
        exact rfl
    · rw [if_neg h1, if_neg (show ¬ vB.capacity < vB.len + s.length by omega)]
      dsimp only
      refine ⟨?_, ?_, ?_, ?_, ?_⟩
      · rw [insert0_data_eq vS s hIS (by omega),
          insert0_data_eq vB s hIB (by omega), hd]
      · have h3 := insert_invOk vS 0 s hIS (Nat.zero_le _)
        unfold SliceVec.insert_from_slice at h3
        rw [if_neg hse, if_neg h1] at h3
        exact h3
      · have h3 := insert_invOk vB 0 s hIB (Nat.zero_le _)
        unfold SliceVec.insert_from_slice at h3
        rw [if_neg hse,
          if_neg (show ¬ vB.capacity < vB.len + s.length by omega)] at h3
        exact h3
      · exact insert0_cap_eq vS s hIS (by omega)
      · exact insert0_cap_eq vB s hIB (by omega)

end RealpathExt

namespace RealpathExt

/-- The tail of the name-component branch of the drain loop, from the
`extend_from_slice` on: append the component and a `NUL`, consult the
filesystem, and continue the loop accordingly. -/
def rpNameCont (fs : Fs) (flags : Flags) (f : Nat) (stack : Stack)
    (it : List Nat) (links oldlen : Nat) (c : List Nat) (buf : SliceVec) :
    Except Int (SliceVec × Stack) :=
  match buf.extend_from_slice c with
  | .error e => .error e
  | .ok buf =>
    match buf.push nulB with
    | .error e => .error e
    | .ok buf =>
      let res : Except Int Stack :=
        if flags.ignoreSymlinks then
          match readlink_empty fs (cstr buf.data) with
          | .error e => .error e
          | .ok _ => .error EINVAL
        else stack.pushReadlinkRes (fs.readlink (cstr buf.data))
      match res with
      | .ok stack =>
        match advanceLinks fs.symloopMax links with
        | .error e => .error e
        | .ok links =>
          rpLoopF fs flags f stack it (buf.truncate oldlen) links
      | .error e =>
        if e = EINVAL then
          rpLoopF fs flags f stack it buf.pop links
        else if (e = ENOENT ∨ e = EACCES ∨ e = ENOTDIR) ∧
            flags.allowMissing then
          rpLoopF fs flags f stack it buf.pop links
        else if e = ENOENT ∧ flags.allowLastMissing ∧
            stack.isEmpty ∧ iterIsEmpty it then
          rpLoopF fs flags f stack it buf.pop links
        else .error e

/-- The per-component body of the `realpath_raw_inner` drain loop (the code
run once a component `c` has been obtained), written out as a function so the
loop unfolds to one step plus this body. -/
def rpStep (fs : Fs) (flags : Flags) (f : Nat) (stack : Stack) (it : List Nat)
    (buf : SliceVec) (links : Nat) (c : List Nat) :
    Except Int (SliceVec × Stack) :=
  if c = [slashB] ∨ c = [slashB, slashB] then
    match buf.replace c with
    | .error e => .error e
    | .ok buf => rpLoopF fs flags f stack it buf links
  else if c = [dotB, dotB] then
    match buf.make_parent_path with
    | .error e => .error e
    | .ok buf => rpLoopF fs flags f stack it buf links
  else
    match (if buf.data = [slashB] ∨ buf.data = [slashB, slashB] ∨
        buf.data = [] then Except.ok buf else buf.push slashB) with
    | .error e => .error e
    | .ok buf2 => rpNameCont fs flags f stack it links buf.len c buf2

theorem rpLoopF_succ_eq (fs : Fs) (flags : Flags) (f : Nat) (st : Stack)
    (it : List Nat) (buf : SliceVec) (links : Nat) :
    rpLoopF fs flags (f + 1) st it buf links =
      match Stack.next st with
      | (some c, st2) => rpStep fs flags f st2 it buf links c
      | (none, st2) =>
        match ComponentIter.next it with
        | (none, _) => .ok (buf, st2)
        | (some c, it2) => rpStep fs flags f st2 it2 buf links c := by
  rcases hsn : Stack.next st with ⟨osc, st2⟩
  rcases osc with _ | c
  · rcases hin : ComponentIter.next it with ⟨oic, it2⟩
    rcases oic with _ | c <;>
      simp only [rpLoopF, rpStep, rpNameCont, hsn, hin]
  · simp only [rpLoopF, rpStep, rpNameCont, hsn]

/-- Outcome relation of the drain loop run on a smaller and a larger output
buffer with the same contents. -/
def MirrorLoop (capS capB : Nat) (rS rB : Except Int (SliceVec × Stack)) :
    Prop :=
  match rS, rB with
  | .ok (vS, sS), .ok (vB, sB) => vS.data = vB.data ∧ sS = sB ∧
      vS.Inv ∧ vB.Inv ∧ vS.capacity = capS ∧ vB.capacity = capB
  | .error e1, .error e2 => e1 = e2 ∨ e1 = ENAMETOOLONG
  | .error e1, .ok _ => e1 = ENAMETOOLONG
  | .ok _, .error _ => False

theorem mirrorLoop_left_toolong (capS capB : Nat)
    (r : Except Int (SliceVec × Stack)) :
    MirrorLoop capS capB (.error ENAMETOOLONG) r := by
  rcases r with e | ⟨v, s⟩
  · exact Or.inr rfl
  · exact rfl

end RealpathExt

namespace RealpathExt

theorem rpNameCont_mirror (fs : Fs) (flags : Flags) (capS capB : Nat) (f : Nat)
    (IH : ∀ (st : Stack) (it : List Nat) (bufS bufB : SliceVec) (links : Nat),
      bufS.data = bufB.data → bufS.Inv → bufB.Inv →
      bufS.capacity = capS → bufB.capacity = capB →
      MirrorLoop capS capB (rpLoopF fs flags f st it bufS links)
        (rpLoopF fs flags f st it bufB links))
    (c : List Nat) (stack : Stack) (it : List Nat) (links oldlen : Nat)
    (wS wB : SliceVec) (hd : wS.data = wB.data) (hIS : wS.Inv) (hIB : wB.Inv)
    (hcS : wS.capacity = capS) (hcB : wB.capacity = capB) (hcc : capS ≤ capB) :
    MirrorLoop capS capB
      (rpNameCont fs flags f stack it links oldlen c wS)
      (rpNameCont fs flags f stack it links oldlen c wB) := by
  unfold rpNameCont
  have hmx := mirror_extend wS wB c hd (by omega) hIS hIB
  rcases hxS : wS.extend_from_slice c with e1 | xS <;>
    rcases hxB : wB.extend_from_slice c with e2 | xB <;>
    rw [hxS, hxB] at hmx
  · exact hmx
  · have he : e1 = ENAMETOOLONG := hmx
    subst he
    exact mirrorLoop_left_toolong capS capB _
  · exact absurd hmx (by simp [MirrorStep])
  obtain ⟨hdx, hIxS, hIxB, hcxS, hcxB⟩ := hmx
  dsimp only
  have hmp := mirror_push xS xB nulB hdx (by omega) hIxS hIxB
  rcases hyS : xS.push nulB with e1 | yS <;>
    rcases hyB : xB.push nulB with e2 | yB <;>
    rw [hyS, hyB] at hmp
  · exact hmp
  · have he : e1 = ENAMETOOLONG := hmp
    subst he
    exact mirrorLoop_left_toolong capS capB _
  · exact absurd hmp (by simp [MirrorStep])
  obtain ⟨hdy, hIyS, hIyB, hcyS, hcyB⟩ := hmp
  dsimp only
  rw [hdy]
  have hpopm := IH stack it yS.pop yB.pop links
    (by rw [SliceVec.pop_data yS hIyS, SliceVec.pop_data yB hIyB, hdy])
    (pop_inv yS hIyS) (pop_inv yB hIyB)
    ((pop_cap yS).trans (hcyS.trans (hcxS.trans hcS)))
    ((pop_cap yB).trans (hcyB.trans (hcxB.trans hcB)))
  rcases hres : (if flags.ignoreSymlinks then
      match readlink_empty fs (cstr yB.data) with
      | .error e => .error e
      | .ok _ => .error EINVAL
    else stack.pushReadlinkRes (fs.readlink (cstr yB.data)) :
      Except Int Stack) with e | stack2
  · dsimp only
    by_cases h1 : e = EINVAL
    · rw [if_pos h1, if_pos h1]
      exact hpopm
    · rw [if_neg h1, if_neg h1]
      by_cases h2 : (e = ENOENT ∨ e = EACCES ∨ e = ENOTDIR) ∧ flags.allowMissing
      · rw [if_pos h2, if_pos h2]
        exact hpopm
      · rw [if_neg h2, if_neg h2]
        by_cases h3 : e = ENOENT ∧ flags.allowLastMissing = true ∧
            stack.isEmpty = true ∧ iterIsEmpty it = true
        · rw [if_pos h3, if_pos h3]
          exact hpopm
        · rw [if_neg h3, if_neg h3]
          exact Or.inl rfl
  · dsimp only
    rcases hav : advanceLinks fs.symloopMax links with e | links2
    · exact Or.inl rfl
    · apply IH stack2 it (yS.truncate oldlen) (yB.truncate oldlen) links2
      · rw [SliceVec.truncate_data, SliceVec.truncate_data, hdy]
      · exact truncate_inv yS oldlen hIyS
      · exact truncate_inv yB oldlen hIyB
      · exact (truncate_cap yS oldlen).trans (hcyS.trans (hcxS.trans hcS))
      · exact (truncate_cap yB oldlen).trans (hcyB.trans (hcxB.trans hcB))

end RealpathExt

namespace RealpathExt

theorem rpStep_mirror (fs : Fs) (flags : Flags) (capS capB : Nat) (f : Nat)
    (IH : ∀ (st : Stack) (it : List Nat) (bufS bufB : SliceVec) (links : Nat),
      bufS.data = bufB.data → bufS.Inv → bufB.Inv →
      bufS.capacity = capS → bufB.capacity = capB →
      MirrorLoop capS capB (rpLoopF fs flags f st it bufS links)
        (rpLoopF fs flags f st it bufB links))
    (c : List Nat) (stack : Stack) (it : List Nat) (bufS bufB : SliceVec)
    (links : Nat) (hd : bufS.data = bufB.data) (hIS : bufS.Inv)
    (hIB : bufB.Inv) (hcS : bufS.capacity = capS) (hcB : bufB.capacity = capB)
    (hcc : capS ≤ capB) :
    MirrorLoop capS capB (rpStep fs flags f stack it bufS links c)
      (rpStep fs flags f stack it bufB links c) := by
  unfold rpStep
  by_cases hcr : c = [slashB] ∨ c = [slashB, slashB]
  · rw [if_pos hcr, if_pos hcr]
    have hm := mirror_replace bufS bufB c hd (by omega)
    rcases hrS : bufS.replace c with e1 | wS <;>
      rcases hrB : bufB.replace c with e2 | wB <;>
      rw [hrS, hrB] at hm
    · exact hm
    · have he : e1 = ENAMETOOLONG := hm
      subst he
      exact mirrorLoop_left_toolong capS capB _
    · exact absurd hm (by simp [MirrorStep])
    · obtain ⟨hdw, hIwS, hIwB, hcwS, hcwB⟩ := hm
      exact IH stack it wS wB links hdw hIwS hIwB (hcwS.trans hcS)
        (hcwB.trans hcB)
  · rw [if_neg hcr, if_neg hcr]
    by_cases hdd : c = [dotB, dotB]
    · rw [if_pos hdd, if_pos hdd]
      have hm := mirror_make_parent bufS bufB hd (by omega) hIS hIB
      rcases hrS : bufS.make_parent_path with e1 | wS <;>
        rcases hrB : bufB.make_parent_path with e2 | wB <;>
        rw [hrS, hrB] at hm
      · exact hm
      · have he : e1 = ENAMETOOLONG := hm
        subst he
        exact mirrorLoop_left_toolong capS capB _
      · exact absurd hm (by simp [MirrorStep])
      · obtain ⟨hdw, hIwS, hIwB, hcwS, hcwB⟩ := hm
        exact IH stack it wS wB links hdw hIwS hIwB (hcwS.trans hcS)
          (hcwB.trans hcB)
    · rw [if_neg hdd, if_neg hdd]
      have hleq : bufS.len = bufB.len := by
        rw [← SliceVec.data_length bufS hIS, hd, SliceVec.data_length bufB hIB]
      rw [hd, hleq]
      by_cases hsep : bufB.data = [slashB] ∨ bufB.data = [slashB, slashB] ∨
          bufB.data = []
      · rw [if_pos hsep, if_pos hsep]
        dsimp only
        exact rpNameCont_mirror fs flags capS capB f IH c stack it links
          bufB.len bufS bufB hd hIS hIB hcS hcB hcc
      · rw [if_neg hsep, if_neg hsep]
        have hm := mirror_push bufS bufB slashB hd (by omega) hIS hIB
        rcases hrS : bufS.push slashB with e1 | wS <;>
          rcases hrB : bufB.push slashB with e2 | wB <;>
          rw [hrS, hrB] at hm
        · exact hm
        · have he : e1 = ENAMETOOLONG := hm
          subst he
          exact mirrorLoop_left_toolong capS capB _
        · exact absurd hm (by simp [MirrorStep])
        · obtain ⟨hdw, hIwS, hIwB, hcwS, hcwB⟩ := hm
          dsimp only
          exact rpNameCont_mirror fs flags capS capB f IH c stack it links
            bufB.len wS wB hdw hIwS hIwB (hcwS.trans hcS) (hcwB.trans hcB) hcc

theorem rpLoopF_mirror (fs : Fs) (flags : Flags) (capS capB : Nat)
    (hcc : capS ≤ capB) :
    ∀ (fuel : Nat) (st : Stack) (it : List Nat) (bufS bufB : SliceVec)
      (links : Nat), bufS.data = bufB.data → bufS.Inv → bufB.Inv →
      bufS.capacity = capS → bufB.capacity = capB →
      MirrorLoop capS capB (rpLoopF fs flags fuel st it bufS links)
        (rpLoopF fs flags fuel st it bufB links) := by
  intro fuel
  induction fuel with
  | zero =>
    intro st it bufS bufB links hd hIS hIB hcS hcB
    exact Or.inl rfl
  | succ f ih =>
    intro st it bufS bufB links hd hIS hIB hcS hcB
    rw [rpLoopF_succ_eq, rpLoopF_succ_eq]
    rcases hsn : Stack.next st with ⟨osc, st2⟩
    rcases osc with _ | c
    · rcases hin : ComponentIter.next it with ⟨oic, it2⟩
      rcases oic with _ | c
      · exact ⟨hd, rfl, hIS, hIB, hcS, hcB⟩
      · exact rpStep_mirror fs flags capS capB f ih c st2 it2 bufS bufB links
          hd hIS hIB hcS hcB hcc
    · exact rpStep_mirror fs flags capS capB f ih c st2 it bufS bufB links
        hd hIS hIB hcS hcB hcc

end RealpathExt

namespace RealpathExt

theorem data_le_cap (v : SliceVec) : v.data.length ≤ v.capacity := by
  simp only [SliceVec.data, SliceVec.capacity, List.length_take]
  omega

theorem mirrorStep_left_toolong (vS vB : SliceVec) (r : Except Int SliceVec) :
    MirrorStep vS vB (.error ENAMETOOLONG) r := by
  rcases r with e | w
  · exact Or.inr rfl
  · exact rfl

/-- Outcome relation of a whole resolution run on a smaller and a larger
output buffer: equal results (with the output fitting each buffer), or the
smaller buffer fails with the capacity error. -/
def MirrorRes (capS capB : Nat) (rS rB : Except Int (List Nat)) : Prop :=
  match rS, rB with
  | .ok q1, .ok q2 => q1 = q2 ∧ q1.length ≤ capS ∧ q2.length ≤ capB
  | .error e1, .error e2 => e1 = e2 ∨ e1 = ENAMETOOLONG
  | .error e1, .ok _ => e1 = ENAMETOOLONG
  | .ok _, .error _ => False

theorem mirrorRes_left_toolong (capS capB : Nat) (r : Except Int (List Nat)) :
    MirrorRes capS capB (.error ENAMETOOLONG) r := by
  rcases r with e | q
  · exact Or.inr rfl
  · exact rfl

theorem mirror_mcid (fs : Fs) (flags : Flags) (path : List Nat)
    (vS vB : SliceVec) (hd : vS.data = vB.data)
    (hc : vS.capacity ≤ vB.capacity) (hIS : vS.Inv) (hIB : vB.Inv) :
    MirrorStep vS vB (maybe_check_isdir fs flags path vS)
      (maybe_check_isdir fs flags path vB) := by
  unfold maybe_check_isdir
  by_cases hcnd : ([slashB].isSuffixOf path ∨ [slashB, dotB].isSuffixOf path)
      ∧ ¬ flags.allowMissing = true
  · rw [if_pos hcnd, if_pos hcnd]
    have hm := mirror_push vS vB nulB hd hc hIS hIB
    rcases hpS : vS.push nulB with e1 | wS <;>
      rcases hpB : vB.push nulB with e2 | wB <;>
      rw [hpS, hpB] at hm
    · exact hm
    · have he : e1 = ENAMETOOLONG := hm
      subst he
      exact mirrorStep_left_toolong vS vB _
    · exact absurd hm (by simp [MirrorStep])
    · obtain ⟨hdw, hIwS, hIwB, hcwS, hcwB⟩ := hm
      dsimp only
      rw [hdw]
      rcases hchk : check_isdir fs (cstr wB.data) with e | u
      · dsimp only
        by_cases h1 : e = ENOENT ∧ flags.allowLastMissing = true
        · rw [if_pos h1, if_pos h1]
          exact ⟨by rw [SliceVec.pop_data wS hIwS, SliceVec.pop_data wB hIwB,
              hdw],
            pop_inv wS hIwS, pop_inv wB hIwB,
            (pop_cap wS).trans hcwS, (pop_cap wB).trans hcwB⟩
        · rw [if_neg h1, if_neg h1]
          exact Or.inl rfl
      · exact ⟨by rw [SliceVec.pop_data wS hIwS, SliceVec.pop_data wB hIwB,
            hdw],
          pop_inv wS hIwS, pop_inv wB hIwB,
          (pop_cap wS).trans hcwS, (pop_cap wB).trans hcwB⟩
  · rw [if_neg hcnd, if_neg hcnd]
    exact ⟨hd, hIS, hIB, rfl, rfl⟩

end RealpathExt

namespace RealpathExt

theorem realpathRawInner_mirror (fs : Fs) (flags : Flags)
    (path tmp0 b1 b2 : List Nat) (hlen : b1.length ≤ b2.length) :
    MirrorRes b1.length b2.length
      (realpathRawInner fs flags path b1 tmp0)
      (realpathRawInner fs flags path b2 tmp0) := by
  unfold realpathRawInner
  rcases hnew : ComponentIter.new path with e | it0
  · exact Or.inl rfl
  dsimp only
  have hml := rpLoopF_mirror fs flags b1.length b2.length hlen
    ((fs.symloopMax + 1) * (tmp0.length + 2) + path.length + tmp0.length + 2)
    (Stack.new tmp0) it0 (SliceVec.empty b1) (SliceVec.empty b2) 0
    (by rw [SliceVec.empty_data, SliceVec.empty_data])
    (Nat.zero_le _) (Nat.zero_le _) rfl rfl
  rcases hrS : rpLoopF fs flags
      ((fs.symloopMax + 1) * (tmp0.length + 2) + path.length + tmp0.length + 2)
      (Stack.new tmp0) it0 (SliceVec.empty b1) 0 with e1 | ⟨bufS, stS⟩ <;>
    rcases hrB : rpLoopF fs flags
      ((fs.symloopMax + 1) * (tmp0.length + 2) + path.length + tmp0.length + 2)
      (Stack.new tmp0) it0 (SliceVec.empty b2) 0 with e2 | ⟨bufB, stB⟩ <;>
    rw [hrS, hrB] at hml
  · exact hml
  · have he : e1 = ENAMETOOLONG := hml
    subst he
    exact mirrorRes_left_toolong b1.length b2.length _
  · exact absurd hml (by simp [MirrorLoop])
  obtain ⟨hdb, hstEq, hIS, hIB, hcS, hcB⟩ := hml
  subst hstEq
  dsimp only
  have hcap12 : bufS.capacity ≤ bufB.capacity := by omega
  by_cases h0 : bufS.data = []
  · rw [if_pos h0, if_pos (hdb ▸ h0)]
    have hg := mirror_getcwd fs bufS bufB hdb hcap12
    rcases hgS : getcwdInto fs bufS with e1 | wS <;>
      rcases hgB : getcwdInto fs bufB with e2 | wB <;>
      rw [hgS, hgB] at hg
    · exact hg
    · have he : e1 = ENAMETOOLONG := hg
      subst he
      exact mirrorRes_left_toolong b1.length b2.length _
    · exact absurd hg (by simp [MirrorStep])
    · obtain ⟨hdw, hIwS, hIwB, hcwS, hcwB⟩ := hg
      exact ⟨hdw, by have h9 := data_le_cap wS; omega,
        by have h9 := data_le_cap wB; omega⟩
  · rw [if_neg h0, if_neg (show ¬ bufB.data = [] from by
      rw [← hdb]; exact h0)]
    by_cases h1 : bufS.data = [dotB, dotB]
    · rw [if_pos h1, if_pos (show bufB.data = [dotB, dotB] from hdb ▸ h1)]
      have hg := mirror_getcwd fs bufS bufB hdb hcap12
      rcases hgS : getcwdInto fs bufS with e1 | wS <;>
        rcases hgB : getcwdInto fs bufB with e2 | wB <;>
        rw [hgS, hgB] at hg
      · exact hg
      · have he : e1 = ENAMETOOLONG := hg
        subst he
        exact mirrorRes_left_toolong b1.length b2.length _
      · exact absurd hg (by simp [MirrorStep])
      obtain ⟨hdw, hIwS, hIwB, hcwS, hcwB⟩ := hg
      dsimp only
      have hm := mirror_make_parent wS wB hdw (by omega) hIwS hIwB
      rcases hmS : wS.make_parent_path with e1 | xS <;>
        rcases hmB : wB.make_parent_path with e2 | xB <;>
        rw [hmS, hmB] at hm
      · exact hm
      · have he : e1 = ENAMETOOLONG := hm
        subst he
        exact mirrorRes_left_toolong b1.length b2.length _
      · exact absurd hm (by simp [MirrorStep])
      · obtain ⟨hdx, hIxS, hIxB, hcxS, hcxB⟩ := hm
        exact ⟨hdx,
          by have h9 := data_le_cap xS; omega,
          by have h9 := data_le_cap xB; omega⟩
    · rw [if_neg h1, if_neg (show ¬ bufB.data = [dotB, dotB] from by
        rw [← hdb]; exact h1)]
      by_cases h2 : [dotB, dotB, slashB].isPrefixOf bufS.data
      · rw [if_pos h2, if_pos (show [dotB, dotB, slashB].isPrefixOf
            bufB.data = true from hdb ▸ h2)]
        rw [hdb]
        have hcont : ∀ (n : Nat) (wS wB : SliceVec), wS.data = wB.data →
            wS.Inv → wB.Inv → wS.capacity = b1.length →
            wB.capacity = b2.length →
            MirrorRes b1.length b2.length
              (match getcwdInto fs (SliceVec.empty stS.region) with
               | .error e => .error e
               | .ok tmp =>
                 match parentIter n tmp with
                 | .error e => .error e
                 | .ok tmp =>
                   match wS.insert_from_slice 0 tmp.data with
                   | .error e => .error e
                   | .ok buf => .ok buf.data)
              (match getcwdInto fs (SliceVec.empty stS.region) with
               | .error e => .error e
               | .ok tmp =>
                 match parentIter n tmp with
                 | .error e => .error e
                 | .ok tmp =>
                   match wB.insert_from_slice 0 tmp.data with
                   | .error e => .error e
                   | .ok buf => .ok buf.data) := by
          intro n wS wB hdw hIwS hIwB hcwS hcwB
          rcases hgt : getcwdInto fs (SliceVec.empty stS.region) with e | tmp2
          · exact Or.inl rfl
          dsimp only
          rcases hpi : parentIter n tmp2 with e | tmp3
          · exact Or.inl rfl
          dsimp only
          have hins := mirror_insert0 wS wB tmp3.data hdw (by omega) hIwS hIwB
          rcases hiS : wS.insert_from_slice 0 tmp3.data with e1 | xS <;>
            rcases hiB : wB.insert_from_slice 0 tmp3.data with e2 | xB <;>
            rw [hiS, hiB] at hins
          · exact hins
          · have he : e1 = ENAMETOOLONG := hins
            subst he
            exact mirrorRes_left_toolong b1.length b2.length _
          · exact absurd hins (by simp [MirrorStep])
          · obtain ⟨hdx, hIxS, hIxB, hcxS, hcxB⟩ := hins
            exact ⟨hdx, by have h9 := data_le_cap xS; omega,
              by have h9 := data_le_cap xB; omega⟩
        by_cases hdrop : bufB.data.drop (count_leading_dotdot bufB.data * 3)
            = [dotB, dotB]
        · rw [if_pos hdrop, if_pos hdrop]
          exact hcont (count_leading_dotdot bufB.data + 1) bufS.clear bufB.clear
            (by rw [SliceVec.clear_data, SliceVec.clear_data])
            (clear_inv bufS) (clear_inv bufB)
            ((clear_cap bufS).trans hcS) ((clear_cap bufB).trans hcB)
        · rw [if_neg hdrop, if_neg hdrop]
          have hmc := mirror_mcid fs flags path bufS bufB hdb hcap12 hIS hIB
          rcases hmcS : maybe_check_isdir fs flags path bufS with e1 | wS <;>
            rcases hmcB : maybe_check_isdir fs flags path bufB with e2 | wB <;>
            rw [hmcS, hmcB] at hmc
          · exact hmc
          · have he : e1 = ENAMETOOLONG := hmc
            subst he
            exact mirrorRes_left_toolong b1.length b2.length _
          · exact absurd hmc (by simp [MirrorStep])
          · obtain ⟨hdw, hIwS, hIwB, hcwS, hcwB⟩ := hmc
            exact hcont (count_leading_dotdot bufB.data)
              (wS.remove_range 0 (count_leading_dotdot bufB.data * 3 - 1))
              (wB.remove_range 0 (count_leading_dotdot bufB.data * 3 - 1))
              (by rw [remove_range0_data wS _ hIwS,
                remove_range0_data wB _ hIwB, hdw])
              (remove_range0_inv wS _ hIwS) (remove_range0_inv wB _ hIwB)
              ((remove_range0_cap wS _ hIwS).trans (hcwS.trans hcS))
              ((remove_range0_cap wB _ hIwB).trans (hcwB.trans hcB))
      · rw [if_neg h2, if_neg (show ¬ [dotB, dotB, slashB].isPrefixOf
            bufB.data = true from by rw [← hdb]; exact h2)]
        by_cases h3 : ¬ [slashB].isPrefixOf bufS.data
        · rw [if_pos h3, if_pos (show ¬ [slashB].isPrefixOf
              bufB.data = true from by rw [← hdb]; exact h3)]
          have hmc := mirror_mcid fs flags path bufS bufB hdb hcap12 hIS hIB
          rcases hmcS : maybe_check_isdir fs flags path bufS with e1 | wS <;>
            rcases hmcB : maybe_check_isdir fs flags path bufB with e2 | wB <;>
            rw [hmcS, hmcB] at hmc
          · exact hmc
          · have he : e1 = ENAMETOOLONG := hmc
            subst he
            exact mirrorRes_left_toolong b1.length b2.length _
          · exact absurd hmc (by simp [MirrorStep])
          · obtain ⟨hdw, hIwS, hIwB, hcwS, hcwB⟩ := hmc
            dsimp only
            rcases hgt : getcwdInto fs (SliceVec.empty stS.region).clear
                with e | tmp2
            · exact Or.inl rfl
            dsimp only
            rcases hps : tmp2.push slashB with e | tmp3
            · exact Or.inl rfl
            dsimp only
            have hins := mirror_insert0 wS wB tmp3.data hdw (by omega)
              hIwS hIwB
            rcases hiS : wS.insert_from_slice 0 tmp3.data with e1 | xS <;>
              rcases hiB : wB.insert_from_slice 0 tmp3.data with e2 | xB <;>
              rw [hiS, hiB] at hins
            · exact hins
            · have he : e1 = ENAMETOOLONG := hins
              subst he
              exact mirrorRes_left_toolong b1.length b2.length _
            · exact absurd hins (by simp [MirrorStep])
            · obtain ⟨hdx, hIxS, hIxB, hcxS, hcxB⟩ := hins
              exact ⟨hdx,
                by have h9 := data_le_cap xS; omega,
                by have h9 := data_le_cap xB; omega⟩
        · rw [if_neg h3, if_neg (show ¬ ¬ [slashB].isPrefixOf
              bufB.data = true from by rw [← hdb]; exact h3)]
          by_cases h4 : bufS.data = [slashB] ∨ bufS.data = [slashB, slashB]
          · rw [if_pos h4, if_pos (show bufB.data = [slashB] ∨
              bufB.data = [slashB, slashB] from hdb ▸ h4)]
            exact ⟨hdb, by have h9 := data_le_cap bufS; omega,
              by have h9 := data_le_cap bufB; omega⟩
          · rw [if_neg h4, if_neg (show ¬ (bufB.data = [slashB] ∨
              bufB.data = [slashB, slashB]) from by rw [← hdb]; exact h4)]
            have hmc := mirror_mcid fs flags path bufS bufB hdb hcap12 hIS hIB
            rcases hmcS : maybe_check_isdir fs flags path bufS with e1 | wS <;>
              rcases hmcB : maybe_check_isdir fs flags path bufB
                with e2 | wB <;>
              rw [hmcS, hmcB] at hmc
            · exact hmc
            · have he : e1 = ENAMETOOLONG := hmc
              subst he
              exact mirrorRes_left_toolong b1.length b2.length _
            · exact absurd hmc (by simp [MirrorStep])
            · obtain ⟨hdw, hIwS, hIwB, hcwS, hcwB⟩ := hmc
              exact ⟨hdw,
                by have h9 := data_le_cap wS; omega,
                by have h9 := data_le_cap wB; omega⟩

end RealpathExt

namespace RealpathExt

/-- Outcome relation of the lexical normalization loop on two buffers. -/
def MirrorNorm (capS capB : Nat) (rS rB : Except Int SliceVec) : Prop :=
  match rS, rB with
  | .ok wS, .ok wB => wS.data = wB.data ∧ wS.Inv ∧ wB.Inv ∧
      wS.capacity = capS ∧ wB.capacity = capB
  | .error e1, .error e2 => e1 = e2 ∨ e1 = ENAMETOOLONG
  | .error e1, .ok _ => e1 = ENAMETOOLONG
  | .ok _, .error _ => False

theorem mirrorNorm_left_toolong (capS capB : Nat) (r : Except Int SliceVec) :
    MirrorNorm capS capB (.error ENAMETOOLONG) r := by
  rcases r with e | w
  · exact Or.inr rfl
  · exact rfl

theorem normLoop_mirror (capS capB : Nat) (hcc : capS ≤ capB) :
    ∀ (comps : List (List Nat)) (vS vB : SliceVec), vS.data = vB.data →
      vS.Inv → vB.Inv → vS.capacity = capS → vB.capacity = capB →
      MirrorNorm capS capB (normLoop comps vS) (normLoop comps vB) := by
  intro comps
  induction comps with
  | nil =>
    intro vS vB hd hIS hIB hcS hcB
    exact ⟨hd, hIS, hIB, hcS, hcB⟩
  | cons c rest ih =>
    intro vS vB hd hIS hIB hcS hcB
    simp only [normLoop]
    by_cases hcr : c = [slashB] ∨ c = [slashB, slashB]
    · rw [if_pos hcr, if_pos hcr]
      have hm := mirror_replace vS vB c hd (by omega)
      rcases hrS : vS.replace c with e1 | wS <;>
        rcases hrB : vB.replace c with e2 | wB <;>
        rw [hrS, hrB] at hm
      · exact hm
      · have he : e1 = ENAMETOOLONG := hm
        subst he
        exact mirrorNorm_left_toolong capS capB _
      · exact absurd hm (by simp [MirrorStep])
      · obtain ⟨hdw, hIwS, hIwB, hcwS, hcwB⟩ := hm
        exact ih wS wB hdw hIwS hIwB (hcwS.trans hcS) (hcwB.trans hcB)
    · rw [if_neg hcr, if_neg hcr]
      by_cases hdd : c = [dotB, dotB]
      · rw [if_pos hdd, if_pos hdd]
        have hm := mirror_make_parent vS vB hd (by omega) hIS hIB
        rcases hrS : vS.make_parent_path with e1 | wS <;>
          rcases hrB : vB.make_parent_path with e2 | wB <;>
          rw [hrS, hrB] at hm
        · exact hm
        · have he : e1 = ENAMETOOLONG := hm
          subst he
          exact mirrorNorm_left_toolong capS capB _
        · exact absurd hm (by simp [MirrorStep])
        · obtain ⟨hdw, hIwS, hIwB, hcwS, hcwB⟩ := hm
          exact ih wS wB hdw hIwS hIwB (hcwS.trans hcS) (hcwB.trans hcB)
      · rw [if_neg hdd, if_neg hdd]
        have hcont : ∀ (wS wB : SliceVec), wS.data = wB.data → wS.Inv →
            wB.Inv → wS.capacity = capS → wB.capacity = capB →
            MirrorNorm capS capB
              (match wS.extend_from_slice c with
               | .error e => .error e
               | .ok buf => normLoop rest buf)
              (match wB.extend_from_slice c with
               | .error e => .error e
               | .ok buf => normLoop rest buf) := by
          intro wS wB hdw hIwS hIwB hcwS hcwB
          have hm := mirror_extend wS wB c hdw (by omega) hIwS hIwB
          rcases hxS : wS.extend_from_slice c with e1 | xS <;>
            rcases hxB : wB.extend_from_slice c with e2 | xB <;>
            rw [hxS, hxB] at hm
          · exact hm
          · have he : e1 = ENAMETOOLONG := hm
            subst he
            exact mirrorNorm_left_toolong capS capB _
          · exact absurd hm (by simp [MirrorStep])
          · obtain ⟨hdx, hIxS, hIxB, hcxS, hcxB⟩ := hm
            exact ih xS xB hdx hIxS hIxB (hcxS.trans hcwS) (hcxB.trans hcwB)
        rw [hd]
        by_cases hsep : vB.data = [slashB] ∨ vB.data = [slashB, slashB] ∨
            vB.data = []
        · rw [if_pos hsep, if_pos hsep]
          dsimp only
          exact hcont vS vB hd hIS hIB hcS hcB
        · rw [if_neg hsep, if_neg hsep]
          have hm := mirror_push vS vB slashB hd (by omega) hIS hIB
          rcases hpS : vS.push slashB with e1 | wS <;>
            rcases hpB : vB.push slashB with e2 | wB <;>
            rw [hpS, hpB] at hm
          · exact hm
          · have he : e1 = ENAMETOOLONG := hm
            subst he
            exact mirrorNorm_left_toolong capS capB _
          · exact absurd hm (by simp [MirrorStep])
          · obtain ⟨hdw, hIwS, hIwB, hcwS, hcwB⟩ := hm
            dsimp only
            exact hcont wS wB hdw hIwS hIwB (hcwS.trans hcS) (hcwB.trans hcB)

theorem normpath_raw_mirror (path b1 b2 : List Nat)
    (hlen : b1.length ≤ b2.length) :
    MirrorRes b1.length b2.length (normpath_raw path b1)
      (normpath_raw path b2) := by
  unfold normpath_raw
  rcases hnew : ComponentIter.new path with e | p2
  · exact Or.inl rfl
  dsimp only
  have hml := normLoop_mirror b1.length b2.length hlen (iterComps p2)
    (SliceVec.empty b1) (SliceVec.empty b2)
    (by rw [SliceVec.empty_data, SliceVec.empty_data])
    (Nat.zero_le _) (Nat.zero_le _) rfl rfl
  rcases hrS : normLoop (iterComps p2) (SliceVec.empty b1) with e1 | wS <;>
    rcases hrB : normLoop (iterComps p2) (SliceVec.empty b2) with e2 | wB <;>
    rw [hrS, hrB] at hml
  · exact hml
  · have he : e1 = ENAMETOOLONG := hml
    subst he
    exact mirrorRes_left_toolong b1.length b2.length _
  · exact absurd hml (by simp [MirrorNorm])
  obtain ⟨hdw, hIwS, hIwB, hcwS, hcwB⟩ := hml
  dsimp only
  by_cases hq0 : wS.data.isEmpty
  · rw [if_pos hq0, if_pos (show wB.data.isEmpty = true from by
      rw [← hdw]; exact hq0)]
    have hm := mirror_push wS wB dotB hdw (by omega) hIwS hIwB
    rcases hpS : wS.push dotB with e1 | xS <;>
      rcases hpB : wB.push dotB with e2 | xB <;>
      rw [hpS, hpB] at hm
    · exact hm
    · have he : e1 = ENAMETOOLONG := hm
      subst he
      exact mirrorRes_left_toolong b1.length b2.length _
    · exact absurd hm (by simp [MirrorStep])
    · obtain ⟨hdx, hIxS, hIxB, hcxS, hcxB⟩ := hm
      exact ⟨hdx, by have h9 := data_le_cap xS; omega,
        by have h9 := data_le_cap xB; omega⟩
  · rw [if_neg hq0, if_neg (show ¬ wB.data.isEmpty = true from by
      rw [← hdw]; exact hq0)]
    exact ⟨hdw, by have h9 := data_le_cap wS; omega,
      by have h9 := data_le_cap wB; omega⟩

end RealpathExt

namespace RealpathExt

theorem pushReadlinkRes_err (st : Stack) (e : Int) (hi : ¬ st.i = 0) :
    st.pushReadlinkRes (.error e) = .error e := by
  simp [Stack.pushReadlinkRes, hi]

theorem stack_new_i (tmp0 : List Nat) (h : ¬ tmp0 = []) :
    ¬ (Stack.new tmp0).i = 0 := by
  simp only [Stack.new]
  intro hx
  exact h (List.length_eq_zero.mp hx)

theorem rpLoopF_exit_any (fs : Fs) (flags : Flags) (fuel : Nat) (st : Stack)
    (it : List Nat) (buf : SliceVec) (links : Nat) (hf : 0 < fuel)
    (hst : st.content = []) (hit : (ComponentIter.next it).1 = none) :
    rpLoopF fs flags fuel st it buf links = .ok (buf, st) := by
  rcases fuel with _ | f
  · omega
  exact rpLoopF_exit fs flags f st it buf links hst hit

/-- The two concrete `realpath` runs of the C6 counterexample, stepped
symbolically (the large scratch stack makes them expensive to evaluate
whole): `/a` on a filesystem where `a` is a plain file fails in a two-byte
buffer at the internal `NUL` push and succeeds with `/a` in a three-byte
buffer. -/
theorem realpath_fsFileA_small :
    realpath_raw fsFileA [slashB, 97] [0, 0] Flags.empty
      = .error ENAMETOOLONG ∧
    realpath_raw fsFileA [slashB, 97] [0, 0, 0] Flags.empty
      = .ok [slashB, 97] := by
  have htmp : ¬ (List.replicate (PATH_MAX + 100) 0 : List Nat) = [] := by
    intro hx
    have h2 := congrArg List.length hx
    rw [List.length_replicate] at h2
    simp [PATH_MAX] at h2
  have hplen : ([slashB, 97] : List Nat).length = 2 := rfl
  constructor
  · unfold realpath_raw realpathRawInner
    rw [show ComponentIter.new [slashB, 97] = .ok [slashB, 97] from rfl]
    dsimp only
    rw [show ∀ y : Nat, y + 2 = (y + 1) + 1 from fun y => rfl]
    rw [rpLoopF_succ_eq, stack_next_empty _ (stack_new_content _),
      show ComponentIter.next [slashB, 97] = (some [slashB], [97]) from rfl]
    dsimp only
    unfold rpStep
    rw [if_pos (Or.inl rfl),
      show (SliceVec.empty [0, 0]).replace [slashB]
        = .ok (SliceVec.mk [slashB, 0] 1) from rfl]
    dsimp only
    rw [rpLoopF_succ_eq, stack_next_empty _ (stack_new_content _),
      show ComponentIter.next [97] = (some [97], []) from rfl]
    dsimp only
    unfold rpStep
    rw [if_neg (by decide), if_neg (by decide), if_pos (by decide)]
    dsimp only
    unfold rpNameCont
    rw [show (SliceVec.mk [slashB, 0] 1).extend_from_slice [97]
        = .ok (SliceVec.mk [slashB, 97] 2) from rfl]
    dsimp only
    rw [show (SliceVec.mk [slashB, 97] 2).push nulB
        = .error ENAMETOOLONG from rfl]
  · unfold realpath_raw realpathRawInner
    rw [show ComponentIter.new [slashB, 97] = .ok [slashB, 97] from rfl]
    dsimp only
    rw [show ∀ y : Nat, y + 2 = (y + 1) + 1 from fun y => rfl]
    rw [rpLoopF_succ_eq, stack_next_empty _ (stack_new_content _),
      show ComponentIter.next [slashB, 97] = (some [slashB], [97]) from rfl]
    dsimp only
    unfold rpStep
    rw [if_pos (Or.inl rfl),
      show (SliceVec.empty [0, 0, 0]).replace [slashB]
        = .ok (SliceVec.mk [slashB, 0, 0] 1) from rfl]
    dsimp only
    rw [rpLoopF_succ_eq, stack_next_empty _ (stack_new_content _),
      show ComponentIter.next [97] = (some [97], []) from rfl]
    dsimp only
    unfold rpStep
    rw [if_neg (by decide), if_neg (by decide), if_pos (by decide)]
    dsimp only
    unfold rpNameCont
    rw [show (SliceVec.mk [slashB, 0, 0] 1).extend_from_slice [97]
        = .ok (SliceVec.mk [slashB, 97, 0] 2) from rfl]
    dsimp only
    rw [show (SliceVec.mk [slashB, 97, 0] 2).push nulB
        = .ok (SliceVec.mk [slashB, 97, 0] 3) from rfl]
    dsimp only
    rw [if_neg (show ¬ Flags.empty.ignoreSymlinks = true from by decide)]
    rw [show fsFileA.readlink
        (cstr (SliceVec.mk [slashB, 97, 0] 3).data) = .error EINVAL from rfl]
    rw [pushReadlinkRes_err _ EINVAL (stack_new_i _ htmp)]
    dsimp only
    rw [if_pos rfl]
    rw [show (SliceVec.mk [slashB, 97, 0] 3).pop
        = SliceVec.mk [slashB, 97, 0] 2 from rfl]
    rw [rpLoopF_exit_any fsFileA Flags.empty _ (Stack.new _) [] _ 0
      (by
        rw [List.length_cons, List.length_cons, List.length_nil]
        omega)
      (stack_new_content _) rfl]
    dsimp only
    rw [if_neg (by decide), if_neg (by decide), if_neg (by decide),
      if_neg (by decide), if_neg (by decide),
      mcid_skip fsFileA Flags.empty [slashB, 97] _ (by decide)]
    rfl

set_option maxRecDepth 40000

/-- Claim C6 counterexample: a buffer whose capacity exactly equals the
output length can fail with `ENAMETOOLONG`.  `realpath` of `/a` (a plain
file) resolves to `/a` (2 bytes) but needs a 3-byte buffer (the loop pushes
an internal `NUL` terminator); `normpath` of `/a/b/./c/../` normalizes to
`/a/b` (4 bytes) but fails in a 4-byte buffer (intermediate contents are
longer), succeeding only with room to spare. -/
theorem C6_counterexample :
    realpath_raw fsFileA [slashB, 97] [0, 0] Flags.empty
        = .error ENAMETOOLONG ∧
      realpath_raw fsFileA [slashB, 97] [0, 0, 0] Flags.empty
        = .ok [slashB, 97] ∧
      ([slashB, 97] : List Nat).length = ([0, 0] : List Nat).length ∧
      normpath_raw [slashB, 97, slashB, 98, slashB, dotB, slashB, 99,
          slashB, dotB, dotB, slashB] [0, 0, 0, 0] = .error ENAMETOOLONG ∧
      normpath_raw [slashB, 97, slashB, 98, slashB, dotB, slashB, 99,
          slashB, dotB, dotB, slashB] [0, 0, 0, 0, 0, 0]
        = .ok [slashB, 97, slashB, 98] ∧
      ([slashB, 97, slashB, 98] : List Nat).length
        = ([0, 0, 0, 0] : List Nat).length :=
  ⟨realpath_fsFileA_small.1, realpath_fsFileA_small.2, by decide,
    by decide, by decide, by decide⟩

/-- Claim C6 (amended): the output-buffer capacity determines success
monotonically, but the minimal sufficient capacity can exceed the output
length.  For every filesystem, flags and input: (i) with buffers `b1 ≤ b2`
(by capacity), the run on `b1` either produces exactly the run on `b2`'s
result (the output fitting each buffer) or fails with `ENAMETOOLONG`, and a
success on `b1` is never lost on `b2` (the `MirrorRes` relation); (ii),(iii)
a successful output `q` always fits its buffer, and every buffer smaller
than `q` fails with exactly `ENAMETOOLONG` — for both `realpath_raw` and
`normpath_raw`.  An exactly-output-sized buffer may nevertheless fail, as
the counterexample shows. -/
theorem C6_capacity_behavior_amended (fs : Fs) (flags : Flags)
    (p q b1 b2 : List Nat) :
    (b1.length ≤ b2.length →
      MirrorRes b1.length b2.length (realpath_raw fs p b1 flags)
          (realpath_raw fs p b2 flags) ∧
        MirrorRes b1.length b2.length (normpath_raw p b1)
          (normpath_raw p b2)) ∧
    (realpath_raw fs p b2 flags = .ok q → q.length ≤ b2.length ∧
      (b1.length < q.length →
        realpath_raw fs p b1 flags = .error ENAMETOOLONG)) ∧
    (normpath_raw p b2 = .ok q → q.length ≤ b2.length ∧
      (b1.length < q.length → normpath_raw p b1 = .error ENAMETOOLONG)) := by
  refine ⟨?_, ?_, ?_⟩
  · intro hlen
    constructor
    · unfold realpath_raw
      exact realpathRawInner_mirror fs flags p
        (List.replicate (PATH_MAX + 100) 0) b1 b2 hlen
    · exact normpath_raw_mirror p b1 b2 hlen
  · intro hok
    have hbound : q.length ≤ b2.length := by
      have hm := realpathRawInner_mirror fs flags p
        (List.replicate (PATH_MAX + 100) 0) b2 b2 (Nat.le_refl _)
      unfold realpath_raw at hok
      rw [hok] at hm
      exact hm.2.1
    refine ⟨hbound, ?_⟩
    intro hlt
    have hle : b1.length ≤ b2.length := by omega
    have hm := realpathRawInner_mirror fs flags p
      (List.replicate (PATH_MAX + 100) 0) b1 b2 hle
    unfold realpath_raw at hok ⊢
    rw [hok] at hm
    rcases hr : realpathRawInner fs flags p b1
        (List.replicate (PATH_MAX + 100) 0) with e | q1 <;> rw [hr] at hm
    · rw [hm]
    · exfalso
      obtain ⟨hq, hb, _⟩ := hm
      rw [hq] at hb
      omega
  · intro hok
    have hbound : q.length ≤ b2.length := by
      have hm := normpath_raw_mirror p b2 b2 (Nat.le_refl _)
      rw [hok] at hm
      exact hm.2.1
    refine ⟨hbound, ?_⟩
    intro hlt
    have hle : b1.length ≤ b2.length := by omega
    have hm := normpath_raw_mirror p b1 b2 hle
    rw [hok] at hm
    rcases hr : normpath_raw p b1 with e | q1 <;> rw [hr] at hm
    · rw [hm]
    · exfalso
      obtain ⟨hq, hb, _⟩ := hm
      rw [hq] at hb
      omega

/-- Witness for the amended C6 at `/a` over the file-only filesystem: the
3-byte buffer succeeds with `/a`, the 1-byte buffer is smaller than the
output and fails with `ENAMETOOLONG`, and the mirror relation holds between
the two buffers. -/
theorem C6_witness :
    ([0] : List Nat).length ≤ ([0, 0, 0] : List Nat).length ∧
      realpath_raw fsFileA [slashB, 97] [0, 0, 0] Flags.empty
        = .ok [slashB, 97] ∧
      ([0] : List Nat).length < ([slashB, 97] : List Nat).length ∧
      (MirrorRes ([0] : List Nat).length ([0, 0, 0] : List Nat).length
          (realpath_raw fsFileA [slashB, 97] [0] Flags.empty)
          (realpath_raw fsFileA [slashB, 97] [0, 0, 0] Flags.empty) ∧
        MirrorRes ([0] : List Nat).length ([0, 0, 0] : List Nat).length
          (normpath_raw [slashB, 97] [0])
          (normpath_raw [slashB, 97] [0, 0, 0])) ∧
      realpath_raw fsFileA [slashB, 97] [0] Flags.empty
        = .error ENAMETOOLONG :=
  ⟨by decide, realpath_fsFileA_small.2, by decide,
    (C6_capacity_behavior_amended fsFileA Flags.empty [slashB, 97]
      [slashB, 97] [0] [0, 0, 0]).1 (by decide),
    ((C6_capacity_behavior_amended fsFileA Flags.empty [slashB, 97]
      [slashB, 97] [0] [0, 0, 0]).2.1 realpath_fsFileA_small.2).2
      (by decide)⟩

end RealpathExt

namespace RealpathExt

/-- A well-formed resolved-path name component: nonempty, free of `/` and
`NUL`, and neither `.` nor `..`. -/
def wfName (c : List Nat) : Prop :=
  ¬ c = [] ∧ ¬ slashB ∈ c ∧ ¬ nulB ∈ c ∧ ¬ c = [dotB] ∧ ¬ c = [dotB, dotB]

/-- The drain loop treats the path-prefix `r` as a settled (non-symlink)
name: `readlink` reports "not a symlink", or reports a missing/unreachable
entry that the flags suppress (`last` marks the final component, which
`ALLOW_LAST_MISSING` also covers); a readable symlink is settled only in
`IGNORE_SYMLINKS` mode. -/
def NameOK (fs : Fs) (flags : Flags) (r : List Nat) (last : Bool) : Prop :=
  match fs.readlink r with
  | .ok _ => flags.ignoreSymlinks = true
  | .error e => e = EINVAL ∨
      ((e = ENOENT ∨ e = EACCES ∨ e = ENOTDIR) ∧ flags.allowMissing = true) ∨
      (e = ENOENT ∧ flags.allowLastMissing = true ∧ last = true)

theorem nameOK_mono (fs : Fs) (flags : Flags) (r : List Nat)
    (h : NameOK fs flags r false) (b : Bool) : NameOK fs flags r b := by
  unfold NameOK at h ⊢
  rcases hrl : fs.readlink r with e | t <;> rw [hrl] at h
  · rcases h with h | h | h
    · exact Or.inl h
    · exact Or.inr (Or.inl h)
    · exact absurd h.2.2 (by simp)
  · exact h

/-- All component prefixes of `root2 ++ joinComps names` are settled names,
the final one possibly only by virtue of being last. -/
def PrefOK (fs : Fs) (flags : Flags) (root2 : List Nat)
    (names : List (List Nat)) : Prop :=
  ∀ k, k < names.length →
    NameOK fs flags (root2 ++ joinComps (names.take (k + 1)))
      (decide (k + 1 = names.length))

/-- As `PrefOK` but with no last-component allowance at all. -/
def AllFalse (fs : Fs) (flags : Flags) (root2 : List Nat)
    (names : List (List Nat)) : Prop :=
  ∀ k, k < names.length →
    NameOK fs flags (root2 ++ joinComps (names.take (k + 1))) false

theorem allFalse_prefOK (fs : Fs) (flags : Flags) (root2 : List Nat)
    (names : List (List Nat)) (h : AllFalse fs flags root2 names) :
    PrefOK fs flags root2 names :=
  fun k hk => nameOK_mono fs flags _ (h k hk) _

theorem allFalse_nil (fs : Fs) (flags : Flags) (root2 : List Nat) :
    AllFalse fs flags root2 [] := fun k hk => absurd hk (by simp)

theorem allFalse_dropLast (fs : Fs) (flags : Flags) (root2 : List Nat)
    (names : List (List Nat)) (h : AllFalse fs flags root2 names) :
    AllFalse fs flags root2 names.dropLast := by
  intro k hk
  have hlen : names.dropLast.length = names.length - 1 := by simp
  have hk2 : k < names.length := by omega
  have htake : names.dropLast.take (k + 1) = names.take (k + 1) := by
    rw [List.dropLast_eq_take, List.take_take]
    congr 1
    omega
  rw [htake]
  exact h k hk2

theorem allFalse_snoc (fs : Fs) (flags : Flags) (root2 : List Nat)
    (names : List (List Nat)) (c : List Nat)
    (h : AllFalse fs flags root2 names)
    (hc : NameOK fs flags (root2 ++ joinComps (names ++ [c])) false) :
    AllFalse fs flags root2 (names ++ [c]) := by
  intro k hk
  simp only [List.length_append, List.length_cons, List.length_nil] at hk
  by_cases hk2 : k < names.length
  · rw [List.take_append_of_le_length (by omega)]
    exact h k hk2
  · have hke : k = names.length := by omega
    subst hke
    rw [List.take_of_length_le (by simp)]
    exact hc

end RealpathExt

namespace RealpathExt

theorem strip_leading_flat (names : List (List Nat))
    (hn : ∀ c ∈ names, ¬ c = [] ∧ ¬ slashB ∈ c) :
    strip_leading_slashes (joinComps names) = joinComps names := by
  rcases names with _ | ⟨c, rest⟩
  · rfl
  · obtain ⟨hc1, hc2⟩ := hn c (List.mem_cons_self c rest)
    rcases hx : c with _ | ⟨x, t⟩
    · exact absurd hx hc1
    have hxs : ¬ x = slashB := fun h => hc2 (by rw [hx, h]; simp)
    show strip_leading_slashes (x :: (t ++ joinRest rest))
      = x :: (t ++ joinRest rest)
    simp only [strip_leading_slashes]
    rw [if_neg hxs]

theorem joinComps_length_pos (names : List (List Nat)) (h : ¬ names = [])
    (h2 : ∀ c ∈ names, ¬ c = []) : 0 < (joinComps names).length := by
  have := joinComps_ne_nil names h h2
  rcases hj : joinComps names with _ | _
  · exact absurd hj this
  · simp

theorem prefix_step (root2 nm : List Nat) (done : List (List Nat))
    (hr : root2 = [slashB] ∨ root2 = [slashB, slashB])
    (hdone : ∀ c ∈ done, ¬ c = [] ∧ ¬ slashB ∈ c) :
    (if root2 ++ joinComps done = [slashB] ∨
        root2 ++ joinComps done = [slashB, slashB] ∨
        root2 ++ joinComps done = [] then
      (root2 ++ joinComps done) ++ nm
    else (root2 ++ joinComps done) ++ slashB :: nm)
      = root2 ++ joinComps (done ++ [nm]) := by
  rcases hd : done with _ | ⟨c, rest⟩
  · rw [if_pos (by rcases hr with h | h <;> simp [h, joinComps])]
    simp [joinComps, joinRest]
  · rw [← hd]
    have hdne : ¬ done = [] := by rw [hd]; simp
    have hjne := joinComps_ne_nil done hdne (fun c hc => (hdone c hc).1)
    have hjpos := joinComps_length_pos done hdne (fun c hc => (hdone c hc).1)
    have hcond : ¬ (root2 ++ joinComps done = [slashB] ∨
        root2 ++ joinComps done = [slashB, slashB] ∨
        root2 ++ joinComps done = []) := by
      push_neg
      refine ⟨?_, ?_, by simp; rcases hr with h | h <;> simp [h]⟩
      · intro hx
        have hlen := congrArg List.length hx
        rcases hr with h | h <;> subst h <;>
          simp only [List.length_append, List.length_cons, List.length_nil]
            at hlen <;> omega
      · intro hx
        rcases hr with h | h
        · subst h
          have hlen := congrArg List.length hx
          simp at hlen
          have hj1 : (joinComps done).length = 1 := by omega
          rcases hj : joinComps done with _ | ⟨y, _ | _⟩
          · exact absurd hj hjne
          · rw [hj] at hx
            simp only [List.cons_append, List.nil_append, List.cons.injEq] at hx
            have hy : y = slashB := hx.2.1
            rcases hd2 : done with _ | ⟨c2, rest2⟩
            · exact absurd hd2 hdne
            obtain ⟨hc1, hc2⟩ := hdone c2 (by rw [hd2]; exact List.mem_cons_self c2 rest2)
            rcases hc : c2 with _ | ⟨x2, t2⟩
            · exact absurd hc hc1
            have : joinComps done = x2 :: (t2 ++ joinRest rest2) := by
              rw [hd2, hc]
              rfl
            rw [hj] at this
            simp only [List.cons.injEq] at this
            exact hc2 (by rw [hc, ← this.1, hy]; simp)
          · rw [hj] at hlen
            simp at hlen
        · subst h
          have hlen := congrArg List.length hx
          simp only [List.length_append, List.length_cons, List.length_nil]
            at hlen
          omega
    rw [if_neg hcond, joinComps_append_single, if_neg hdne]
    simp [List.append_assoc]

theorem iter_next_root_join (root2 : List Nat) (names : List (List Nat))
    (hr : root2 = [slashB] ∨ root2 = [slashB, slashB])
    (hn : ∀ c ∈ names, ¬ c = [] ∧ ¬ slashB ∈ c) :
    ComponentIter.next (root2 ++ joinComps names)
      = (some root2, joinComps names) := by
  have hflat := strip_leading_flat names hn
  rcases hr with h | h <;> subst h
  · show ComponentIter.next (slashB :: joinComps names) = _
    rw [iter_next_root, hflat, if_neg (by omega)]
  · show ComponentIter.next (slashB :: (slashB :: joinComps names)) = _
    rw [iter_next_root]
    have h2 : strip_leading_slashes (slashB :: joinComps names)
        = joinComps names := by
      simp [strip_leading_slashes, hflat]
    rw [h2, if_pos (by simp)]

theorem iter_next_name_join (nm : List Nat) (rest : List (List Nat))
    (hnm1 : ¬ nm = []) (hnm2 : ¬ slashB ∈ nm) (hnm3 : ¬ nm = [dotB])
    (hrest : ∀ c ∈ rest, ¬ c = [] ∧ ¬ slashB ∈ c) :
    ComponentIter.next (joinComps (nm :: rest)) = (some nm, joinComps rest) := by
  rcases hn : nm with _ | ⟨n0, nmr⟩
  · exact absurd hn hnm1
  have hn0 : ¬ n0 = slashB := fun h => hnm2 (by rw [hn, h]; simp)
  rcases rest with _ | ⟨c2, r2⟩
  · show ComponentIter.next (n0 :: (nmr ++ joinRest [])) = _
    have hnone : (n0 :: (nmr ++ joinRest [])).findIdx?
        (fun b => decide (b = slashB)) = none := by
      rw [List.findIdx?_eq_none_iff]
      intro x hx
      simp only [joinRest, List.append_nil] at hx
      have hxm : x ∈ nm := by rw [hn]; exact hx
      have hxn : ¬ x = slashB := fun h => hnm2 (by rw [← h]; exact hxm)
      simp [hxn]
    rw [ci_next_name_none n0 (nmr ++ joinRest []) hn0 hnone]
    rw [if_neg (by
      intro hx
      apply hnm3
      rw [hn]
      simpa [joinRest, List.append_nil] using hx)]
    simp [joinComps, joinRest, List.append_nil]
  · obtain ⟨hc1, hc2⟩ := hrest c2 (List.mem_cons_self c2 r2)
    have hjoin : joinComps ((n0 :: nmr) :: c2 :: r2)
        = n0 :: (nmr ++ slashB :: (c2 ++ joinRest r2)) := rfl
    have hnonul : ∀ x ∈ nmr, (fun b => decide (b = slashB)) x = false := by
      intro x hx
      have hxm : x ∈ nm := by rw [hn]; exact List.mem_cons_of_mem _ hx
      have hxn : ¬ x = slashB := fun h => hnm2 (by rw [← h]; exact hxm)
      simp [hxn]
    have hidx : (n0 :: (nmr ++ slashB :: (c2 ++ joinRest r2))).findIdx?
        (fun b => decide (b = slashB)) = some (nmr.length + 1) := by
      rw [show n0 :: (nmr ++ slashB :: (c2 ++ joinRest r2))
          = (n0 :: nmr) ++ slashB :: (c2 ++ joinRest r2) from rfl]
      rw [findIdx?_append_first _ slashB (c2 ++ joinRest r2) (by simp)
        (n0 :: nmr) (by
          intro x hx
          rcases List.mem_cons.mp hx with h | h
          · subst h
            simp [hn0]
          · exact hnonul x h)]
      simp
    rw [hjoin, ci_next_name_some n0 (nmr ++ slashB :: (c2 ++ joinRest r2))
      (nmr.length + 1) hn0 hidx]
    have htk : (n0 :: (nmr ++ slashB :: (c2 ++ joinRest r2))).take
        (nmr.length + 1) = n0 :: nmr := by
      rw [List.take_succ_cons]
      congr 1
      rw [List.take_append_of_le_length (Nat.le_refl _)]
      exact List.take_of_length_le (Nat.le_refl _)
    have hdr : (n0 :: (nmr ++ slashB :: (c2 ++ joinRest r2))).drop
        (nmr.length + 1) = slashB :: (c2 ++ joinRest r2) := by
      rw [List.drop_succ_cons, List.drop_left' rfl]
    rw [htk, hdr]
    rw [if_neg (show ¬ n0 :: nmr = [dotB] from
      fun hx => hnm3 (by rw [hn]; exact hx))]
    have hstrip : strip_leading_slashes (slashB :: (c2 ++ joinRest r2))
        = c2 ++ joinRest r2 := by
      have := strip_leading_flat (c2 :: r2) hrest
      simpa [strip_leading_slashes, joinComps] using this
    rw [hstrip]
    rfl

end RealpathExt

namespace RealpathExt

/-- Append one name component to the buffer contents the way the drain loop
does: no separator after a bare root marker (or an empty buffer), a single
`/` otherwise. -/
def appendC (d nm : List Nat) : List Nat :=
  if d = [slashB] ∨ d = [slashB, slashB] ∨ d = [] then d ++ nm
  else d ++ slashB :: nm

/-- The buffer contents after appending a whole list of name components. -/
def restFold : List Nat → List (List Nat) → List Nat
  | d, [] => d
  | d, nm :: rest => restFold (appendC d nm) rest

/-- Every intermediate prefix reached while appending `rest` to `d` is a
settled name (the final one possibly only as the last component). -/
def RestOK (fs : Fs) (flags : Flags) : List Nat → List (List Nat) → Prop
  | _, [] => True
  | d, nm :: rest =>
      NameOK fs flags (appendC d nm) rest.isEmpty ∧
      RestOK fs flags (appendC d nm) rest

/-- As `RestOK`, with no last-component allowance. -/
def AllFalseR (fs : Fs) (flags : Flags) : List Nat → List (List Nat) → Prop
  | _, [] => True
  | d, nm :: rest =>
      NameOK fs flags (appendC d nm) false ∧
      AllFalseR fs flags (appendC d nm) rest

theorem restOK_of_allFalseR (fs : Fs) (flags : Flags) :
    ∀ (rest : List (List Nat)) (d : List Nat),
      AllFalseR fs flags d rest → RestOK fs flags d rest := by
  intro rest
  induction rest with
  | nil => intro d _; trivial
  | cons nm rest ih =>
    intro d h
    exact ⟨nameOK_mono fs flags _ h.1 _, ih _ h.2⟩

theorem allFalseR_snoc (fs : Fs) (flags : Flags) :
    ∀ (ns : List (List Nat)) (d c : List Nat),
      AllFalseR fs flags d ns →
      NameOK fs flags (appendC (restFold d ns) c) false →
      AllFalseR fs flags d (ns ++ [c]) := by
  intro ns
  induction ns with
  | nil => intro d c _ hc; exact ⟨hc, trivial⟩
  | cons nm ns ih =>
    intro d c h hc
    exact ⟨h.1, ih _ c h.2 hc⟩

theorem allFalseR_dropLast (fs : Fs) (flags : Flags) :
    ∀ (ns : List (List Nat)) (d : List Nat),
      AllFalseR fs flags d ns → AllFalseR fs flags d ns.dropLast := by
  intro ns
  induction ns with
  | nil => intro d _; trivial
  | cons nm ns ih =>
    intro d h
    rcases ns with _ | ⟨c2, ns2⟩
    · trivial
    · exact ⟨h.1, ih _ h.2⟩

theorem restOK_tailTrue (fs : Fs) (flags : Flags) :
    ∀ (ns : List (List Nat)) (d c : List Nat),
      AllFalseR fs flags d ns →
      NameOK fs flags (appendC (restFold d ns) c) true →
      RestOK fs flags d (ns ++ [c]) := by
  intro ns
  induction ns with
  | nil =>
    intro d c _ hc
    exact ⟨by simpa using hc, trivial⟩
  | cons nm ns ih =>
    intro d c h hc
    refine ⟨?_, ih _ c h.2 hc⟩
    show NameOK fs flags (appendC d nm) ((ns ++ [c]).isEmpty)
    rw [show ((ns ++ [c]).isEmpty) = false from by simp]
    exact h.1

theorem restFold_snoc (d : List Nat) :
    ∀ (ns : List (List Nat)) (c : List Nat),
      restFold d (ns ++ [c]) = appendC (restFold d ns) c := by
  intro ns
  induction ns generalizing d with
  | nil => intro c; rfl
  | cons nm ns ih => intro c; exact ih (appendC d nm) c

theorem restFold_join (root2 : List Nat)
    (hr : root2 = [slashB] ∨ root2 = [slashB, slashB]) :
    ∀ (ns : List (List Nat)), (∀ c ∈ ns, ¬ c = [] ∧ ¬ slashB ∈ c) →
      restFold root2 ns = root2 ++ joinComps ns := by
  intro ns
  induction ns using List.reverseRecOn with
  | nil => simp [restFold, joinComps]
  | append_singleton ns c ih =>
    intro h
    rw [restFold_snoc, ih (fun x hx => h x (by simp [hx]))]
    show (if root2 ++ joinComps ns = [slashB] ∨
        root2 ++ joinComps ns = [slashB, slashB] ∨
        root2 ++ joinComps ns = [] then
      (root2 ++ joinComps ns) ++ c
    else (root2 ++ joinComps ns) ++ slashB :: c)
      = root2 ++ joinComps (ns ++ [c])
    exact prefix_step root2 c ns hr (fun x hx => h x (by simp [hx]))

theorem stack_new_isEmpty (tmp0 : List Nat) :
    (Stack.new tmp0).isEmpty = true := by
  simp [Stack.new, Stack.isEmpty]

theorem joinRest_length (rest : List (List Nat)) :
    (joinRest rest).length =
      match rest with
      | [] => 0
      | _ => (joinComps rest).length + 1 := by
  rcases rest with _ | ⟨c, r⟩
  · rfl
  · simp [joinRest, joinComps]

end RealpathExt

namespace RealpathExt

theorem appendC_nonul (d nm : List Nat) (h1 : ¬ nulB ∈ d) (h2 : ¬ nulB ∈ nm) :
    ¬ nulB ∈ appendC d nm := by
  unfold appendC
  by_cases hc : d = [slashB] ∨ d = [slashB, slashB] ∨ d = []
  · rw [if_pos hc]
    simp [h1, h2]
  · rw [if_neg hc]
    intro hm
    rcases List.mem_append.mp hm with hm | hm
    · exact h1 hm
    · rcases List.mem_cons.mp hm with hm | hm
      · exact absurd hm (by simp [nulB, slashB])
      · exact h2 hm

theorem appendC_length (d nm : List Nat) :
    (appendC d nm).length ≤ d.length + 1 + nm.length := by
  unfold appendC
  by_cases hc : d = [slashB] ∨ d = [slashB, slashB] ∨ d = []
  · rw [if_pos hc]
    simp only [List.length_append]
    omega
  · rw [if_neg hc]
    simp only [List.length_append, List.length_cons]
    omega

theorem rpLoop_resolved (fs : Fs) (flags : Flags) (tmp0 : List Nat)
    (htmp : ¬ tmp0 = []) :
    ∀ (rest : List (List Nat)) (fuel : Nat) (buf : SliceVec) (links : Nat),
      rest.length < fuel →
      (∀ c ∈ rest, wfName c) →
      buf.Inv → ¬ nulB ∈ buf.data →
      (¬ rest = [] →
        buf.data.length + (joinComps rest).length + 2 ≤ buf.capacity) →
      RestOK fs flags buf.data rest →
      ∃ out : SliceVec,
        rpLoopF fs flags fuel (Stack.new tmp0) (joinComps rest) buf links
          = .ok (out, Stack.new tmp0) ∧
        out.data = restFold buf.data rest ∧ out.Inv ∧
        out.capacity = buf.capacity := by
  intro rest
  induction rest with
  | nil =>
    intro fuel buf links hfuel _ hInv _ _ _
    rcases fuel with _ | f
    · omega
    refine ⟨buf, ?_, rfl, hInv, rfl⟩
    exact rpLoopF_exit fs flags f (Stack.new tmp0) (joinComps []) buf links
      (stack_new_content tmp0) rfl
  | cons nm rest ih =>
    intro fuel buf links hfuel hwf hInv hnul hcap hro
    obtain ⟨hnok, hro2⟩ := hro
    obtain ⟨hnm1, hnm2, hnm3, hnm4, hnm5⟩ := hwf nm (List.mem_cons_self nm rest)
    have hwf2 : ∀ c ∈ rest, wfName c :=
      fun c hc => hwf c (List.mem_cons_of_mem _ hc)
    have hcap2 := hcap (by simp)
    have hlend : buf.data.length = buf.len := SliceVec.data_length buf hInv
    have hjlen : (joinComps (nm :: rest)).length
        = nm.length + (joinRest rest).length := by
      simp [joinComps]
    have hnmpos : 0 < nm.length := by
      rcases hnm : nm with _ | _
      · exact absurd hnm hnm1
      · simp
    rcases fuel with _ | f
    · omega
    rw [rpLoopF_succ_eq, stack_next_empty _ (stack_new_content tmp0),
      iter_next_name_join nm rest hnm1 hnm2 hnm4
        (fun c hc => ⟨(hwf2 c hc).1, (hwf2 c hc).2.1⟩)]
    dsimp only
    unfold rpStep
    rw [if_neg (show ¬ (nm = [slashB] ∨ nm = [slashB, slashB]) from by
        rintro (h | h) <;> exact hnm2 (by rw [h]; simp)),
      if_neg hnm5]
    have hcont : ∀ bufa : SliceVec, bufa.Inv →
        bufa.capacity = buf.capacity →
        bufa.data ++ nm = appendC buf.data nm →
        ¬ nulB ∈ bufa.data →
        bufa.data.length ≤ buf.data.length + 1 →
        ∃ out : SliceVec,
          rpNameCont fs flags f (Stack.new tmp0) (joinComps rest) links
            buf.len nm bufa = .ok (out, Stack.new tmp0) ∧
          out.data = restFold buf.data (nm :: rest) ∧ out.Inv ∧
          out.capacity = buf.capacity := by
      intro bufa hIa hca ha hnula hla
      have hlena : bufa.data.length = bufa.len := SliceVec.data_length bufa hIa
      have hjrest : (joinRest rest).length ≥ 0 := Nat.zero_le _
      unfold rpNameCont
      have hfitx : bufa.len + nm.length ≤ bufa.capacity := by
        rw [hca]
        omega
      rw [SliceVec.extend_ok bufa nm hfitx]
      dsimp only
      have hdb : (SliceVec.mk (listWrite bufa.buf bufa.len nm)
          (bufa.len + nm.length)).data = bufa.data ++ nm :=
        SliceVec.extend_ok_data bufa nm hIa hfitx
      have hIb : (SliceVec.mk (listWrite bufa.buf bufa.len nm)
          (bufa.len + nm.length)).Inv := by
        have h2 := extend_invOk bufa nm
        rw [SliceVec.extend_ok bufa nm hfitx] at h2
        exact h2
      have hcb : (SliceVec.mk (listWrite bufa.buf bufa.len nm)
          (bufa.len + nm.length)).capacity = bufa.capacity :=
        extend_cap bufa nm _ (SliceVec.extend_ok bufa nm hfitx)
      have hfity : (SliceVec.mk (listWrite bufa.buf bufa.len nm)
          (bufa.len + nm.length)).len < (SliceVec.mk (listWrite bufa.buf
          bufa.len nm) (bufa.len + nm.length)).capacity := by
        show bufa.len + nm.length < _
        rw [hcb, hca]
        omega
      rw [SliceVec.push_ok _ nulB hfity]
      dsimp only
      set bufc := (SliceVec.mk ((listWrite bufa.buf bufa.len nm).set
          (bufa.len + nm.length) nulB) (bufa.len + nm.length + 1)) with hbufc
      have hdc : bufc.data = (bufa.data ++ nm) ++ [nulB] := by
        rw [hbufc]
        have := SliceVec.push_ok_data (SliceVec.mk (listWrite bufa.buf
          bufa.len nm) (bufa.len + nm.length)) nulB hfity
        rw [hdb] at this
        exact this
      have hIc : bufc.Inv := by
        have h2 := push_invOk (SliceVec.mk (listWrite bufa.buf bufa.len nm)
          (bufa.len + nm.length)) nulB
        rw [SliceVec.push_ok _ nulB hfity] at h2
        exact h2
      have hcc : bufc.capacity = buf.capacity := by
        have := push_cap (SliceVec.mk (listWrite bufa.buf bufa.len nm)
          (bufa.len + nm.length)) nulB bufc
          (SliceVec.push_ok _ nulB hfity)
        rw [this, hcb, hca]
      have hdc2 : bufc.data = appendC buf.data nm ++ [nulB] := by
        rw [hdc, ha]
      have hcstr : cstr bufc.data = appendC buf.data nm := by
        rw [hdc2]
        exact cstr_append_nul _ (appendC_nonul buf.data nm hnul hnm3)
      have hpopd : bufc.pop.data = appendC buf.data nm := by
        rw [SliceVec.pop_data bufc hIc, hdc2]
        exact List.dropLast_concat
      have hrec : ∃ out : SliceVec,
          rpLoopF fs flags f (Stack.new tmp0) (joinComps rest) bufc.pop links
            = .ok (out, Stack.new tmp0) ∧
          out.data = restFold buf.data (nm :: rest) ∧ out.Inv ∧
          out.capacity = buf.capacity := by
        obtain ⟨out, h1, h2, h3, h4⟩ := ih f bufc.pop links (by
            simp only [List.length_cons] at hfuel
            omega)
          hwf2 (pop_inv bufc hIc)
          (by rw [hpopd]; exact appendC_nonul buf.data nm hnul hnm3)
          (by
            intro hrne
            rw [hpopd, pop_cap, hcc]
            have h5 := appendC_length buf.data nm
            rcases hrest : rest with _ | ⟨c2, r2⟩
            · exact absurd hrest hrne
            subst hrest
            have h6 : (joinRest (c2 :: r2)).length
                = (joinComps (c2 :: r2)).length + 1 := by
              simp [joinRest, joinComps]
            rw [hjlen] at hcap2
            omega)
          (by rw [hpopd]; exact hro2)
        exact ⟨out, h1, by
            rw [h2, hpopd]
            rfl,
          h3, by rw [h4, pop_cap, hcc]⟩
      rcases hrl : fs.readlink (appendC buf.data nm) with e | t
      · have hres : (if flags.ignoreSymlinks = true then
            match readlink_empty fs (cstr bufc.data) with
            | .error e => .error e
            | .ok _ => .error EINVAL
          else (Stack.new tmp0).pushReadlinkRes
            (fs.readlink (cstr bufc.data)) : Except Int Stack)
            = .error e := by
          by_cases hig : flags.ignoreSymlinks = true
          · rw [if_pos hig]
            simp [readlink_empty, hcstr, hrl]
          · rw [if_neg hig, hcstr, hrl]
            exact pushReadlinkRes_err _ e (stack_new_i tmp0 htmp)
        rw [hres]
        dsimp only
        unfold NameOK at hnok
        rw [hrl] at hnok
        by_cases he1 : e = EINVAL
        · rw [if_pos he1]
          exact hrec
        · rw [if_neg he1]
          by_cases he2 : (e = ENOENT ∨ e = EACCES ∨ e = ENOTDIR) ∧
              flags.allowMissing = true
          · rw [if_pos he2]
            exact hrec
          · rw [if_neg he2]
            rcases hnok with h | h | h
            · exact absurd h he1
            · exact absurd h he2
            · obtain ⟨hee, hlm, hlast⟩ := h
              have hrnil : rest = [] := by
                rcases rest with _ | _
                · rfl
                · simp at hlast
              rw [if_pos ⟨hee, hlm, stack_new_isEmpty tmp0, by
                rw [hrnil]
                rfl⟩]
              exact hrec
      · unfold NameOK at hnok
        rw [hrl] at hnok
        have hres : (if flags.ignoreSymlinks = true then
            match readlink_empty fs (cstr bufc.data) with
            | .error e => .error e
            | .ok _ => .error EINVAL
          else (Stack.new tmp0).pushReadlinkRes
            (fs.readlink (cstr bufc.data)) : Except Int Stack)
            = .error EINVAL := by
          rw [if_pos hnok]
          simp [readlink_empty, hcstr, hrl]
        rw [hres]
        dsimp only
        rw [if_pos rfl]
        exact hrec
    by_cases hsep : buf.data = [slashB] ∨ buf.data = [slashB, slashB] ∨
        buf.data = []
    · rw [if_pos hsep]
      dsimp only
      exact hcont buf hInv rfl (by unfold appendC; rw [if_pos hsep]) hnul
        (by omega)
    · rw [if_neg hsep]
      have hpfit : buf.len < buf.capacity := by
        rw [hjlen] at hcap2
        omega
      rw [SliceVec.push_ok buf slashB hpfit]
      dsimp only
      have hda : (SliceVec.mk (buf.buf.set buf.len slashB) (buf.len + 1)).data
          = buf.data ++ [slashB] := SliceVec.push_ok_data buf slashB hpfit
      have hIa : (SliceVec.mk (buf.buf.set buf.len slashB) (buf.len + 1)).Inv := by
        have h2 := push_invOk buf slashB
        rw [SliceVec.push_ok buf slashB hpfit] at h2
        exact h2
      exact hcont _ hIa
        (push_cap buf slashB _ (SliceVec.push_ok buf slashB hpfit))
        (by
          rw [hda]
          unfold appendC
          rw [if_neg hsep]
          simp)
        (by
          rw [hda]
          intro hm
          rcases List.mem_append.mp hm with hm | hm
          · exact hnul hm
          · exact absurd (List.mem_singleton.mp hm) (by simp [nulB, slashB]))
        (by rw [hda]; simp)

end RealpathExt

namespace RealpathExt

theorem joinComps_nonul : ∀ names : List (List Nat),
    (∀ c ∈ names, ¬ nulB ∈ c) → ¬ nulB ∈ joinComps names := by
  intro names
  induction names with
  | nil => intro _; simp [joinComps]
  | cons c rest ih =>
    intro h
    have hc := h c (List.mem_cons_self c rest)
    have hrest := ih (fun x hx => h x (List.mem_cons_of_mem _ hx))
    show ¬ nulB ∈ c ++ joinRest rest
    rcases rest with _ | ⟨c2, r2⟩
    · simpa [joinRest] using hc
    · simp only [joinComps] at hrest
      show ¬ nulB ∈ c ++ slashB :: (c2 ++ joinRest r2)
      intro hmem
      rcases List.mem_append.mp hmem with h1 | h1
      · exact hc h1
      · rcases List.mem_cons.mp h1 with h2 | h2
        · exact absurd h2 (by simp [nulB, slashB])
        · exact hrest h2

theorem joinComps_length_ge : ∀ names : List (List Nat),
    (∀ c ∈ names, ¬ c = []) → names.length ≤ (joinComps names).length := by
  intro names
  induction names with
  | nil => intro _; simp [joinComps]
  | cons c rest ih =>
    intro h
    have hc := h c (List.mem_cons_self c rest)
    have hrest := ih (fun x hx => h x (List.mem_cons_of_mem _ hx))
    have hcpos : 0 < c.length := by
      rcases hcc : c with _ | _
      · exact absurd hcc hc
      · simp
    show rest.length + 1 ≤ (c ++ joinRest rest).length
    rw [List.length_append]
    rcases rest with _ | ⟨c2, r2⟩
    · simp only [joinRest, List.length_nil, List.length_nil]
      omega
    · have hjr : (joinRest (c2 :: r2)).length
          = (joinComps (c2 :: r2)).length + 1 := by
        simp [joinRest, joinComps]
      simp only [List.length_cons] at hrest ⊢
      omega

theorem last_name_suffix (root2 : List Nat) (init : List (List Nat))
    (nm : List Nat) : nm <:+ root2 ++ joinComps (init ++ [nm]) := by
  rw [joinComps_append_single]
  by_cases h : init = []
  · rw [if_pos h]
    exact List.suffix_append root2 nm
  · rw [if_neg h]
    exact (show nm <:+ slashB :: nm from ⟨[slashB], rfl⟩).trans
      ((List.suffix_append (joinComps init) (slashB :: nm)).trans
        (List.suffix_append root2 (joinComps init ++ slashB :: nm)))

theorem mcid_cond_false (t nm : List Nat) (h1 : ¬ nm = [])
    (h2 : ¬ slashB ∈ nm) (h3 : ¬ nm = [dotB]) :
    ¬ ([slashB].isSuffixOf (t ++ nm) ∨ [slashB, dotB].isSuffixOf (t ++ nm)) := by
  rintro (hs | hs)
  · rw [List.isSuffixOf_iff_suffix] at hs
    rcases suffix_append_cases _ t nm hs with hin | hin
    · exact h2 (hin.mem (by simp))
    · obtain ⟨u, hu⟩ := hin
      rcases u with _ | ⟨x, _ | ⟨y, u2⟩⟩
      · simp only [List.nil_append] at hu
        exact h2 (by rw [hu]; simp)
      · simp only [List.cons_append, List.cons.injEq, List.nil_append] at hu
        exact h1 hu.2
      · have hlen := congrArg List.length hu
        simp only [List.length_append, List.length_cons, List.length_nil]
          at hlen
        omega
  · rw [List.isSuffixOf_iff_suffix] at hs
    rcases suffix_append_cases _ t nm hs with hin | hin
    · exact h2 (hin.mem (by simp))
    · obtain ⟨u, hu⟩ := hin
      rcases u with _ | ⟨x, _ | ⟨y, _ | ⟨z, u3⟩⟩⟩
      · simp only [List.nil_append] at hu
        exact h2 (by rw [hu]; simp)
      · simp only [List.cons_append, List.cons.injEq, List.nil_append] at hu
        exact h3 hu.2
      · simp only [List.cons_append, List.cons.injEq, List.nil_append] at hu
        exact h1 hu.2.2
      · have hlen := congrArg List.length hu
        simp only [List.length_append, List.length_cons, List.length_nil]
          at hlen
        omega

theorem resolved_reresolve (fs : Fs) (flags : Flags) (root2 : List Nat)
    (names : List (List Nat)) (buf0 tmp0 : List Nat)
    (hr : root2 = [slashB] ∨ root2 = [slashB, slashB])
    (hwf : ∀ c ∈ names, wfName c)
    (hro : RestOK fs flags root2 names)
    (htmp : ¬ tmp0 = [])
    (hcap : root2.length + (joinComps names).length + 2 ≤ buf0.length) :
    realpathRawInner fs flags (root2 ++ joinComps names) buf0 tmp0
      = .ok (root2 ++ joinComps names) := by
  have hflat : ∀ c ∈ names, ¬ c = [] ∧ ¬ slashB ∈ c :=
    fun c hc => ⟨(hwf c hc).1, (hwf c hc).2.1⟩
  have hnul : ¬ nulB ∈ root2 ++ joinComps names := by
    intro hm
    rcases List.mem_append.mp hm with hm | hm
    · rcases hr with h | h <;> rw [h] at hm <;> simp [nulB, slashB] at hm
    · exact joinComps_nonul names (fun c hc => (hwf c hc).2.2.1) hm
  have hne : ¬ (root2 ++ joinComps names) = [] := by
    rcases hr with h | h <;> simp [h]
  have hnew : ComponentIter.new (root2 ++ joinComps names)
      = .ok (root2 ++ joinComps names) := by
    simp [ComponentIter.new, List.isEmpty_iff, hne, hnul]
  have hhead : (root2 ++ joinComps names).head? = some slashB := by
    rcases hr with h | h <;> rw [h] <;> rfl
  unfold realpathRawInner
  rw [hnew]
  dsimp only
  rw [show ∀ x : Nat, x + 2 = (x + 1) + 1 from fun x => rfl]
  have hrcap : root2.length ≤ (SliceVec.empty buf0).capacity := by
    rcases hr with h | h <;>
      simp only [h, SliceVec.capacity, SliceVec.empty] <;>
      simp only [List.length_cons, List.length_nil] <;> omega
  rw [rpLoopF_iter_root fs flags _ (Stack.new tmp0) _ (joinComps names)
    (SliceVec.empty buf0) ⟨listWrite buf0 0 root2, root2.length⟩ 0 root2
    (stack_new_content tmp0)
    (iter_next_root_join root2 names hr hflat) hr
    (SliceVec.replace_ok _ _ hrcap)]
  have hdataB : (SliceVec.mk (listWrite buf0 0 root2) root2.length).data
      = root2 := by
    have h2 := SliceVec.replace_ok_data (SliceVec.empty buf0) root2 hrcap
    simpa [SliceVec.empty] using h2
  have hInvB : (SliceVec.mk (listWrite buf0 0 root2) root2.length).Inv := by
    have h2 := replace_invOk (SliceVec.empty buf0) root2
    rw [SliceVec.replace_ok _ _ hrcap] at h2
    simpa [invOrNameTooLong, SliceVec.empty] using h2
  have hcapB : (SliceVec.mk (listWrite buf0 0 root2) root2.length).capacity
      = buf0.length := by
    simp only [SliceVec.capacity]
    exact length_listWrite buf0 root2 0 (by omega)
  have hjge := joinComps_length_ge names (fun c hc => (hwf c hc).1)
  obtain ⟨out, hL, hodata, hoInv, hocap⟩ :=
    rpLoop_resolved fs flags tmp0 htmp names
      ((fs.symloopMax + 1) * (tmp0.length + 2)
        + (root2 ++ joinComps names).length + tmp0.length + 1)
      ⟨listWrite buf0 0 root2, root2.length⟩ 0
      (by
        have hql : (root2 ++ joinComps names).length
            = root2.length + (joinComps names).length :=
          List.length_append _ _
        omega)
      hwf hInvB
      (by rw [hdataB]; rcases hr with h | h <;> simp [h, nulB, slashB])
      (by
        intro _
        rw [hdataB, hcapB]
        exact hcap)
      (by rw [hdataB]; exact hro)
  rw [hL]
  dsimp only
  have hout : out.data = root2 ++ joinComps names := by
    rw [hodata, hdataB, restFold_join root2 hr names hflat]
  rw [hout]
  rw [if_neg hne,
    if_neg (show ¬ (root2 ++ joinComps names) = [dotB, dotB] from by
      intro h
      rw [h] at hhead
      simp [dotB, slashB] at hhead),
    if_neg (show ¬ ([dotB, dotB, slashB].isPrefixOf
        (root2 ++ joinComps names) = true) from by
      rw [List.isPrefixOf_iff_prefix]
      rintro ⟨t, ht⟩
      rw [← ht] at hhead
      simp [dotB, slashB] at hhead),
    if_neg (not_not_intro (show [slashB].isPrefixOf
        (root2 ++ joinComps names) = true from by
      rw [List.isPrefixOf_iff_prefix]
      rcases hr with h | h <;> rw [h]
      · exact ⟨joinComps names, rfl⟩
      · exact ⟨slashB :: joinComps names, rfl⟩))]
  rcases List.eq_nil_or_concat names with hN | ⟨init, nm, hN⟩
  · subst hN
    rw [show joinComps ([] : List (List Nat)) = [] from rfl, List.append_nil]
    rw [if_pos hr]
  · have hN2 : names = init ++ [nm] := by rw [hN, List.concat_eq_append]
    have hnmwf : wfName nm := hwf nm (by rw [hN2]; simp)
    obtain ⟨hnm1, hnm2, hnm3, hnm4, hnm5⟩ := hnmwf
    have hsuf : nm <:+ root2 ++ joinComps names := by
      rw [hN2]
      exact last_name_suffix root2 init nm
    have hnotroot : ¬ (root2 ++ joinComps names = [slashB] ∨
        root2 ++ joinComps names = [slashB, slashB]) := by
      rcases hnmE : nm with _ | ⟨x, t2⟩
      · exact absurd hnmE hnm1
      rintro (hx | hx) <;>
        (have hx2 : x ∈ root2 ++ joinComps names :=
          hsuf.subset (by rw [hnmE]; simp)) <;>
        rw [hx] at hx2 <;> simp at hx2 <;> subst hx2 <;>
        exact hnm2 (by rw [hnmE]; simp)
    rw [if_neg hnotroot]
    obtain ⟨t, ht⟩ := hsuf
    have hnosuf := mcid_cond_false t nm hnm1 hnm2 hnm4
    rw [ht] at hnosuf
    rw [mcid_skip fs flags (root2 ++ joinComps names) out hnosuf]
    dsimp only
    rw [hout]

end RealpathExt

namespace RealpathExt

theorem ci_next_comp_subset :
    ∀ (fuel : Nat) (s c rest : List Nat),
      ComponentIter.nextF fuel s = (some c, rest) → ∀ x ∈ c, x ∈ s := by
  intro fuel
  induction fuel with
  | zero =>
    intro s c rest h
    exact absurd h (by simp [ComponentIter.nextF])
  | succ f ih =>
    intro s c rest h
    rcases s with _ | ⟨x, path⟩
    · exact absurd h (by simp [ComponentIter.nextF])
    by_cases hx : x = slashB
    · subst hx
      simp only [ComponentIter.nextF, if_pos rfl, if_true] at h
      split at h <;>
        (simp only [Prod.mk.injEq, Option.some.injEq] at h
         rcases h with ⟨rfl, _⟩
         intro y hy
         have : y = slashB := by simpa using (by
           rcases List.mem_cons.mp hy with h2 | h2
           · exact h2
           · simpa using h2)
         rw [this]
         exact List.mem_cons_self _ _)
    · simp only [ComponentIter.nextF, if_neg hx] at h
      rcases hidx : (x :: path).findIdx? (fun b => decide (b = slashB))
          with _ | idx <;> rw [hidx] at h <;> dsimp only at h
      · split at h
        · exact absurd h (by simp)
        · simp only [Prod.mk.injEq, Option.some.injEq] at h
          rcases h with ⟨rfl, _⟩
          exact fun y hy => hy
      · split at h
        · intro y hy
          have hsub : ∀ z ∈ strip_leading_slashes ((x :: path).drop idx),
              z ∈ x :: path :=
            fun z hz => List.drop_subset _ _ (mem_strip_leading hz)
          exact hsub y (ih _ _ _ h y hy)
        · simp only [Prod.mk.injEq, Option.some.injEq] at h
          rcases h with ⟨rfl, _⟩
          exact fun y hy => List.take_subset _ _ hy

theorem stack_nextF_out :
    ∀ (fuel : Nat) (s c rest : List Nat),
      Stack.nextF fuel s = (some c, rest) → compOK c ∧ ¬ nulB ∈ c := by
  intro fuel
  induction fuel with
  | zero =>
    intro s c rest h
    exact absurd h (by simp [Stack.nextF])
  | succ f ih =>
    intro s c rest h
    rcases s with _ | ⟨x, path⟩
    · exact absurd h (by simp [Stack.nextF])
    by_cases hx : x = slashB
    · simp only [Stack.nextF, if_pos hx] at h
      split at h <;>
        (simp only [Prod.mk.injEq, Option.some.injEq] at h
         rcases h with ⟨rfl, _⟩)
      · exact ⟨Or.inr (Or.inl rfl), by simp [nulB, slashB]⟩
      · exact ⟨Or.inl rfl, by simp [nulB, slashB]⟩
    · simp only [Stack.nextF, if_neg hx] at h
      rcases hidx : (x :: path).findIdx?
          (fun y => decide (y = slashB ∨ y = nulB)) with _ | idx <;>
        rw [hidx] at h <;> dsimp only at h
      · split at h
        · exact absurd h (by simp)
        · next hguard =>
          simp only [Prod.mk.injEq, Option.some.injEq] at h
          rcases h with ⟨rfl, _⟩
          have hall := List.findIdx?_eq_none_iff.mp hidx
          refine ⟨Or.inr (Or.inr ⟨by simp, ?_, hguard⟩), ?_⟩
          · intro hm
            have := hall slashB hm
            simp at this
          · intro hm
            have := hall nulB hm
            simp at this
      · split at h
        · exact ih _ _ _ h
        · next hguard =>
          simp only [Prod.mk.injEq, Option.some.injEq] at h
          rcases h with ⟨rfl, _⟩
          push_neg at hguard
          have htk := findIdx?_take_false _ (x :: path) idx hidx
          refine ⟨Or.inr (Or.inr ⟨hguard.1, ?_, hguard.2⟩), ?_⟩
          · intro hm
            have := htk slashB hm
            simp at this
          · intro hm
            have := htk nulB hm
            simp at this

theorem stack_next_some_out (st : Stack) (c : List Nat) (st2 : Stack)
    (h : Stack.next st = (some c, st2)) : compOK c ∧ ¬ nulB ∈ c := by
  unfold Stack.next at h
  rcases hn : Stack.nextC st.content with ⟨oc, rest⟩
  rw [hn] at h
  simp only [Prod.mk.injEq] at h
  rcases h with ⟨h1, _⟩
  subst h1
  exact stack_nextF_out (st.content.length + 1) st.content c rest hn

theorem stack_isEmpty_content (st : Stack) (h : st.isEmpty = true) :
    st.content = [] := by
  simp only [Stack.isEmpty, decide_eq_true_eq] at h
  simp [Stack.content, h]

theorem appendC_root_join (root2 c : List Nat) (done : List (List Nat))
    (hr : root2 = [slashB] ∨ root2 = [slashB, slashB])
    (hdone : ∀ x ∈ done, ¬ x = [] ∧ ¬ slashB ∈ x) :
    appendC (root2 ++ joinComps done) c = root2 ++ joinComps (done ++ [c]) := by
  show (if root2 ++ joinComps done = [slashB] ∨
      root2 ++ joinComps done = [slashB, slashB] ∨
      root2 ++ joinComps done = [] then
    (root2 ++ joinComps done) ++ c
  else (root2 ++ joinComps done) ++ slashB :: c)
    = root2 ++ joinComps (done ++ [c])
  exact prefix_step root2 c done hr hdone

theorem mppSpec_rooted (root2 : List Nat) (done : List (List Nat))
    (hr : root2 = [slashB] ∨ root2 = [slashB, slashB])
    (hwf : ∀ c ∈ done, wfName c) :
    makeParentPathSpec (root2 ++ joinComps done)
      = root2 ++ joinComps done.dropLast := by
  rcases List.eq_nil_or_concat done with hd | ⟨ns, nm, hd⟩
  · subst hd
    rcases hr with h | h <;> subst h <;> decide
  · rw [List.concat_eq_append] at hd
    subst hd
    obtain ⟨hnm1, hnm2, hnm0, hnm3, hnm4⟩ := hwf nm (by simp)
    have hnsOK : ∀ x ∈ ns, ¬ x = [] ∧ ¬ slashB ∈ x :=
      fun x hx => ⟨(hwf x (by simp [hx])).1, (hwf x (by simp [hx])).2.1⟩
    rw [List.dropLast_concat]
    by_cases hns : ns = []
    · subst hns
      rw [joinComps_append_single, if_pos rfl]
      rcases hr with h | h <;> subst h
      · have hcond := mpp_cond_false [slashB] nm hnm1 hnm2 hnm3 hnm4
        have hrp : SliceVec.rposition ([slashB] ++ nm) slashB = some 0 := by
          rw [rposition_append_noslash slashB nm hnm2]
          decide
        rw [mpp_of_rposition _ 0 (by simp) hcond hrp]
        rfl
      · have hcond := mpp_cond_false [slashB, slashB] nm hnm1 hnm2 hnm3 hnm4
        have hrp : SliceVec.rposition ([slashB, slashB] ++ nm) slashB
            = some 1 := by
          rw [rposition_append_noslash slashB nm hnm2]
          decide
        rw [mpp_of_rposition _ 1 (by simp) hcond hrp]
        simp [mppArm, joinComps]
    · rw [joinComps_append_single, if_neg hns]
      have hjl := joinComps_ne_nil ns hns (fun x hx => (hnsOK x hx).1)
      rw [show root2 ++ (joinComps ns ++ slashB :: nm)
          = ((root2 ++ joinComps ns) ++ [slashB]) ++ nm from by
        simp [List.append_assoc]]
      have hrp : SliceVec.rposition
          (((root2 ++ joinComps ns) ++ [slashB]) ++ nm) slashB
          = some (root2 ++ joinComps ns).length := by
        rw [rposition_append_noslash slashB nm hnm2, rposition_snoc_self]
      have hcond := mpp_cond_false ((root2 ++ joinComps ns) ++ [slashB]) nm
        hnm1 hnm2 hnm3 hnm4
      rw [mpp_of_rposition _ _ (by simp) hcond hrp]
      have hlen2 : 2 ≤ (root2 ++ joinComps ns).length := by
        rw [List.length_append]
        have h1 : 0 < root2.length := by
          rcases hr with h | h <;> simp [h]
        have h2 : 0 < (joinComps ns).length := List.length_pos.mpr hjl
        omega
      rcases hN : (root2 ++ joinComps ns).length with _ | ⟨_ | m⟩
      · omega
      · omega
      · rw [show mppArm (((root2 ++ joinComps ns) ++ [slashB]) ++ nm)
            (m + 1 + 1)
            = ((root2 ++ joinComps ns) ++ ([slashB] ++ nm)).take (m + 1 + 1)
            from by simp [mppArm, List.append_assoc]]
        rw [List.take_left' hN]

end RealpathExt

namespace RealpathExt

/-- Invariant of the drain-loop output buffer during an absolute-path run:
a root marker followed by slash-joined well-formed names, each of whose
cumulative prefixes `readlink` has settled under the flags in force. -/
def BufInv (fs : Fs) (flags : Flags) (buf : SliceVec) : Prop :=
  ∃ root2 done, (root2 = [slashB] ∨ root2 = [slashB, slashB]) ∧
    (∀ c ∈ done, wfName c) ∧ buf.data = root2 ++ joinComps done ∧
    AllFalseR fs flags root2 done

/-- Decomposition of a successfully resolved absolute path: a root marker
plus settled well-formed names (the last possibly settled only through
`ALLOW_LAST_MISSING`). -/
def ResolvedForm (fs : Fs) (flags : Flags) (d : List Nat) : Prop :=
  ∃ root2 names, (root2 = [slashB] ∨ root2 = [slashB, slashB]) ∧
    (∀ c ∈ names, wfName c) ∧ d = root2 ++ joinComps names ∧
    RestOK fs flags root2 names

theorem rpLoopF_run1 (fs : Fs) (flags : Flags) (out : SliceVec) (stout : Stack) :
    ∀ (fuel : Nat) (st : Stack) (it : List Nat) (buf : SliceVec) (links : Nat),
      ¬ nulB ∈ it → buf.Inv → BufInv fs flags buf →
      rpLoopF fs flags fuel st it buf links = .ok (out, stout) →
      ResolvedForm fs flags out.data ∧ out.Inv := by
  intro fuel
  induction fuel with
  | zero =>
    intro st it buf links _ _ _ h
    exact absurd h (by simp [rpLoopF])
  | succ f ih =>
    intro st it buf links hitn hInv hBI h
    obtain ⟨root2, done, hr, hdwf, hdata, hAF⟩ := hBI
    have hflat : ∀ x ∈ done, ¬ x = [] ∧ ¬ slashB ∈ x :=
      fun x hx => ⟨(hdwf x hx).1, (hdwf x hx).2.1⟩
    have hdnul : ¬ nulB ∈ buf.data := by
      rw [hdata]
      intro hm
      rcases List.mem_append.mp hm with hm | hm
      · rcases hr with hh | hh <;> rw [hh] at hm <;>
          simp [nulB, slashB] at hm
      · exact joinComps_nonul done (fun x hx => (hdwf x hx).2.2.1) hm
    have hstep : ∀ (c : List Nat) (st2 : Stack) (it2 : List Nat) (links2 : Nat),
        compOK c → ¬ nulB ∈ c → ¬ nulB ∈ it2 →
        rpStep fs flags f st2 it2 buf links2 c = .ok (out, stout) →
        ResolvedForm fs flags out.data ∧ out.Inv := by
      intro c st2 it2 links2 hcOK hcnul hit2 h
      unfold rpStep at h
      by_cases hcr : c = [slashB] ∨ c = [slashB, slashB]
      · rw [if_pos hcr] at h
        rcases hrep : buf.replace c with e | buf2 <;> rw [hrep] at h
        · exact absurd h (by simp)
        by_cases hfit : c.length ≤ buf.capacity
        · rw [SliceVec.replace_ok buf c hfit] at hrep
          simp only [Except.ok.injEq] at hrep
          subst hrep
          dsimp only at h
          have hd2 : (SliceVec.mk (listWrite buf.buf 0 c) c.length).data = c :=
            SliceVec.replace_ok_data buf c hfit
          have hI2 : (SliceVec.mk (listWrite buf.buf 0 c) c.length).Inv := by
            have h2 := replace_invOk buf c
            rw [SliceVec.replace_ok buf c hfit] at h2
            exact h2
          exact ih st2 it2 _ links2 hit2 hI2
            ⟨c, [], hcr, by simp, by rw [hd2]; simp [joinComps], trivial⟩ h
        · rw [SliceVec.replace_err buf c (by omega)] at hrep
          exact absurd hrep (by simp)
      · rw [if_neg hcr] at h
        by_cases hdd : c = [dotB, dotB]
        · rw [if_pos hdd] at h
          rcases hmp : buf.make_parent_path with e | buf2 <;> rw [hmp] at h
          · exact absurd h (by simp)
          dsimp only at h
          have hspec := make_parent_path_eq_spec buf hInv
          rw [hmp] at hspec
          by_cases hcc : (makeParentPathSpec buf.data).length ≤ buf.capacity
          · rw [if_pos hcc] at hspec
            simp only [Except.map, Except.ok.injEq] at hspec
            have hI2 : buf2.Inv := by
              have h2 := make_parent_invOk buf hInv
              rw [hmp] at h2
              exact h2
            refine ih st2 it2 buf2 links2 hit2 hI2
              ⟨root2, done.dropLast,
                hr, fun x hx => hdwf x ((List.dropLast_sublist done).subset hx),
                ?_, allFalseR_dropLast fs flags done root2 hAF⟩ h
            rw [hspec, hdata, mppSpec_rooted root2 done hr hdwf]
          · rw [if_neg hcc] at hspec
            exact absurd hspec (by simp [Except.map])
        · rw [if_neg hdd] at h
          rcases hcOK with hc1 | hc1 | hcbody
          · exact absurd (Or.inl hc1) hcr
          · exact absurd (Or.inr hc1) hcr
          obtain ⟨hc1, hc2, hc3⟩ := hcbody
          have hσnul : ¬ nulB ∈ appendC buf.data c :=
            appendC_nonul buf.data c hdnul hcnul
          have hdpre : ∃ Y, appendC buf.data c = buf.data ++ Y := by
            unfold appendC
            split
            · exact ⟨c, rfl⟩
            · exact ⟨slashB :: c, rfl⟩
          have hcwf : wfName c := ⟨hc1, hc2, hcnul, hc3, hdd⟩
          have hcont : ∀ bufa : SliceVec, bufa.Inv →
              bufa.data ++ c = appendC buf.data c → ¬ nulB ∈ bufa.data →
              rpNameCont fs flags f st2 it2 links2 buf.len c bufa
                = .ok (out, stout) →
              ResolvedForm fs flags out.data ∧ out.Inv := by
            intro bufa hIa ha hnula h
            unfold rpNameCont at h
            rcases hex : bufa.extend_from_slice c with e | bufb <;>
              rw [hex] at h
            · exact absurd h (by simp)
            by_cases hfb : bufa.len + c.length ≤ bufa.capacity
            · rw [SliceVec.extend_ok bufa c hfb] at hex
              simp only [Except.ok.injEq] at hex
              subst hex
              dsimp only at h
              have hdb : (SliceVec.mk (listWrite bufa.buf bufa.len c)
                  (bufa.len + c.length)).data = bufa.data ++ c :=
                SliceVec.extend_ok_data bufa c hIa hfb
              have hIb : (SliceVec.mk (listWrite bufa.buf bufa.len c)
                  (bufa.len + c.length)).Inv := by
                have h2 := extend_invOk bufa c
                rw [SliceVec.extend_ok bufa c hfb] at h2
                exact h2
              rcases hpn : (SliceVec.mk (listWrite bufa.buf bufa.len c)
                  (bufa.len + c.length)).push nulB with e | bufc <;>
                rw [hpn] at h
              · exact absurd h (by simp)
              by_cases hfc : (SliceVec.mk (listWrite bufa.buf bufa.len c)
                  (bufa.len + c.length)).len
                  < (SliceVec.mk (listWrite bufa.buf bufa.len c)
                    (bufa.len + c.length)).capacity
              · rw [SliceVec.push_ok _ nulB hfc] at hpn
                simp only [Except.ok.injEq] at hpn
                subst hpn
                dsimp only at h
                set bufc := (SliceVec.mk ((listWrite bufa.buf bufa.len c).set
                    (bufa.len + c.length) nulB) (bufa.len + c.length + 1))
                  with hbufc
                have hdc : bufc.data = (bufa.data ++ c) ++ [nulB] := by
                  rw [hbufc]
                  have h2 := SliceVec.push_ok_data
                    (SliceVec.mk (listWrite bufa.buf bufa.len c)
                      (bufa.len + c.length)) nulB hfc
                  rw [hdb] at h2
                  exact h2
                have hIc : bufc.Inv := by
                  have h2 := push_invOk (SliceVec.mk (listWrite bufa.buf
                    bufa.len c) (bufa.len + c.length)) nulB
                  rw [SliceVec.push_ok _ nulB hfc] at h2
                  exact h2
                have hdc2 : bufc.data = appendC buf.data c ++ [nulB] := by
                  rw [hdc, ha]
                have hcstr : cstr bufc.data = appendC buf.data c := by
                  rw [hdc2]
                  exact cstr_append_nul _ hσnul
                have hpopd : bufc.pop.data = appendC buf.data c := by
                  rw [SliceVec.pop_data bufc hIc, hdc2]
                  exact List.dropLast_concat
                have hBI2 : NameOK fs flags (appendC buf.data c) false →
                    BufInv fs flags bufc.pop := by
                  intro hnok
                  refine ⟨root2, done ++ [c], hr, ?_, ?_, ?_⟩
                  · intro x hx
                    rcases List.mem_append.mp hx with hx | hx
                    · exact hdwf x hx
                    · rw [List.mem_singleton.mp hx]
                      exact hcwf
                  · rw [hpopd, hdata,
                      appendC_root_join root2 c done hr hflat]
                  · refine allFalseR_snoc fs flags done root2 c hAF ?_
                    rw [restFold_join root2 hr done hflat, ← hdata]
                    exact hnok
                have hfin : NameOK fs flags (appendC buf.data c) false →
                    rpLoopF fs flags f st2 it2 bufc.pop links2
                      = .ok (out, stout) →
                    ResolvedForm fs flags out.data ∧ out.Inv :=
                  fun hnok hrec => ih st2 it2 bufc.pop links2 hit2
                    (pop_inv bufc hIc) (hBI2 hnok) hrec
                rcases hrl : fs.readlink (appendC buf.data c) with e | t
                · -- readlink reports error `e`
                  have hdisp : (if e = EINVAL then
                        rpLoopF fs flags f st2 it2 bufc.pop links2
                      else if (e = ENOENT ∨ e = EACCES ∨ e = ENOTDIR) ∧
                          flags.allowMissing = true then
                        rpLoopF fs flags f st2 it2 bufc.pop links2
                      else if e = ENOENT ∧ flags.allowLastMissing = true ∧
                          st2.isEmpty = true ∧ iterIsEmpty it2 = true then
                        rpLoopF fs flags f st2 it2 bufc.pop links2
                      else .error e) = .ok (out, stout) →
                      ResolvedForm fs flags out.data ∧ out.Inv := by
                    intro hh
                    by_cases he1 : e = EINVAL
                    · rw [if_pos he1] at hh
                      refine hfin ?_ hh
                      unfold NameOK
                      rw [hrl]
                      exact Or.inl he1
                    rw [if_neg he1] at hh
                    by_cases he2 : (e = ENOENT ∨ e = EACCES ∨ e = ENOTDIR) ∧
                        flags.allowMissing = true
                    · rw [if_pos he2] at hh
                      refine hfin ?_ hh
                      unfold NameOK
                      rw [hrl]
                      exact Or.inr (Or.inl he2)
                    rw [if_neg he2] at hh
                    by_cases he3 : e = ENOENT ∧ flags.allowLastMissing = true ∧
                        st2.isEmpty = true ∧ iterIsEmpty it2 = true
                    · rw [if_pos he3] at hh
                      have hit2e : it2 = [] := by
                        have h3 := he3.2.2.2
                        simpa [iterIsEmpty, List.isEmpty_iff] using h3
                      rcases f with _ | f2
                      · exact absurd hh (by simp [rpLoopF])
                      rw [rpLoopF_exit fs flags f2 st2 it2 bufc.pop links2
                        (stack_isEmpty_content st2 he3.2.2.1)
                        (by rw [hit2e]; rfl)] at hh
                      simp only [Except.ok.injEq, Prod.mk.injEq] at hh
                      obtain ⟨h1, _⟩ := hh
                      rw [← h1]
                      refine ⟨⟨root2, done ++ [c], hr, ?_, ?_, ?_⟩,
                        pop_inv bufc hIc⟩
                      · intro x hx
                        rcases List.mem_append.mp hx with hx | hx
                        · exact hdwf x hx
                        · rw [List.mem_singleton.mp hx]
                          exact hcwf
                      · rw [hpopd, hdata,
                          appendC_root_join root2 c done hr hflat]
                      · refine restOK_tailTrue fs flags done root2 c hAF ?_
                        rw [restFold_join root2 hr done hflat, ← hdata]
                        unfold NameOK
                        rw [hrl]
                        exact Or.inr (Or.inr ⟨he3.1, he3.2.1, rfl⟩)
                    · rw [if_neg he3] at hh
                      exact absurd hh (by simp)
                  by_cases hig : flags.ignoreSymlinks = true
                  · rw [if_pos hig,
                      show readlink_empty fs (cstr bufc.data) = .error e from by
                        simp [readlink_empty, hcstr, hrl]] at h
                    dsimp only at h
                    exact hdisp h
                  · rw [if_neg hig, hcstr, hrl] at h
                    unfold Stack.pushReadlinkRes at h
                    by_cases hi0 : st2.i = 0
                    · rw [if_pos hi0] at h
                      dsimp only at h
                      rw [if_neg (show ¬ (ENAMETOOLONG : Int) = EINVAL from
                            by decide),
                        if_neg (show ¬ (((ENAMETOOLONG : Int) = ENOENT ∨
                            (ENAMETOOLONG : Int) = EACCES ∨
                            (ENAMETOOLONG : Int) = ENOTDIR) ∧
                            flags.allowMissing = true) from by
                          rintro ⟨h3, _⟩
                          rcases h3 with h3 | h3 | h3 <;> revert h3 <;> decide),
                        if_neg (show ¬ ((ENAMETOOLONG : Int) = ENOENT ∧
                            flags.allowLastMissing = true ∧
                            st2.isEmpty = true ∧ iterIsEmpty it2 = true) from by
                          rintro ⟨h3, _⟩
                          revert h3
                          decide)] at h
                      exact absurd h (by simp)
                    · rw [if_neg hi0] at h
                      dsimp only at h
                      exact hdisp h
                · -- readlink reports a symlink with target `t`
                  by_cases hig : flags.ignoreSymlinks = true
                  · rw [if_pos hig,
                      show readlink_empty fs (cstr bufc.data) = .ok () from by
                        simp [readlink_empty, hcstr, hrl]] at h
                    dsimp only at h
                    rw [if_pos rfl] at h
                    refine hfin ?_ h
                    unfold NameOK
                    rw [hrl]
                    exact hig
                  · rw [if_neg hig, hcstr, hrl] at h
                    unfold Stack.pushReadlinkRes at h
                    by_cases hi0 : st2.i = 0
                    · rw [if_pos hi0] at h
                      dsimp only at h
                      rw [if_neg (show ¬ (ENAMETOOLONG : Int) = EINVAL from
                            by decide),
                        if_neg (show ¬ (((ENAMETOOLONG : Int) = ENOENT ∨
                            (ENAMETOOLONG : Int) = EACCES ∨
                            (ENAMETOOLONG : Int) = ENOTDIR) ∧
                            flags.allowMissing = true) from by
                          rintro ⟨h3, _⟩
                          rcases h3 with h3 | h3 | h3 <;> revert h3 <;> decide),
                        if_neg (show ¬ ((ENAMETOOLONG : Int) = ENOENT ∧
                            flags.allowLastMissing = true ∧
                            st2.isEmpty = true ∧ iterIsEmpty it2 = true) from by
                          rintro ⟨h3, _⟩
                          revert h3
                          decide)] at h
                      exact absurd h (by simp)
                    · rw [if_neg hi0] at h
                      dsimp only at h
                      by_cases hl2 : st2.i - 1 ≤ min t.length st2.i
                      · rw [if_pos hl2] at h
                        dsimp only at h
                        rw [if_neg (show ¬ (ENAMETOOLONG : Int) = EINVAL from
                              by decide),
                          if_neg (show ¬ (((ENAMETOOLONG : Int) = ENOENT ∨
                              (ENAMETOOLONG : Int) = EACCES ∨
                              (ENAMETOOLONG : Int) = ENOTDIR) ∧
                              flags.allowMissing = true) from by
                            rintro ⟨h3, _⟩
                            rcases h3 with h3 | h3 | h3 <;> revert h3 <;> decide),
                          if_neg (show ¬ ((ENAMETOOLONG : Int) = ENOENT ∧
                              flags.allowLastMissing = true ∧
                              st2.isEmpty = true ∧ iterIsEmpty it2 = true) from by
                            rintro ⟨h3, _⟩
                            revert h3
                            decide)] at h
                        exact absurd h (by simp)
                      · rw [if_neg hl2] at h
                        dsimp only at h
                        rcases hadv : advanceLinks fs.symloopMax links2
                            with e2 | links3 <;> rw [hadv] at h <;>
                          dsimp only at h
                        · exact absurd h (by simp)
                        · have htr : (bufc.truncate buf.len).data
                              = root2 ++ joinComps done := by
                            obtain ⟨Y, hY⟩ := hdpre
                            rw [SliceVec.truncate_data, hdc2, hY,
                              List.append_assoc,
                              List.take_left'
                                (by rw [SliceVec.data_length buf hInv]),
                              hdata]
                          exact ih _ it2 _ links3 hit2
                            (truncate_inv bufc buf.len hIc)
                            ⟨root2, done, hr, hdwf, htr, hAF⟩ h
              · rw [SliceVec.push_err _ nulB (by omega)] at hpn
                exact absurd hpn (by simp)
            · rw [SliceVec.extend_err bufa c (by omega)] at hex
              exact absurd hex (by simp)
          by_cases hsep : buf.data = [slashB] ∨ buf.data = [slashB, slashB] ∨
              buf.data = []
          · rw [if_pos hsep] at h
            dsimp only at h
            exact hcont buf hInv (by unfold appendC; rw [if_pos hsep]) hdnul h
          · rw [if_neg hsep] at h
            rcases hps : buf.push slashB with e | bufa <;> rw [hps] at h
            · exact absurd h (by simp)
            by_cases hfit : buf.len < buf.capacity
            · rw [SliceVec.push_ok buf slashB hfit] at hps
              simp only [Except.ok.injEq] at hps
              subst hps
              dsimp only at h
              have hda : (SliceVec.mk (buf.buf.set buf.len slashB)
                  (buf.len + 1)).data = buf.data ++ [slashB] :=
                SliceVec.push_ok_data buf slashB hfit
              have hIa : (SliceVec.mk (buf.buf.set buf.len slashB)
                  (buf.len + 1)).Inv := by
                have h2 := push_invOk buf slashB
                rw [SliceVec.push_ok buf slashB hfit] at h2
                exact h2
              refine hcont _ hIa ?_ ?_ h
              · rw [hda]
                unfold appendC
                rw [if_neg hsep]
                simp
              · rw [hda]
                intro hm
                rcases List.mem_append.mp hm with hm | hm
                · exact hdnul hm
                · exact absurd (List.mem_singleton.mp hm)
                    (by simp [nulB, slashB])
            · rw [SliceVec.push_err buf slashB (by omega)] at hps
              exact absurd hps (by simp)
    rw [rpLoopF_succ_eq] at h
    rcases hsn : Stack.next st with ⟨oc, st2⟩
    rw [hsn] at h
    rcases oc with _ | c
    · rcases hin : ComponentIter.next it with ⟨oci, it2⟩
      rw [hin] at h
      rcases oci with _ | c
      · dsimp only at h
        simp only [Except.ok.injEq, Prod.mk.injEq] at h
        obtain ⟨h1, _⟩ := h
        rw [← h1]
        exact ⟨⟨root2, done, hr, hdwf, hdata,
          restOK_of_allFalseR fs flags done root2 hAF⟩, hInv⟩
      · dsimp only at h
        have hcOK : compOK c := ci_nextF_out (it.length + 1) it c it2 hin
        have hcnul : ¬ nulB ∈ c := fun hm =>
          hitn (ci_next_comp_subset (it.length + 1) it c it2 hin nulB hm)
        have hit2 : ¬ nulB ∈ it2 := fun hm =>
          hitn (ci_next_subset (it.length + 1) it _ it2 hin nulB hm)
        exact hstep c st2 it2 links hcOK hcnul hit2 h
    · dsimp only at h
      obtain ⟨hcOK, hcnul⟩ := stack_next_some_out st c st2 hsn
      exact hstep c st2 it links hcOK hcnul hitn h

end RealpathExt

namespace RealpathExt

theorem mcid_ok_data (fs : Fs) (flags : Flags) (path : List Nat)
    (buf w : SliceVec) (hI : buf.Inv)
    (h : maybe_check_isdir fs flags path buf = .ok w) : w.data = buf.data := by
  unfold maybe_check_isdir at h
  split at h
  · rcases hpn : buf.push nulB with e | b2 <;> rw [hpn] at h
    · exact absurd h (by simp)
    dsimp only at h
    by_cases hfit : buf.len < buf.capacity
    · rw [SliceVec.push_ok buf nulB hfit] at hpn
      simp only [Except.ok.injEq] at hpn
      subst hpn
      have hd2 : (SliceVec.mk (buf.buf.set buf.len nulB) (buf.len + 1)).data
          = buf.data ++ [nulB] := SliceVec.push_ok_data buf nulB hfit
      have hI2 : (SliceVec.mk (buf.buf.set buf.len nulB) (buf.len + 1)).Inv := by
        have h2 := push_invOk buf nulB
        rw [SliceVec.push_ok buf nulB hfit] at h2
        exact h2
      rcases hck : check_isdir fs
          (cstr (SliceVec.mk (buf.buf.set buf.len nulB) (buf.len + 1)).data)
          with e | u <;> rw [hck] at h <;> dsimp only at h
      · split at h
        · simp only [Except.ok.injEq] at h
          rw [← h, SliceVec.pop_data _ hI2, hd2]
          exact List.dropLast_concat
        · exact absurd h (by simp)
      · simp only [Except.ok.injEq] at h
        rw [← h, SliceVec.pop_data _ hI2, hd2]
        exact List.dropLast_concat
    · rw [SliceVec.push_err buf nulB (by omega)] at hpn
      exact absurd hpn (by simp)
  · simp only [Except.ok.injEq] at h
    rw [← h]

theorem realpathRawInner_run1 (fs : Fs) (flags : Flags)
    (p buf0 tmp0 q : List Nat)
    (habs : p.head? = some slashB)
    (h : realpathRawInner fs flags p buf0 tmp0 = .ok q) :
    ResolvedForm fs flags q := by
  unfold realpathRawInner at h
  rcases hnew : ComponentIter.new p with e | it0 <;> rw [hnew] at h
  · exact absurd h (by simp)
  dsimp only at h
  have hvalid : it0 = p ∧ ¬ nulB ∈ p := by
    unfold ComponentIter.new at hnew
    by_cases h1 : p.isEmpty
    · rw [if_pos h1] at hnew
      exact absurd hnew (by simp)
    · rw [if_neg h1] at hnew
      by_cases h2 : p.contains nulB
      · rw [if_pos h2] at hnew
        exact absurd hnew (by simp)
      · rw [if_neg h2] at hnew
        simp only [Except.ok.injEq] at hnew
        refine ⟨hnew.symm, ?_⟩
        intro hm
        exact h2 (by simpa using hm)
  obtain ⟨hit0, hpnul⟩ := hvalid
  rw [hit0] at h
  clear hit0 hnew
  rcases p with _ | ⟨x, prest⟩
  · simp at habs
  simp only [List.head?_cons, Option.some.injEq] at habs
  subst habs
  rw [show ∀ y : Nat, y + 2 = (y + 1) + 1 from fun y => rfl] at h
  have hroot : ∃ c0 it2, ComponentIter.next (slashB :: prest) = (some c0, it2)
      ∧ (c0 = [slashB] ∨ c0 = [slashB, slashB])
      ∧ it2 = strip_leading_slashes prest := by
    rw [iter_next_root]
    by_cases hc : prest.length - (strip_leading_slashes prest).length = 1
    · rw [if_pos hc]
      exact ⟨_, _, rfl, Or.inr rfl, rfl⟩
    · rw [if_neg hc]
      exact ⟨_, _, rfl, Or.inl rfl, rfl⟩
  obtain ⟨c0, it2, hnx, hc0, hit2eq⟩ := hroot
  rw [rpLoopF_succ_eq, stack_next_empty _ (stack_new_content tmp0), hnx] at h
  dsimp only at h
  unfold rpStep at h
  rw [if_pos hc0] at h
  rcases hrep : (SliceVec.empty buf0).replace c0 with e | buf2 <;>
    rw [hrep] at h
  · exact absurd h (by simp)
  dsimp only at h
  by_cases hfit : c0.length ≤ (SliceVec.empty buf0).capacity
  · rw [SliceVec.replace_ok _ c0 hfit] at hrep
    simp only [Except.ok.injEq] at hrep
    subst hrep
    have hd2 : (SliceVec.mk (listWrite (SliceVec.empty buf0).buf 0 c0)
        c0.length).data = c0 := SliceVec.replace_ok_data (SliceVec.empty buf0)
          c0 hfit
    have hI2 : (SliceVec.mk (listWrite (SliceVec.empty buf0).buf 0 c0)
        c0.length).Inv := by
      have h2 := replace_invOk (SliceVec.empty buf0) c0
      rw [SliceVec.replace_ok _ c0 hfit] at h2
      exact h2
    have hit2nul : ¬ nulB ∈ it2 := by
      rw [hit2eq]
      intro hm
      exact hpnul (List.mem_cons_of_mem _ (mem_strip_leading hm))
    rcases hloop : rpLoopF fs flags
        ((fs.symloopMax + 1) * (tmp0.length + 2) + (slashB :: prest).length
          + tmp0.length + 1)
        (Stack.new tmp0) it2
        (SliceVec.mk (listWrite (SliceVec.empty buf0).buf 0 c0) c0.length) 0
        with e | ⟨bufL, stL⟩ <;> rw [hloop] at h
    · exact absurd h (by simp)
    dsimp only at h
    obtain ⟨⟨root2, names, hr2, hwf2, hdec, hro2⟩, hIL⟩ :=
      rpLoopF_run1 fs flags bufL stL _ (Stack.new tmp0) it2 _ 0 hit2nul hI2
        ⟨c0, [], hc0, by simp, by rw [hd2]; simp [joinComps], trivial⟩ hloop
    have hhead : (root2 ++ joinComps names).head? = some slashB := by
      rcases hr2 with hh | hh <;> rw [hh] <;> rfl
    rw [hdec] at h
    rw [if_neg (show ¬ (root2 ++ joinComps names) = [] from by
        intro hx
        rw [hx] at hhead
        simp at hhead),
      if_neg (show ¬ (root2 ++ joinComps names) = [dotB, dotB] from by
        intro hx
        rw [hx] at hhead
        simp [dotB, slashB] at hhead),
      if_neg (show ¬ ([dotB, dotB, slashB].isPrefixOf
          (root2 ++ joinComps names) = true) from by
        rw [List.isPrefixOf_iff_prefix]
        rintro ⟨t, ht⟩
        rw [← ht] at hhead
        simp [dotB, slashB] at hhead),
      if_neg (not_not_intro (show [slashB].isPrefixOf
          (root2 ++ joinComps names) = true from by
        rw [List.isPrefixOf_iff_prefix]
        rcases hr2 with hh | hh <;> rw [hh]
        · exact ⟨joinComps names, rfl⟩
        · exact ⟨slashB :: joinComps names, rfl⟩))] at h
    rcases List.eq_nil_or_concat names with hN | ⟨init, nm, hN⟩
    · subst hN
      rw [if_pos (by
        rw [show joinComps ([] : List (List Nat)) = [] from rfl,
          List.append_nil]
        exact hr2)] at h
      simp only [Except.ok.injEq] at h
      rw [← h]
      exact ⟨root2, [], hr2, by simp, rfl, trivial⟩
    · have hN2 : names = init ++ [nm] := by rw [hN, List.concat_eq_append]
      have hnmwf : wfName nm := hwf2 nm (by rw [hN2]; simp)
      obtain ⟨hnm1, hnm2, hnm3, hnm4, hnm5⟩ := hnmwf
      have hsuf : nm <:+ root2 ++ joinComps names := by
        rw [hN2]
        exact last_name_suffix root2 init nm
      have hnotroot : ¬ (root2 ++ joinComps names = [slashB] ∨
          root2 ++ joinComps names = [slashB, slashB]) := by
        rcases hnmE : nm with _ | ⟨y, t2⟩
        · exact absurd hnmE hnm1
        rintro (hx | hx) <;>
          (have hx2 : y ∈ root2 ++ joinComps names :=
            hsuf.subset (by rw [hnmE]; simp)) <;>
          rw [hx] at hx2 <;> simp at hx2 <;> subst hx2 <;>
          exact hnm2 (by rw [hnmE]; simp)
      rw [if_neg hnotroot] at h
      rcases hmc : maybe_check_isdir fs flags (slashB :: prest) bufL
          with e | w <;> rw [hmc] at h
      · exact absurd h (by simp)
      dsimp only at h
      simp only [Except.ok.injEq] at h
      rw [← h, mcid_ok_data fs flags (slashB :: prest) bufL w hIL hmc, hdec]
      exact ⟨root2, names, hr2, hwf2, rfl, hro2⟩
  · rw [SliceVec.replace_err _ c0 (by omega)] at hrep
    exact absurd hrep (by simp)

end RealpathExt

namespace RealpathExt

end RealpathExt

namespace RealpathExt

theorem joinRest_append_full (B : List (List Nat)) (hB : ¬ B = []) :
    ∀ A : List (List Nat),
      joinRest (A ++ B) = joinRest A ++ slashB :: joinComps B := by
  intro A
  induction A with
  | nil =>
    rcases B with _ | ⟨b, r⟩
    · exact absurd rfl hB
    · simp [joinRest, joinComps]
  | cons a r ih =>
    show slashB :: (a ++ joinRest (r ++ B)) = _
    rw [ih]
    simp [joinRest]

theorem joinComps_append (A B : List (List Nat)) (hA : ¬ A = [])
    (hB : ¬ B = []) :
    joinComps (A ++ B) = joinComps A ++ slashB :: joinComps B := by
  rcases A with _ | ⟨a, r⟩
  · exact absurd rfl hA
  · show a ++ joinRest (r ++ B) = (a ++ joinRest r) ++ slashB :: joinComps B
    rw [joinRest_append_full B hB r, List.append_assoc]

theorem join_not_rootform (l : List (List Nat))
    (hl : ∀ c ∈ l, ¬ c = [] ∧ ¬ slashB ∈ c) :
    ¬ (joinComps l = [slashB] ∨ joinComps l = [slashB, slashB] ∨
       joinComps l = []) ∨ l = [] := by
  rcases hle : l with _ | ⟨c, r⟩
  · exact Or.inr rfl
  refine Or.inl ?_
  obtain ⟨hc1, hc2⟩ := hl c (by rw [hle]; exact List.mem_cons_self c r)
  rcases hcc : c with _ | ⟨x, t⟩
  · exact absurd hcc hc1
  have hx : ¬ x = slashB := fun hh => hc2 (by rw [hcc, hh]; simp)
  have hj : joinComps ((x :: t) :: r) = x :: (t ++ joinRest r) := rfl
  rintro (h | h | h) <;> rw [hj] at h
  · simp only [List.cons.injEq] at h
    exact hx h.1
  · simp only [List.cons.injEq] at h
    exact hx h.1
  · simp at h

theorem join_no_slash_prefix (l : List (List Nat))
    (hl : ∀ c ∈ l, ¬ c = [] ∧ ¬ slashB ∈ c) :
    ¬ ([slashB].isPrefixOf (joinComps l) = true) := by
  rw [List.isPrefixOf_iff_prefix]
  rintro ⟨t, ht⟩
  rcases hle : l with _ | ⟨c, r⟩
  · rw [hle] at ht
    simp [joinComps] at ht
  obtain ⟨hc1, hc2⟩ := hl c (by rw [hle]; exact List.mem_cons_self c r)
  rcases hcc : c with _ | ⟨x, t2⟩
  · exact absurd hcc hc1
  have hx : ¬ x = slashB := fun hh => hc2 (by rw [hcc, hh]; simp)
  rw [hle] at ht
  have hj : joinComps (c :: r) = x :: (t2 ++ joinRest r) := by
    rw [hcc]
    rfl
  rw [hj] at ht
  simp only [List.cons_append, List.nil_append, List.cons.injEq] at ht
  exact hx ht.1.symm

theorem appendC_join (l : List (List Nat)) (nm : List Nat)
    (hl : ∀ c ∈ l, ¬ c = [] ∧ ¬ slashB ∈ c) :
    appendC (joinComps l) nm = joinComps (l ++ [nm]) := by
  rcases join_not_rootform l hl with hcond | hnil
  · have hne : ¬ l = [] := fun hx =>
      hcond (Or.inr (Or.inr (by rw [hx]; rfl)))
    unfold appendC
    rw [if_neg hcond, joinComps_append_single, if_neg hne]
  · subst hnil
    simp [appendC, joinComps, joinRest]

theorem restFold_join_base : ∀ (ns l : List (List Nat)),
    (∀ c ∈ l, ¬ c = [] ∧ ¬ slashB ∈ c) →
    (∀ c ∈ ns, ¬ c = [] ∧ ¬ slashB ∈ c) →
    restFold (joinComps l) ns = joinComps (l ++ ns) := by
  intro ns
  induction ns using List.reverseRecOn with
  | nil => intro l _ _; simp [restFold]
  | append_singleton ns c ih =>
    intro l hl hns
    rw [restFold_snoc, ih l hl (fun x hx => hns x (by simp [hx])),
      appendC_join (l ++ ns) c (by
        intro x hx
        rcases List.mem_append.mp hx with hx | hx
        · exact hl x hx
        · exact hns x (by simp [hx])),
      List.append_assoc]

theorem restFold_join_from (root2 : List Nat)
    (hr : root2 = [slashB] ∨ root2 = [slashB, slashB]) :
    ∀ (ns L : List (List Nat)),
      (∀ c ∈ L, ¬ c = [] ∧ ¬ slashB ∈ c) →
      (∀ c ∈ ns, ¬ c = [] ∧ ¬ slashB ∈ c) →
      restFold (root2 ++ joinComps L) ns = root2 ++ joinComps (L ++ ns) := by
  intro ns
  induction ns using List.reverseRecOn with
  | nil => intro L _ _; simp [restFold]
  | append_singleton ns c ih =>
    intro L hL hns
    rw [restFold_snoc, ih L hL (fun x hx => hns x (by simp [hx])),
      appendC_root_join root2 c (L ++ ns) hr (by
        intro x hx
        rcases List.mem_append.mp hx with hx | hx
        · exact hL x hx
        · exact hns x (by simp [hx])),
      List.append_assoc]

theorem join_dd_succ (k : Nat) (names : List (List Nat))
    (h : ¬ (List.replicate k [dotB, dotB] ++ names : List (List Nat)) = []) :
    joinComps (List.replicate (k + 1) [dotB, dotB] ++ names)
      = dotB :: dotB :: slashB ::
        joinComps (List.replicate k [dotB, dotB] ++ names) := by
  rw [List.replicate_succ]
  rcases hx : (List.replicate k [dotB, dotB] ++ names : List (List Nat))
      with _ | ⟨c, r⟩
  · exact absurd hx h
  show [dotB, dotB] ++ joinRest (List.replicate k [dotB, dotB] ++ names) = _
  rw [hx]
  rfl

theorem count_zero_of_no_prefix (l : List Nat)
    (h : ¬ ([dotB, dotB, slashB].isPrefixOf l = true)) :
    count_leading_dotdot l = 0 := by
  rcases l with _ | ⟨a, _ | ⟨b, _ | ⟨c, rest⟩⟩⟩
  · rfl
  · rfl
  · rfl
  · show (if a = dotB ∧ b = dotB ∧ c = slashB then
        count_leading_dotdot rest + 1 else 0) = 0
    rw [if_neg]
    rintro ⟨ha, hb, hc⟩
    subst ha
    subst hb
    subst hc
    exact h (by
      rw [List.isPrefixOf_iff_prefix]
      exact ⟨rest, rfl⟩)

theorem names_no_ddslash_prefix (names : List (List Nat))
    (hwf : ∀ c ∈ names, wfName c) :
    ¬ ([dotB, dotB, slashB].isPrefixOf (joinComps names) = true) := by
  rw [List.isPrefixOf_iff_prefix]
  rintro ⟨t, ht⟩
  rcases hne : names with _ | ⟨nm, r⟩
  · rw [hne] at ht
    simp [joinComps] at ht
  obtain ⟨h1, h2, h3, h4, h5⟩ := hwf nm (by rw [hne]; exact List.mem_cons_self nm r)
  rw [hne] at ht
  rcases hnm : nm with _ | ⟨x, _ | ⟨y, _ | ⟨z, t3⟩⟩⟩
  · exact absurd hnm h1
  · -- nm = [x]: second byte of the join is a separator or nothing
    rcases r with _ | ⟨c2, r2⟩
    · rw [hnm] at ht
      have := congrArg List.length ht
      simp [joinComps, joinRest] at this
    · have hj : joinComps ([x] :: c2 :: r2)
          = x :: slashB :: (c2 ++ joinRest r2) := rfl
      rw [hnm, hj] at ht
      simp only [List.cons_append, List.nil_append, List.cons.injEq] at ht
      have := ht.2.1
      simp [dotB, slashB] at this
  · -- nm = [x, y]: third byte is a separator or nothing
    rcases r with _ | ⟨c2, r2⟩
    · rw [hnm] at ht
      have := congrArg List.length ht
      simp [joinComps, joinRest] at this
    · have hj : joinComps ([x, y] :: c2 :: r2)
          = x :: y :: slashB :: (c2 ++ joinRest r2) := rfl
      rw [hnm, hj] at ht
      simp only [List.cons_append, List.nil_append, List.cons.injEq] at ht
      have hx2 : x = dotB := ht.1.symm
      have hy2 : y = dotB := ht.2.1.symm
      exact h5 (by rw [hnm, hx2, hy2])
  · -- |nm| ≥ 3: the third byte lies inside nm, hence is not a slash
    have hj : joinComps ((x :: y :: z :: t3) :: r)
        = x :: y :: z :: (t3 ++ joinRest r) := rfl
    rw [hnm, hj] at ht
    simp only [List.cons_append, List.nil_append, List.cons.injEq] at ht
    exact h2 (by rw [hnm, ← ht.2.2.1]; simp)

theorem count_dd (k : Nat) (names : List (List Nat))
    (hwf : ∀ c ∈ names, wfName c) (hne : ¬ names = []) :
    count_leading_dotdot
      (joinComps (List.replicate k [dotB, dotB] ++ names)) = k := by
  induction k with
  | zero =>
    show count_leading_dotdot (joinComps names) = 0
    exact count_zero_of_no_prefix _ ( names_no_ddslash_prefix names hwf)
  | succ k ih =>
    rw [join_dd_succ k names (by simp [hne])]
    show (if dotB = dotB ∧ dotB = dotB ∧ slashB = slashB then
        count_leading_dotdot
          (joinComps (List.replicate k [dotB, dotB] ++ names)) + 1
      else 0) = k + 1
    rw [if_pos ⟨rfl, rfl, rfl⟩, ih]

theorem count_dd_nil (k : Nat) (hk : 1 ≤ k) :
    count_leading_dotdot (joinComps (List.replicate k [dotB, dotB]))
      = k - 1 := by
  induction k with
  | zero => omega
  | succ k ih =>
    rcases Nat.eq_or_lt_of_le hk with h1 | h1
    · have hk0 : k = 0 := by omega
      subst hk0
      rfl
    · have hk1 : 1 ≤ k := by omega
      rw [show (List.replicate (k + 1) [dotB, dotB] : List (List Nat))
          = List.replicate (k + 1) [dotB, dotB] ++ [] by simp,
        join_dd_succ k [] (by
          intro hx
          have := congrArg List.length hx
          simp [List.length_replicate] at this
          omega)]
      show (if dotB = dotB ∧ dotB = dotB ∧ slashB = slashB then
          count_leading_dotdot
            (joinComps (List.replicate k [dotB, dotB] ++ [])) + 1
        else 0) = k + 1 - 1
      rw [if_pos ⟨rfl, rfl, rfl⟩]
      rw [show (List.replicate k [dotB, dotB] ++ [] : List (List Nat))
          = List.replicate k [dotB, dotB] by simp]
      rw [ih hk1]
      omega

theorem drop_dd (k : Nat) (names : List (List Nat)) (hne : ¬ names = []) :
    (joinComps (List.replicate k [dotB, dotB] ++ names)).drop (k * 3)
      = joinComps names := by
  induction k with
  | zero => rfl
  | succ k ih =>
    rw [join_dd_succ k names (by simp [hne])]
    show (dotB :: dotB :: slashB ::
        joinComps (List.replicate k [dotB, dotB] ++ names)).drop
        ((k + 1) * 3) = joinComps names
    rw [show (k + 1) * 3 = k * 3 + 1 + 1 + 1 by omega]
    rw [List.drop_succ_cons, List.drop_succ_cons, List.drop_succ_cons]
    exact ih

theorem drop_dd_sep (k : Nat) (names : List (List Nat)) (hk : 1 ≤ k)
    (hne : ¬ names = []) :
    (joinComps (List.replicate k [dotB, dotB] ++ names)).drop (k * 3 - 1)
      = slashB :: joinComps names := by
  induction k with
  | zero => omega
  | succ k ih =>
    rw [join_dd_succ k names (by simp [hne])]
    rcases Nat.eq_zero_or_pos k with h0 | h0
    · subst h0
      show (dotB :: dotB :: slashB :: joinComps ([] ++ names)).drop (1 * 3 - 1)
        = slashB :: joinComps names
      rw [show 1 * 3 - 1 = 2 by omega]
      rfl
    · show (dotB :: dotB :: slashB ::
          joinComps (List.replicate k [dotB, dotB] ++ names)).drop
          ((k + 1) * 3 - 1) = slashB :: joinComps names
      rw [show (k + 1) * 3 - 1 = (k * 3 - 1) + 1 + 1 + 1 by omega]
      rw [List.drop_succ_cons, List.drop_succ_cons, List.drop_succ_cons]
      exact ih h0

theorem dd_nil_drop (k : Nat) (hk : 1 ≤ k) :
    (joinComps (List.replicate k [dotB, dotB])).drop ((k - 1) * 3)
      = [dotB, dotB] := by
  induction k with
  | zero => omega
  | succ k ih =>
    rcases Nat.eq_zero_or_pos k with h0 | h0
    · subst h0
      rfl
    · rw [show (List.replicate (k + 1) [dotB, dotB] : List (List Nat))
          = List.replicate (k + 1) [dotB, dotB] ++ [] by simp,
        join_dd_succ k [] (by
          intro hx
          have := congrArg List.length hx
          simp [List.length_replicate] at this
          omega)]
      rw [show (List.replicate k [dotB, dotB] ++ [] : List (List Nat))
          = List.replicate k [dotB, dotB] by simp]
      show (dotB :: dotB :: slashB ::
          joinComps (List.replicate k [dotB, dotB])).drop
          ((k + 1 - 1) * 3) = [dotB, dotB]
      rw [show (k + 1 - 1) * 3 = ((k - 1) * 3) + 1 + 1 + 1 by omega]
      rw [List.drop_succ_cons, List.drop_succ_cons, List.drop_succ_cons]
      exact ih h0

theorem prefix_dd (k : Nat) (names : List (List Nat)) (hk : 1 ≤ k)
    (hx : 2 ≤ k ∨ ¬ names = []) :
    [dotB, dotB, slashB].isPrefixOf
      (joinComps (List.replicate k [dotB, dotB] ++ names)) = true := by
  obtain ⟨k1, rfl⟩ : ∃ k1, k = k1 + 1 := ⟨k - 1, by omega⟩
  rw [join_dd_succ k1 names (by
    intro hz
    have := congrArg List.length hz
    simp [List.length_replicate] at this
    rcases hx with hx | hx
    · omega
    · exact hx this.2)]
  rw [List.isPrefixOf_iff_prefix]
  exact ⟨_, rfl⟩

theorem join_names_ne_dd (names : List (List Nat))
    (hwf : ∀ c ∈ names, wfName c) (hne : ¬ names = []) :
    ¬ joinComps names = [dotB, dotB] := by
  rcases hns : names with _ | ⟨nm, r⟩
  · exact absurd hns hne
  obtain ⟨h1, h2, h3, h4, h5⟩ := hwf nm (by rw [hns]; exact List.mem_cons_self nm r)
  rcases r with _ | ⟨c2, r2⟩
  · intro hx
    refine h5 ?_
    have : joinComps [nm] = nm := by simp [joinComps, joinRest]
    rw [this] at hx
    exact hx
  · intro hx
    have hsl : slashB ∈ joinComps (nm :: c2 :: r2) := by
      show slashB ∈ nm ++ slashB :: (c2 ++ joinRest r2)
      simp
    rw [hx] at hsl
    simp [dotB, slashB] at hsl

end RealpathExt

namespace RealpathExt

/-- Iterated lexical-parent step, as performed by `parentIter`. -/
def parentN : Nat → List Nat → List Nat
  | 0, d => d
  | n + 1, d => parentN n (makeParentPathSpec d)

/-- Drop the last `n` components. -/
def dropLastN : Nat → List (List Nat) → List (List Nat)
  | 0, l => l
  | n + 1, l => dropLastN n l.dropLast

theorem wf_dropLast (l : List (List Nat)) (h : ∀ c ∈ l, wfName c) :
    ∀ c ∈ l.dropLast, wfName c :=
  fun c hc => h c ((List.dropLast_sublist l).subset hc)

theorem wf_dropLastN : ∀ (n : Nat) (l : List (List Nat)),
    (∀ c ∈ l, wfName c) → ∀ c ∈ dropLastN n l, wfName c := by
  intro n
  induction n with
  | zero => intro l h; exact h
  | succ n ih => intro l h; exact ih l.dropLast (wf_dropLast l h)

theorem allFalseR_dropLastN (fs : Fs) (flags : Flags) :
    ∀ (n : Nat) (d : List Nat) (l : List (List Nat)),
      AllFalseR fs flags d l → AllFalseR fs flags d (dropLastN n l) := by
  intro n
  induction n with
  | zero => intro d l h; exact h
  | succ n ih => intro d l h; exact ih d l.dropLast (allFalseR_dropLast fs flags l d h)

theorem parentN_rooted (root2 : List Nat)
    (hr : root2 = [slashB] ∨ root2 = [slashB, slashB]) :
    ∀ (n : Nat) (L : List (List Nat)), (∀ c ∈ L, wfName c) →
      parentN n (root2 ++ joinComps L) = root2 ++ joinComps (dropLastN n L) := by
  intro n
  induction n with
  | zero => intro L _; rfl
  | succ n ih =>
    intro L hL
    show parentN n (makeParentPathSpec (root2 ++ joinComps L)) = _
    rw [mppSpec_rooted root2 L hr hL, ih L.dropLast (wf_dropLast L hL)]
    rfl

theorem parentIter_ok : ∀ (n : Nat) (w w2 : SliceVec), w.Inv →
    parentIter n w = .ok w2 → w2.data = parentN n w.data ∧ w2.Inv := by
  intro n
  induction n with
  | zero =>
    intro w w2 hI h
    rw [show parentIter 0 w = .ok w from rfl] at h
    simp only [Except.ok.injEq] at h
    subst h
    exact ⟨rfl, hI⟩
  | succ n ih =>
    intro w w2 hI h
    rw [show parentIter (n + 1) w
        = (match w.make_parent_path with
           | .error e => .error e
           | .ok v => parentIter n v) from rfl] at h
    rcases hmp : w.make_parent_path with e | v <;> rw [hmp] at h <;>
      dsimp only at h
    · exact absurd h (by simp)
    · have hspec := make_parent_path_eq_spec w hI
      rw [hmp] at hspec
      by_cases hfit : (makeParentPathSpec w.data).length ≤ w.capacity
      · rw [if_pos hfit] at hspec
        simp only [Except.map, Except.ok.injEq] at hspec
        have hvI : v.Inv := by
          have h2 := make_parent_invOk w hI
          rw [hmp] at h2
          exact h2
        obtain ⟨hd, hI2⟩ := ih v w2 hvI h
        refine ⟨?_, hI2⟩
        rw [hd, hspec]
        rfl
      · rw [if_neg hfit] at hspec
        exact absurd hspec (by simp [Except.map])

theorem findIdx_nul_append : ∀ cwd : List Nat, ¬ nulB ∈ cwd →
    (cwd ++ [nulB]).findIdx (fun x => x = nulB) = cwd.length := by
  intro cwd
  induction cwd with
  | nil => intro _; simp [List.findIdx_cons]
  | cons a r ih =>
    intro h
    have ha : ¬ a = nulB := fun hx => h (by simp [hx])
    show ((a :: (r ++ [nulB])).findIdx (fun x => x = nulB)) = r.length + 1
    rw [List.findIdx_cons]
    simp [ha, ih (fun hx => h (List.mem_cons_of_mem _ hx))]

theorem getcwdInto_ok_data (fs : Fs) (v w : SliceVec)
    (hnul : ¬ nulB ∈ fs.cwd) (h : getcwdInto fs v = .ok w) :
    w.data = fs.cwd ∧ w.Inv ∧ w.capacity = v.capacity := by
  unfold getcwdInto at h
  by_cases hcap : v.capacity < fs.cwd.length + 1
  · rw [if_pos hcap] at h
    exact absurd h (by simp)
  · rw [if_neg hcap] at h
    dsimp only at h
    by_cases hh : ¬ (listWrite v.buf 0 (fs.cwd ++ [nulB])).head? = some slashB
    · rw [if_pos hh] at h
      exact absurd h (by simp)
    · rw [if_neg hh] at h
      simp only [Except.ok.injEq] at h
      have hcap2 : fs.cwd.length + 1 ≤ v.buf.length := by
        have : v.capacity = v.buf.length := rfl
        omega
      obtain ⟨hlen, hidx, htake, hlt⟩ := getcwd_ok_parts v.buf fs hcap2
      have hfi := findIdx_nul_append fs.cwd hnul
      subst h
      refine ⟨?_, ?_, ?_⟩
      · show (listWrite v.buf 0 (fs.cwd ++ [nulB])).take
            ((listWrite v.buf 0 (fs.cwd ++ [nulB])).findIdx
              (fun x => x = nulB)) = fs.cwd
        rw [hidx, htake, hfi, List.take_left' rfl]
      · show (listWrite v.buf 0 (fs.cwd ++ [nulB])).findIdx
            (fun x => x = nulB)
          ≤ (listWrite v.buf 0 (fs.cwd ++ [nulB])).length
        rw [hidx, hfi, hlen]
        omega
      · show (listWrite v.buf 0 (fs.cwd ++ [nulB])).length = v.capacity
        rw [hlen]
        rfl

theorem insert0_ok (v w : SliceVec) (s : List Nat) (hI : v.Inv)
    (h : v.insert_from_slice 0 s = .ok w) :
    w.data = s ++ v.data ∧ w.Inv ∧ w.capacity = v.capacity := by
  unfold SliceVec.insert_from_slice at h
  by_cases hs : s.isEmpty
  · rw [if_pos hs] at h
    simp only [Except.ok.injEq] at h
    subst h
    have hse : s = [] := by simpa [List.isEmpty_iff] using hs
    subst hse
    exact ⟨by simp, hI, rfl⟩
  · rw [if_neg hs] at h
    by_cases hc : v.capacity < v.len + s.length
    · rw [if_pos hc] at h
      exact absurd h (by simp)
    · rw [if_neg hc] at h
      dsimp only at h
      simp only [Except.ok.injEq] at h
      subst h
      refine ⟨insert0_data_eq v s hI (by omega), ?_,
        insert0_cap_eq v s hI (by omega)⟩
      show SliceVec.Inv _
      unfold SliceVec.Inv
      rw [insert0_cap_eq v s hI (by omega)]
      show v.len + s.length ≤ v.capacity
      omega

theorem mcid_ok_inv (fs : Fs) (flags : Flags) (path : List Nat)
    (buf w : SliceVec) (hI : buf.Inv)
    (h : maybe_check_isdir fs flags path buf = .ok w) : w.Inv := by
  unfold maybe_check_isdir at h
  split at h
  · rcases hpn : buf.push nulB with e | b2 <;> rw [hpn] at h
    · exact absurd h (by simp)
    dsimp only at h
    have hI2 : b2.Inv := by
      have h2 := push_invOk buf nulB
      rw [hpn] at h2
      exact h2
    rcases hck : check_isdir fs (cstr b2.data) with e | u <;> rw [hck] at h <;>
      dsimp only at h
    · split at h
      · simp only [Except.ok.injEq] at h
        rw [← h]
        exact pop_inv b2 hI2
      · exact absurd h (by simp)
    · simp only [Except.ok.injEq] at h
      rw [← h]
      exact pop_inv b2 hI2
  · simp only [Except.ok.injEq] at h
    rw [← h]
    exact hI

end RealpathExt

namespace RealpathExt

theorem mppArm_take (d : List Nat) (i : Nat) (h1 : 1 ≤ i)
    (hhead : ¬ d.head? = some slashB) : mppArm d i = d.take i := by
  unfold mppArm
  rcases i with _ | ⟨_ | m⟩
  · omega
  · rw [if_neg (by omega), if_pos rfl, if_neg hhead]
  · rw [if_neg (by omega), if_neg (by omega)]

theorem join_cons_head (l : List (List Nat))
    (hl : ∀ c ∈ l, ¬ c = [] ∧ ¬ slashB ∈ c) (hne : ¬ l = []) (x : List Nat) :
    ¬ ((joinComps l ++ x).head? = some slashB) := by
  have hjne : ¬ joinComps l = [] := joinComps_ne_nil l hne (fun c hc => (hl c hc).1)
  obtain ⟨y, t, hyt⟩ := List.exists_cons_of_ne_nil hjne
  have hy : ¬ y = slashB := by
    intro hh
    exact join_no_slash_prefix l hl (by
      rw [List.isPrefixOf_iff_prefix, hyt, hh]
      exact ⟨t, rfl⟩)
  rw [hyt]
  simp only [List.cons_append, List.head?_cons, Option.some.injEq]
  exact hy

theorem mppSpec_rootless (k : Nat) (names : List (List Nat))
    (hwf : ∀ c ∈ names, wfName c) :
    makeParentPathSpec (joinComps (List.replicate k [dotB, dotB] ++ names))
      = if names = [] then joinComps (List.replicate (k + 1) [dotB, dotB])
        else joinComps (List.replicate k [dotB, dotB] ++ names.dropLast) := by
  rcases List.eq_nil_or_concat names with hns | ⟨ns, nm, hns⟩
  · subst hns
    rw [if_pos rfl]
    rcases k with _ | ⟨_ | k2⟩
    · decide
    · decide
    · -- k ≥ 2: the held path is a nonempty dot-dot run ending in "/.."
      have hrep : ¬ (List.replicate (k2 + 2) [dotB, dotB] : List (List Nat))
          = [] := by
        intro hx
        have := congrArg List.length hx
        simp [List.length_replicate] at this
      have hddwf : ∀ c ∈ (List.replicate (k2 + 2) [dotB, dotB] :
          List (List Nat)), ¬ c = [] := by
        intro c hc
        rw [List.eq_of_mem_replicate hc]
        simp
      have hne : ¬ joinComps (List.replicate (k2 + 2) [dotB, dotB]
          ++ ([] : List (List Nat))) = [] := by
        rw [List.append_nil]
        exact joinComps_ne_nil _ hrep hddwf
      have hsplit : (List.replicate (k2 + 2) [dotB, dotB] : List (List Nat))
          = List.replicate (k2 + 1) [dotB, dotB] ++ [[dotB, dotB]] := by
        rw [← List.replicate_succ']
      have hrep1 : ¬ (List.replicate (k2 + 1) [dotB, dotB] : List (List Nat))
          = [] := by
        intro hx
        have := congrArg List.length hx
        simp [List.length_replicate] at this
      have hjoin2 : joinComps (List.replicate (k2 + 2) [dotB, dotB] :
            List (List Nat))
          = joinComps (List.replicate (k2 + 1) [dotB, dotB])
            ++ slashB :: [dotB, dotB] := by
        rw [hsplit, joinComps_append_single, if_neg hrep1]
      have hsuf : [slashB, dotB, dotB].isSuffixOf
          (joinComps (List.replicate (k2 + 2) [dotB, dotB]
            ++ ([] : List (List Nat)))) = true := by
        rw [List.append_nil, hjoin2, List.isSuffixOf_iff_suffix]
        exact ⟨joinComps (List.replicate (k2 + 1) [dotB, dotB]), rfl⟩
      unfold makeParentPathSpec
      rw [if_neg hne, if_pos (Or.inr hsuf)]
      rw [List.append_nil, hjoin2]
      rw [show (List.replicate (k2 + 2 + 1) [dotB, dotB] : List (List Nat))
          = List.replicate (k2 + 2) [dotB, dotB] ++ [[dotB, dotB]] from by
        rw [← List.replicate_succ']]
      rw [joinComps_append_single, if_neg hrep, hjoin2]
  · rw [List.concat_eq_append] at hns
    subst hns
    rw [if_neg (by simp), List.dropLast_concat]
    obtain ⟨hnm1, hnm2, hnm0, hnm3, hnm4⟩ := hwf nm (by simp)
    have hLwf : ∀ c ∈ (List.replicate k [dotB, dotB] ++ ns :
        List (List Nat)), ¬ c = [] ∧ ¬ slashB ∈ c := by
      intro c hc
      rcases List.mem_append.mp hc with hc | hc
      · rw [List.eq_of_mem_replicate hc]
        constructor
        · simp
        · simp [dotB, slashB]
      · have := hwf c (by simp [hc])
        exact ⟨this.1, this.2.1⟩
    rw [← List.append_assoc]
    by_cases hL : (List.replicate k [dotB, dotB] ++ ns : List (List Nat)) = []
    · -- k = 0 and ns = []: the path is the bare final name
      rw [hL]
      have hjnm : joinComps ([] ++ [nm]) = nm := by
        simp [joinComps, joinRest]
      rw [hjnm]
      have hcond := mpp_cond_false [] nm hnm1 hnm2 hnm3 hnm4
      rw [List.nil_append] at hcond
      have hrp : SliceVec.rposition nm slashB = none :=
        rposition_none slashB nm hnm2
      unfold makeParentPathSpec
      rw [if_neg hnm1, if_neg hcond, hrp]
      rfl
    · -- the prefix L is nonempty: cut at the final separator
      rw [joinComps_append_single, if_neg hL]
      have hjL : ¬ joinComps (List.replicate k [dotB, dotB] ++ ns) = [] :=
        joinComps_ne_nil _ hL (fun c hc => (hLwf c hc).1)
      rw [show joinComps (List.replicate k [dotB, dotB] ++ ns) ++ slashB :: nm
          = ((joinComps (List.replicate k [dotB, dotB] ++ ns) ++ [slashB])
            ++ nm) from by simp [List.append_assoc]]
      have hrp : SliceVec.rposition
          ((joinComps (List.replicate k [dotB, dotB] ++ ns) ++ [slashB]) ++ nm)
          slashB
          = some (joinComps (List.replicate k [dotB, dotB] ++ ns)).length := by
        rw [rposition_append_noslash slashB nm hnm2, rposition_snoc_self]
      have hcond := mpp_cond_false
        (joinComps (List.replicate k [dotB, dotB] ++ ns) ++ [slashB]) nm
        hnm1 hnm2 hnm3 hnm4
      rw [mpp_of_rposition _ _ (by simp) hcond hrp]
      have hlen1 : 1 ≤ (joinComps (List.replicate k [dotB, dotB] ++ ns)).length :=
        List.length_pos.mpr hjL
      rw [mppArm_take _ _ hlen1 (by
        rw [List.append_assoc]
        exact join_cons_head _ hLwf hL _)]
      rw [List.append_assoc, List.take_left' rfl]

end RealpathExt

namespace RealpathExt

theorem nameOK_congr (fs : Fs) (flags : Flags) (r r2 : List Nat) (b : Bool)
    (h : fs.readlink r = fs.readlink r2) :
    NameOK fs flags r b → NameOK fs flags r2 b := by
  intro hn
  unfold NameOK at hn ⊢
  rw [← h]
  exact hn

theorem restOK_align (fs : Fs) (flags : Flags) (P : List Nat → Prop) :
    ∀ (names : List (List Nat)) (d e : List Nat),
      (∀ c ∈ names, P c) →
      (∀ pr : List (List Nat), ¬ pr = [] → (∀ c ∈ pr, P c) →
        fs.readlink (restFold d pr) = fs.readlink (restFold e pr)) →
      RestOK fs flags d names → RestOK fs flags e names := by
  intro names
  induction names with
  | nil => intro d e _ _ _; trivial
  | cons nm rest ih =>
    intro d e hP hag h
    obtain ⟨hn, hr⟩ := h
    refine ⟨?_, ?_⟩
    · exact nameOK_congr fs flags _ _ _
        (hag [nm] (by simp) (by
          intro c hc
          rw [List.mem_singleton] at hc
          rw [hc]
          exact hP nm (List.mem_cons_self nm rest))) hn
    · exact ih (appendC d nm) (appendC e nm)
        (fun c hc => hP c (List.mem_cons_of_mem _ hc))
        (fun pr hne hprP => hag (nm :: pr) (by simp) (by
          intro c hc
          rcases List.mem_cons.mp hc with hc | hc
          · rw [hc]
            exact hP nm (List.mem_cons_self nm rest)
          · exact hprP c hc))
        hr

theorem restOK_append (fs : Fs) (flags : Flags) :
    ∀ (A B : List (List Nat)) (d : List Nat),
      AllFalseR fs flags d A → RestOK fs flags (restFold d A) B →
      RestOK fs flags d (A ++ B) := by
  intro A
  induction A with
  | nil => intro B d _ h2; exact h2
  | cons a A2 ih =>
    intro B d h1 h2
    obtain ⟨hn, hA⟩ := h1
    exact ⟨nameOK_mono fs flags _ hn _, ih B (appendC d a) hA h2⟩

/-- Data-level mirror of `realpath_raw_inner`'s post-processing of a
buffer that holds no leading root: prefix the current directory and
collapse the leading `..` components against it, as the code does through
`getcwd_into` / `count_leading_dotdot` / `make_parent_path`. -/
def absolutizeFromCwd (cwd s : List Nat) : List Nat :=
  if s = [] then cwd
  else if s = [dotB, dotB] then makeParentPathSpec cwd
  else if [dotB, dotB, slashB].isPrefixOf s then
    if s.drop (count_leading_dotdot s * 3) = [dotB, dotB] then
      parentN (count_leading_dotdot s + 1) cwd
    else
      parentN (count_leading_dotdot s) cwd
        ++ s.drop (count_leading_dotdot s * 3 - 1)
  else cwd ++ slashB :: s

/-- The current directory reported by the oracle is itself a settled
single-slash-rooted path under the flags in force. -/
def CwdSettled (fs : Fs) (flags : Flags) : Prop :=
  ∃ cnames, (∀ c ∈ cnames, wfName c) ∧
    fs.cwd = [slashB] ++ joinComps cnames ∧
    AllFalseR fs flags [slashB] cnames

theorem cwd_nonul (fs : Fs) (flags : Flags) (h : CwdSettled fs flags) :
    ¬ nulB ∈ fs.cwd := by
  obtain ⟨cnames, hwf, hcwd, _⟩ := h
  rw [hcwd]
  intro hm
  rcases List.mem_append.mp hm with hm | hm
  · rw [List.mem_singleton] at hm
    exact absurd hm (by simp [nulB, slashB])
  · exact joinComps_nonul cnames (fun c hc => (hwf c hc).2.2.1) hm

end RealpathExt

namespace RealpathExt

theorem abs_nil (cwd : List Nat) : absolutizeFromCwd cwd [] = cwd := by
  unfold absolutizeFromCwd
  rw [if_pos rfl]

theorem abs_dd_one (cwd : List Nat) :
    absolutizeFromCwd cwd (joinComps (List.replicate 1 [dotB, dotB]))
      = parentN 1 cwd := by
  rw [show joinComps (List.replicate 1 [dotB, dotB]) = [dotB, dotB] from rfl]
  unfold absolutizeFromCwd
  rw [if_neg (by decide), if_pos rfl]
  rfl

theorem abs_names (cwd : List Nat) (names : List (List Nat))
    (hwf : ∀ c ∈ names, wfName c) (hne : ¬ names = []) :
    absolutizeFromCwd cwd (joinComps names)
      = cwd ++ slashB :: joinComps names := by
  unfold absolutizeFromCwd
  rw [if_neg (joinComps_ne_nil names hne (fun c hc => (hwf c hc).1)),
    if_neg (join_names_ne_dd names hwf hne),
    if_neg ( names_no_ddslash_prefix names hwf)]

theorem abs_dd_names (cwd : List Nat) (k : Nat) (names : List (List Nat))
    (hk : 1 ≤ k) (hne : ¬ names = []) (hwf : ∀ c ∈ names, wfName c) :
    absolutizeFromCwd cwd (joinComps (List.replicate k [dotB, dotB] ++ names))
      = parentN k cwd ++ slashB :: joinComps names := by
  have hcount : count_leading_dotdot
      (joinComps (List.replicate k [dotB, dotB] ++ names)) = k :=
    count_dd k names hwf hne
  have hcomps : ∀ c ∈ (List.replicate k [dotB, dotB] ++ names :
      List (List Nat)), ¬ c = [] := by
    intro c hc
    rcases List.mem_append.mp hc with hc | hc
    · rw [List.eq_of_mem_replicate hc]
      simp
    · exact (hwf c hc).1
  have hnedd : ¬ joinComps (List.replicate k [dotB, dotB] ++ names)
      = [dotB, dotB] := by
    obtain ⟨k1, rfl⟩ : ∃ k1, k = k1 + 1 := ⟨k - 1, by omega⟩
    rw [join_dd_succ k1 names (by simp [hne])]
    intro hx
    simp at hx
  unfold absolutizeFromCwd
  rw [if_neg (joinComps_ne_nil _ (by simp [hne]) hcomps),
    if_neg hnedd,
    if_pos (prefix_dd k names hk (Or.inr hne)),
    hcount,
    if_neg (by
      rw [drop_dd k names hne]
      exact join_names_ne_dd names hwf hne),
    drop_dd_sep k names hk hne]

theorem abs_dd_nil (cwd : List Nat) (k : Nat) (hk : 2 ≤ k) :
    absolutizeFromCwd cwd (joinComps (List.replicate k [dotB, dotB]))
      = parentN k cwd := by
  have hcount : count_leading_dotdot
      (joinComps (List.replicate k [dotB, dotB])) = k - 1 :=
    count_dd_nil k (by omega)
  have hcomps : ∀ c ∈ (List.replicate k [dotB, dotB] : List (List Nat)),
      ¬ c = [] := by
    intro c hc
    rw [List.eq_of_mem_replicate hc]
    simp
  have hrepne : ¬ (List.replicate k [dotB, dotB] : List (List Nat)) = [] := by
    intro hx
    have := congrArg List.length hx
    simp [List.length_replicate] at this
    omega
  have hpre : [dotB, dotB, slashB].isPrefixOf
      (joinComps (List.replicate k [dotB, dotB])) = true := by
    have := prefix_dd k [] (by omega) (Or.inl hk)
    rwa [List.append_nil] at this
  have hnedd : ¬ joinComps (List.replicate k [dotB, dotB]) = [dotB, dotB] := by
    obtain ⟨k1, rfl⟩ : ∃ k1, k = k1 + 2 := ⟨k - 2, by omega⟩
    rw [show (List.replicate (k1 + 2) [dotB, dotB] : List (List Nat))
        = List.replicate (k1 + 2) [dotB, dotB] ++ [] from by simp,
      join_dd_succ (k1 + 1) [] (by
        intro hx
        have := congrArg List.length hx
        simp [List.length_replicate] at this)]
    intro hx
    simp at hx
  unfold absolutizeFromCwd
  rw [if_neg (joinComps_ne_nil _ hrepne hcomps),
    if_neg hnedd,
    if_pos hpre,
    hcount,
    if_pos (dd_nil_drop k (by omega)),
    show k - 1 + 1 = k from by omega]

end RealpathExt

namespace RealpathExt

theorem dd_flat (k : Nat) :
    ∀ c ∈ (List.replicate k [dotB, dotB] : List (List Nat)),
      ¬ c = [] ∧ ¬ slashB ∈ c := by
  intro c hc
  rw [List.eq_of_mem_replicate hc]
  exact ⟨by simp, by simp [dotB, slashB]⟩

/-- Invariant of the drain-loop output buffer for an arbitrary input: the
buffer holds either a rooted or a leading-dot-dot base extended by settled
well-formed names. -/
def BufInvG (fs : Fs) (flags : Flags) (buf : SliceVec) : Prop :=
  ∃ B done, ((B = [slashB] ∨ B = [slashB, slashB]) ∨
      ∃ k, B = joinComps (List.replicate k [dotB, dotB])) ∧
    (∀ c ∈ done, wfName c) ∧ buf.data = restFold B done ∧
    AllFalseR fs flags B done

/-- Decomposition of the drain loop's final buffer for an arbitrary input:
a rooted or leading-dot-dot base extended by settled well-formed names. -/
def LoopOutForm (fs : Fs) (flags : Flags) (d : List Nat) : Prop :=
  ∃ B names, ((B = [slashB] ∨ B = [slashB, slashB]) ∨
      ∃ k, B = joinComps (List.replicate k [dotB, dotB])) ∧
    (∀ c ∈ names, wfName c) ∧ d = restFold B names ∧
    RestOK fs flags B names

theorem rpLoopF_run1G (fs : Fs) (flags : Flags) (out : SliceVec) (stout : Stack) :
    ∀ (fuel : Nat) (st : Stack) (it : List Nat) (buf : SliceVec) (links : Nat),
      ¬ nulB ∈ it → buf.Inv → BufInvG fs flags buf →
      rpLoopF fs flags fuel st it buf links = .ok (out, stout) →
      LoopOutForm fs flags out.data ∧ out.Inv := by
  intro fuel
  induction fuel with
  | zero =>
    intro st it buf links _ _ _ h
    exact absurd h (by simp [rpLoopF])
  | succ f ih =>
    intro st it buf links hitn hInv hBI h
    obtain ⟨B, done, hB, hdwf, hdata, hAF⟩ := hBI
    have hflat : ∀ x ∈ done, ¬ x = [] ∧ ¬ slashB ∈ x :=
      fun x hx => ⟨(hdwf x hx).1, (hdwf x hx).2.1⟩
    have hjoinchar : ((B = [slashB] ∨ B = [slashB, slashB]) ∧
          restFold B done = B ++ joinComps done) ∨
        (∃ k, B = joinComps (List.replicate k [dotB, dotB]) ∧
          restFold B done
            = joinComps (List.replicate k [dotB, dotB] ++ done)) := by
      rcases hB with hrB | ⟨k, hk⟩
      · exact Or.inl ⟨hrB, restFold_join B hrB done hflat⟩
      · refine Or.inr ⟨k, hk, ?_⟩
        rw [hk, restFold_join_base done _ (dd_flat k) hflat]
    have hdnul : ¬ nulB ∈ buf.data := by
      rw [hdata]
      rcases hjoinchar with ⟨hrB, he⟩ | ⟨k, hk, he⟩ <;> rw [he]
      · intro hm
        rcases List.mem_append.mp hm with hm | hm
        · rcases hrB with hh | hh <;> rw [hh] at hm <;>
            simp [nulB, slashB] at hm
        · exact joinComps_nonul done (fun x hx => (hdwf x hx).2.2.1) hm
      · refine joinComps_nonul _ ?_
        intro x hx
        rcases List.mem_append.mp hx with hx | hx
        · rw [List.eq_of_mem_replicate hx]
          simp [nulB, dotB]
        · exact (hdwf x hx).2.2.1
    have hstep : ∀ (c : List Nat) (st2 : Stack) (it2 : List Nat) (links2 : Nat),
        compOK c → ¬ nulB ∈ c → ¬ nulB ∈ it2 →
        rpStep fs flags f st2 it2 buf links2 c = .ok (out, stout) →
        LoopOutForm fs flags out.data ∧ out.Inv := by
      intro c st2 it2 links2 hcOK hcnul hit2 h
      unfold rpStep at h
      by_cases hcr : c = [slashB] ∨ c = [slashB, slashB]
      · rw [if_pos hcr] at h
        rcases hrep : buf.replace c with e | buf2 <;> rw [hrep] at h
        · exact absurd h (by simp)
        by_cases hfit : c.length ≤ buf.capacity
        · rw [SliceVec.replace_ok buf c hfit] at hrep
          simp only [Except.ok.injEq] at hrep
          subst hrep
          dsimp only at h
          have hd2 : (SliceVec.mk (listWrite buf.buf 0 c) c.length).data = c :=
            SliceVec.replace_ok_data buf c hfit
          have hI2 : (SliceVec.mk (listWrite buf.buf 0 c) c.length).Inv := by
            have h2 := replace_invOk buf c
            rw [SliceVec.replace_ok buf c hfit] at h2
            exact h2
          exact ih st2 it2 _ links2 hit2 hI2
            ⟨c, [], Or.inl hcr, by simp, by rw [hd2]; try rfl, trivial⟩ h
        · rw [SliceVec.replace_err buf c (by omega)] at hrep
          exact absurd hrep (by simp)
      · rw [if_neg hcr] at h
        by_cases hdd : c = [dotB, dotB]
        · rw [if_pos hdd] at h
          rcases hmp : buf.make_parent_path with e | buf2 <;> rw [hmp] at h
          · exact absurd h (by simp)
          dsimp only at h
          have hspec := make_parent_path_eq_spec buf hInv
          rw [hmp] at hspec
          by_cases hcc : (makeParentPathSpec buf.data).length ≤ buf.capacity
          · rw [if_pos hcc] at hspec
            simp only [Except.map, Except.ok.injEq] at hspec
            have hI2 : buf2.Inv := by
              have h2 := make_parent_invOk buf hInv
              rw [hmp] at h2
              exact h2
            rcases hjoinchar with ⟨hrB, he⟩ | ⟨k, hk, he⟩
            · refine ih st2 it2 buf2 links2 hit2 hI2
                ⟨B, done.dropLast, Or.inl hrB,
                  fun x hx => hdwf x ((List.dropLast_sublist done).subset hx),
                  ?_, allFalseR_dropLast fs flags done B hAF⟩ h
              rw [hspec, hdata, he, mppSpec_rooted B done hrB hdwf,
                ← restFold_join B hrB done.dropLast
                  (fun x hx => hflat x ((List.dropLast_sublist done).subset hx))]
            · by_cases hde : done = []
              · subst hde
                refine ih st2 it2 buf2 links2 hit2 hI2
                  ⟨joinComps (List.replicate (k + 1) [dotB, dotB]), [],
                    Or.inr ⟨k + 1, rfl⟩, by simp, ?_, trivial⟩ h
                rw [hspec, hdata, he, mppSpec_rootless k [] (by simp),
                  if_pos rfl]
                rfl
              · refine ih st2 it2 buf2 links2 hit2 hI2
                  ⟨B, done.dropLast, hB,
                    fun x hx => hdwf x ((List.dropLast_sublist done).subset hx),
                    ?_, allFalseR_dropLast fs flags done B hAF⟩ h
                rw [hspec, hdata, he, mppSpec_rootless k done hdwf,
                  if_neg hde, hk,
                  restFold_join_base done.dropLast _ (dd_flat k)
                    (fun x hx => hflat x
                      ((List.dropLast_sublist done).subset hx))]
          · rw [if_neg hcc] at hspec
            exact absurd hspec (by simp [Except.map])
        · rw [if_neg hdd] at h
          rcases hcOK with hc1 | hc1 | hcbody
          · exact absurd (Or.inl hc1) hcr
          · exact absurd (Or.inr hc1) hcr
          obtain ⟨hc1, hc2, hc3⟩ := hcbody
          have hσnul : ¬ nulB ∈ appendC buf.data c :=
            appendC_nonul buf.data c hdnul hcnul
          have hdpre : ∃ Y, appendC buf.data c = buf.data ++ Y := by
            unfold appendC
            split
            · exact ⟨c, rfl⟩
            · exact ⟨slashB :: c, rfl⟩
          have hcwf : wfName c := ⟨hc1, hc2, hcnul, hc3, hdd⟩
          have hcont : ∀ bufa : SliceVec, bufa.Inv →
              bufa.data ++ c = appendC buf.data c → ¬ nulB ∈ bufa.data →
              rpNameCont fs flags f st2 it2 links2 buf.len c bufa
                = .ok (out, stout) →
              LoopOutForm fs flags out.data ∧ out.Inv := by
            intro bufa hIa ha hnula h
            unfold rpNameCont at h
            rcases hex : bufa.extend_from_slice c with e | bufb <;>
              rw [hex] at h
            · exact absurd h (by simp)
            by_cases hfb : bufa.len + c.length ≤ bufa.capacity
            · rw [SliceVec.extend_ok bufa c hfb] at hex
              simp only [Except.ok.injEq] at hex
              subst hex
              dsimp only at h
              have hdb : (SliceVec.mk (listWrite bufa.buf bufa.len c)
                  (bufa.len + c.length)).data = bufa.data ++ c :=
                SliceVec.extend_ok_data bufa c hIa hfb
              have hIb : (SliceVec.mk (listWrite bufa.buf bufa.len c)
                  (bufa.len + c.length)).Inv := by
                have h2 := extend_invOk bufa c
                rw [SliceVec.extend_ok bufa c hfb] at h2
                exact h2
              rcases hpn : (SliceVec.mk (listWrite bufa.buf bufa.len c)
                  (bufa.len + c.length)).push nulB with e | bufc <;>
                rw [hpn] at h
              · exact absurd h (by simp)
              by_cases hfc : (SliceVec.mk (listWrite bufa.buf bufa.len c)
                  (bufa.len + c.length)).len
                  < (SliceVec.mk (listWrite bufa.buf bufa.len c)
                    (bufa.len + c.length)).capacity
              · rw [SliceVec.push_ok _ nulB hfc] at hpn
                simp only [Except.ok.injEq] at hpn
                subst hpn
                dsimp only at h
                set bufc := (SliceVec.mk ((listWrite bufa.buf bufa.len c).set
                    (bufa.len + c.length) nulB) (bufa.len + c.length + 1))
                  with hbufc
                have hdc : bufc.data = (bufa.data ++ c) ++ [nulB] := by
                  rw [hbufc]
                  have h2 := SliceVec.push_ok_data
                    (SliceVec.mk (listWrite bufa.buf bufa.len c)
                      (bufa.len + c.length)) nulB hfc
                  rw [hdb] at h2
                  exact h2
                have hIc : bufc.Inv := by
                  have h2 := push_invOk (SliceVec.mk (listWrite bufa.buf
                    bufa.len c) (bufa.len + c.length)) nulB
                  rw [SliceVec.push_ok _ nulB hfc] at h2
                  exact h2
                have hdc2 : bufc.data = appendC buf.data c ++ [nulB] := by
                  rw [hdc, ha]
                have hcstr : cstr bufc.data = appendC buf.data c := by
                  rw [hdc2]
                  exact cstr_append_nul _ hσnul
                have hpopd : bufc.pop.data = appendC buf.data c := by
                  rw [SliceVec.pop_data bufc hIc, hdc2]
                  exact List.dropLast_concat
                have hBI2 : NameOK fs flags (appendC buf.data c) false →
                    BufInvG fs flags bufc.pop := by
                  intro hnok
                  refine ⟨B, done ++ [c], hB, ?_, ?_, ?_⟩
                  · intro x hx
                    rcases List.mem_append.mp hx with hx | hx
                    · exact hdwf x hx
                    · rw [List.mem_singleton.mp hx]
                      exact hcwf
                  · rw [hpopd, restFold_snoc B done c, ← hdata]
                  · refine allFalseR_snoc fs flags done B c hAF ?_
                    rw [← hdata]
                    exact hnok
                have hfin : NameOK fs flags (appendC buf.data c) false →
                    rpLoopF fs flags f st2 it2 bufc.pop links2
                      = .ok (out, stout) →
                    LoopOutForm fs flags out.data ∧ out.Inv :=
                  fun hnok hrec => ih st2 it2 bufc.pop links2 hit2
                    (pop_inv bufc hIc) (hBI2 hnok) hrec
                rcases hrl : fs.readlink (appendC buf.data c) with e | t
                · -- readlink reports error `e`
                  have hdisp : (if e = EINVAL then
                        rpLoopF fs flags f st2 it2 bufc.pop links2
                      else if (e = ENOENT ∨ e = EACCES ∨ e = ENOTDIR) ∧
                          flags.allowMissing = true then
                        rpLoopF fs flags f st2 it2 bufc.pop links2
                      else if e = ENOENT ∧ flags.allowLastMissing = true ∧
                          st2.isEmpty = true ∧ iterIsEmpty it2 = true then
                        rpLoopF fs flags f st2 it2 bufc.pop links2
                      else .error e) = .ok (out, stout) →
                      LoopOutForm fs flags out.data ∧ out.Inv := by
                    intro hh
                    by_cases he1 : e = EINVAL
                    · rw [if_pos he1] at hh
                      refine hfin ?_ hh
                      unfold NameOK
                      rw [hrl]
                      exact Or.inl he1
                    rw [if_neg he1] at hh
                    by_cases he2 : (e = ENOENT ∨ e = EACCES ∨ e = ENOTDIR) ∧
                        flags.allowMissing = true
                    · rw [if_pos he2] at hh
                      refine hfin ?_ hh
                      unfold NameOK
                      rw [hrl]
                      exact Or.inr (Or.inl he2)
                    rw [if_neg he2] at hh
                    by_cases he3 : e = ENOENT ∧ flags.allowLastMissing = true ∧
                        st2.isEmpty = true ∧ iterIsEmpty it2 = true
                    · rw [if_pos he3] at hh
                      have hit2e : it2 = [] := by
                        have h3 := he3.2.2.2
                        simpa [iterIsEmpty, List.isEmpty_iff] using h3
                      rcases f with _ | f2
                      · exact absurd hh (by simp [rpLoopF])
                      rw [rpLoopF_exit fs flags f2 st2 it2 bufc.pop links2
                        (stack_isEmpty_content st2 he3.2.2.1)
                        (by rw [hit2e]; rfl)] at hh
                      simp only [Except.ok.injEq, Prod.mk.injEq] at hh
                      obtain ⟨h1, _⟩ := hh
                      rw [← h1]
                      refine ⟨⟨B, done ++ [c], hB, ?_, ?_, ?_⟩,
                        pop_inv bufc hIc⟩
                      · intro x hx
                        rcases List.mem_append.mp hx with hx | hx
                        · exact hdwf x hx
                        · rw [List.mem_singleton.mp hx]
                          exact hcwf
                      · rw [hpopd, restFold_snoc B done c, ← hdata]
                      · refine restOK_tailTrue fs flags done B c hAF ?_
                        rw [← hdata]
                        unfold NameOK
                        rw [hrl]
                        exact Or.inr (Or.inr ⟨he3.1, he3.2.1, rfl⟩)
                    · rw [if_neg he3] at hh
                      exact absurd hh (by simp)
                  by_cases hig : flags.ignoreSymlinks = true
                  · rw [if_pos hig,
                      show readlink_empty fs (cstr bufc.data) = .error e from by
                        simp [readlink_empty, hcstr, hrl]] at h
                    dsimp only at h
                    exact hdisp h
                  · rw [if_neg hig, hcstr, hrl] at h
                    unfold Stack.pushReadlinkRes at h
                    by_cases hi0 : st2.i = 0
                    · rw [if_pos hi0] at h
                      dsimp only at h
                      rw [if_neg (show ¬ (ENAMETOOLONG : Int) = EINVAL from
                            by decide),
                        if_neg (show ¬ (((ENAMETOOLONG : Int) = ENOENT ∨
                            (ENAMETOOLONG : Int) = EACCES ∨
                            (ENAMETOOLONG : Int) = ENOTDIR) ∧
                            flags.allowMissing = true) from by
                          rintro ⟨h3, _⟩
                          rcases h3 with h3 | h3 | h3 <;> revert h3 <;> decide),
                        if_neg (show ¬ ((ENAMETOOLONG : Int) = ENOENT ∧
                            flags.allowLastMissing = true ∧
                            st2.isEmpty = true ∧ iterIsEmpty it2 = true) from by
                          rintro ⟨h3, _⟩
                          revert h3
                          decide)] at h
                      exact absurd h (by simp)
                    · rw [if_neg hi0] at h
                      dsimp only at h
                      exact hdisp h
                · -- readlink reports a symlink with target `t`
                  by_cases hig : flags.ignoreSymlinks = true
                  · rw [if_pos hig,
                      show readlink_empty fs (cstr bufc.data) = .ok () from by
                        simp [readlink_empty, hcstr, hrl]] at h
                    dsimp only at h
                    rw [if_pos rfl] at h
                    refine hfin ?_ h
                    unfold NameOK
                    rw [hrl]
                    exact hig
                  · rw [if_neg hig, hcstr, hrl] at h
                    unfold Stack.pushReadlinkRes at h
                    by_cases hi0 : st2.i = 0
                    · rw [if_pos hi0] at h
                      dsimp only at h
                      rw [if_neg (show ¬ (ENAMETOOLONG : Int) = EINVAL from
                            by decide),
                        if_neg (show ¬ (((ENAMETOOLONG : Int) = ENOENT ∨
                            (ENAMETOOLONG : Int) = EACCES ∨
                            (ENAMETOOLONG : Int) = ENOTDIR) ∧
                            flags.allowMissing = true) from by
                          rintro ⟨h3, _⟩
                          rcases h3 with h3 | h3 | h3 <;> revert h3 <;> decide),
                        if_neg (show ¬ ((ENAMETOOLONG : Int) = ENOENT ∧
                            flags.allowLastMissing = true ∧
                            st2.isEmpty = true ∧ iterIsEmpty it2 = true) from by
                          rintro ⟨h3, _⟩
                          revert h3
                          decide)] at h
                      exact absurd h (by simp)
                    · rw [if_neg hi0] at h
                      dsimp only at h
                      by_cases hl2 : st2.i - 1 ≤ min t.length st2.i
                      · rw [if_pos hl2] at h
                        dsimp only at h
                        rw [if_neg (show ¬ (ENAMETOOLONG : Int) = EINVAL from
                              by decide),
                          if_neg (show ¬ (((ENAMETOOLONG : Int) = ENOENT ∨
                              (ENAMETOOLONG : Int) = EACCES ∨
                              (ENAMETOOLONG : Int) = ENOTDIR) ∧
                              flags.allowMissing = true) from by
                            rintro ⟨h3, _⟩
                            rcases h3 with h3 | h3 | h3 <;> revert h3 <;> decide),
                          if_neg (show ¬ ((ENAMETOOLONG : Int) = ENOENT ∧
                              flags.allowLastMissing = true ∧
                              st2.isEmpty = true ∧ iterIsEmpty it2 = true) from by
                            rintro ⟨h3, _⟩
                            revert h3
                            decide)] at h
                        exact absurd h (by simp)
                      · rw [if_neg hl2] at h
                        dsimp only at h
                        rcases hadv : advanceLinks fs.symloopMax links2
                            with e2 | links3 <;> rw [hadv] at h <;>
                          dsimp only at h
                        · exact absurd h (by simp)
                        · have htr : (bufc.truncate buf.len).data
                              = restFold B done := by
                            obtain ⟨Y, hY⟩ := hdpre
                            rw [SliceVec.truncate_data, hdc2, hY,
                              List.append_assoc,
                              List.take_left'
                                (by rw [SliceVec.data_length buf hInv]),
                              hdata]
                          exact ih _ it2 _ links3 hit2
                            (truncate_inv bufc buf.len hIc)
                            ⟨B, done, hB, hdwf, htr, hAF⟩ h
              · rw [SliceVec.push_err _ nulB (by omega)] at hpn
                exact absurd hpn (by simp)
            · rw [SliceVec.extend_err bufa c (by omega)] at hex
              exact absurd hex (by simp)
          by_cases hsep : buf.data = [slashB] ∨ buf.data = [slashB, slashB] ∨
              buf.data = []
          · rw [if_pos hsep] at h
            dsimp only at h
            exact hcont buf hInv (by unfold appendC; rw [if_pos hsep]) hdnul h
          · rw [if_neg hsep] at h
            rcases hps : buf.push slashB with e | bufa <;> rw [hps] at h
            · exact absurd h (by simp)
            by_cases hfit : buf.len < buf.capacity
            · rw [SliceVec.push_ok buf slashB hfit] at hps
              simp only [Except.ok.injEq] at hps
              subst hps
              dsimp only at h
              have hda : (SliceVec.mk (buf.buf.set buf.len slashB)
                  (buf.len + 1)).data = buf.data ++ [slashB] :=
                SliceVec.push_ok_data buf slashB hfit
              have hIa : (SliceVec.mk (buf.buf.set buf.len slashB)
                  (buf.len + 1)).Inv := by
                have h2 := push_invOk buf slashB
                rw [SliceVec.push_ok buf slashB hfit] at h2
                exact h2
              refine hcont _ hIa ?_ ?_ h
              · rw [hda]
                unfold appendC
                rw [if_neg hsep]
                simp
              · rw [hda]
                intro hm
                rcases List.mem_append.mp hm with hm | hm
                · exact hdnul hm
                · exact absurd (List.mem_singleton.mp hm)
                    (by simp [nulB, slashB])
            · rw [SliceVec.push_err buf slashB (by omega)] at hps
              exact absurd hps (by simp)
    rw [rpLoopF_succ_eq] at h
    rcases hsn : Stack.next st with ⟨oc, st2⟩
    rw [hsn] at h
    rcases oc with _ | c
    · rcases hin : ComponentIter.next it with ⟨oci, it2⟩
      rw [hin] at h
      rcases oci with _ | c
      · dsimp only at h
        simp only [Except.ok.injEq, Prod.mk.injEq] at h
        obtain ⟨h1, _⟩ := h
        rw [← h1]
        exact ⟨⟨B, done, hB, hdwf, hdata,
          restOK_of_allFalseR fs flags done B hAF⟩, hInv⟩
      · dsimp only at h
        have hcOK : compOK c := ci_nextF_out (it.length + 1) it c it2 hin
        have hcnul : ¬ nulB ∈ c := fun hm =>
          hitn (ci_next_comp_subset (it.length + 1) it c it2 hin nulB hm)
        have hit2 : ¬ nulB ∈ it2 := fun hm =>
          hitn (ci_next_subset (it.length + 1) it _ it2 hin nulB hm)
        exact hstep c st2 it2 links hcOK hcnul hit2 h
    · dsimp only at h
      obtain ⟨hcOK, hcnul⟩ := stack_next_some_out st c st2 hsn
      exact hstep c st2 it links hcOK hcnul hitn h

end RealpathExt

namespace RealpathExt

theorem dd_app_flat (k : Nat) (pr : List (List Nat))
    (hpr : ∀ c ∈ pr, ¬ c = [] ∧ ¬ slashB ∈ c) :
    ∀ c ∈ (List.replicate k [dotB, dotB] ++ pr : List (List Nat)),
      ¬ c = [] ∧ ¬ slashB ∈ c := by
  intro c hc
  rcases List.mem_append.mp hc with hc | hc
  · exact dd_flat k c hc
  · exact hpr c hc

theorem restOK_transfer_k (fs : Fs) (flags : Flags) (k : Nat)
    (names : List (List Nat)) (hwfN : ∀ c ∈ names, wfName c)
    (hrel : ∀ s, ¬ ([slashB].isPrefixOf s = true) →
      fs.readlink s = fs.readlink (absolutizeFromCwd fs.cwd s))
    (e : List Nat)
    (he : ∀ pr : List (List Nat), ¬ pr = [] → (∀ c ∈ pr, wfName c) →
      absolutizeFromCwd fs.cwd
          (joinComps (List.replicate k [dotB, dotB] ++ pr))
        = restFold e pr)
    (hro : RestOK fs flags (joinComps (List.replicate k [dotB, dotB]))
      names) :
    RestOK fs flags e names := by
  refine restOK_align fs flags wfName names _ e hwfN ?_ hro
  intro pr hne hwfpr
  have hflatpr : ∀ c ∈ pr, ¬ c = [] ∧ ¬ slashB ∈ c :=
    fun c hc => ⟨(hwfpr c hc).1, (hwfpr c hc).2.1⟩
  rw [restFold_join_base pr _ (dd_flat k) hflatpr,
    hrel _ ( join_no_slash_prefix _ (dd_app_flat k pr hflatpr)),
    he pr hne hwfpr]

end RealpathExt

namespace RealpathExt

theorem join_dd_ne_nil (k : Nat) (hk : 1 ≤ k) :
    ¬ joinComps (List.replicate k [dotB, dotB]) = [] :=
  joinComps_ne_nil _ (by
      intro hx
      have := congrArg List.length hx
      simp [List.length_replicate] at this
      omega)
    (fun c hc => (dd_flat k c hc).1)

theorem join_dd_ne_dd (k : Nat) (hk : 2 ≤ k) :
    ¬ joinComps (List.replicate k [dotB, dotB]) = [dotB, dotB] := by
  obtain ⟨k1, rfl⟩ : ∃ k1, k = k1 + 2 := ⟨k - 2, by omega⟩
  rw [show (List.replicate (k1 + 2) [dotB, dotB] : List (List Nat))
      = List.replicate (k1 + 2) [dotB, dotB] ++ [] from by simp,
    join_dd_succ (k1 + 1) [] (by
      intro hx
      have := congrArg List.length hx
      simp [List.length_replicate] at this)]
  intro hx
  simp at hx

theorem realpathRawInner_run1G (fs : Fs) (flags : Flags)
    (p buf0 tmp0 q : List Nat)
    (hcwds : CwdSettled fs flags)
    (hrel : ∀ s, ¬ ([slashB].isPrefixOf s = true) →
      fs.readlink s = fs.readlink (absolutizeFromCwd fs.cwd s))
    (h : realpathRawInner fs flags p buf0 tmp0 = .ok q) :
    ResolvedForm fs flags q := by
  obtain ⟨cnames, hcwf, hcwdeq, hcAF⟩ := hcwds
  have hcnul : ¬ nulB ∈ fs.cwd :=
    cwd_nonul fs flags ⟨cnames, hcwf, hcwdeq, hcAF⟩
  have hcflat : ∀ c ∈ cnames, ¬ c = [] ∧ ¬ slashB ∈ c :=
    fun c hc => ⟨(hcwf c hc).1, (hcwf c hc).2.1⟩
  unfold realpathRawInner at h
  rcases hnew : ComponentIter.new p with e | it0 <;> rw [hnew] at h
  · exact absurd h (by simp)
  dsimp only at h
  have hvalid : it0 = p ∧ ¬ nulB ∈ p := by
    unfold ComponentIter.new at hnew
    by_cases h1 : p.isEmpty
    · rw [if_pos h1] at hnew
      exact absurd hnew (by simp)
    · rw [if_neg h1] at hnew
      by_cases h2 : p.contains nulB
      · rw [if_pos h2] at hnew
        exact absurd hnew (by simp)
      · rw [if_neg h2] at hnew
        simp only [Except.ok.injEq] at hnew
        refine ⟨hnew.symm, ?_⟩
        intro hm
        exact h2 (by simpa using hm)
  obtain ⟨hit0, hpnul⟩ := hvalid
  rw [hit0] at h
  clear hit0 hnew
  rcases hloop : rpLoopF fs flags
      ((fs.symloopMax + 1) * (tmp0.length + 2) + p.length + tmp0.length + 2)
      (Stack.new tmp0) p (SliceVec.empty buf0) 0 with e | ⟨bufL, stL⟩ <;>
    rw [hloop] at h
  · exact absurd h (by simp)
  dsimp only at h
  obtain ⟨⟨B, names, hB, hwfN, hdec, hro⟩, hIL⟩ :=
    rpLoopF_run1G fs flags bufL stL _ (Stack.new tmp0) p _ 0 hpnul
      (Nat.zero_le _)
      ⟨joinComps (List.replicate 0 [dotB, dotB]), [], Or.inr ⟨0, rfl⟩,
        by simp, by rw [SliceVec.empty_data]; rfl, trivial⟩ hloop
  have hflatN : ∀ x ∈ names, ¬ x = [] ∧ ¬ slashB ∈ x :=
    fun x hx => ⟨(hwfN x hx).1, (hwfN x hx).2.1⟩
  rcases hB with hrB | ⟨k, hkB⟩
  · -- a rooted final buffer: as in the absolute-input analysis
    have hdecJ : bufL.data = B ++ joinComps names := by
      rw [hdec, restFold_join B hrB names hflatN]
    have hhead : (B ++ joinComps names).head? = some slashB := by
      rcases hrB with hh | hh <;> rw [hh] <;> rfl
    rw [hdecJ] at h
    rw [if_neg (show ¬ (B ++ joinComps names) = [] from by
        intro hx
        rw [hx] at hhead
        simp at hhead),
      if_neg (show ¬ (B ++ joinComps names) = [dotB, dotB] from by
        intro hx
        rw [hx] at hhead
        simp [dotB, slashB] at hhead),
      if_neg (show ¬ ([dotB, dotB, slashB].isPrefixOf
          (B ++ joinComps names) = true) from by
        rw [List.isPrefixOf_iff_prefix]
        rintro ⟨t, ht⟩
        rw [← ht] at hhead
        simp [dotB, slashB] at hhead),
      if_neg (not_not_intro (show [slashB].isPrefixOf
          (B ++ joinComps names) = true from by
        rw [List.isPrefixOf_iff_prefix]
        rcases hrB with hh | hh <;> rw [hh]
        · exact ⟨joinComps names, rfl⟩
        · exact ⟨slashB :: joinComps names, rfl⟩))] at h
    rcases List.eq_nil_or_concat names with hN | ⟨init, nm, hN⟩
    · subst hN
      rw [if_pos (by
        rw [show joinComps ([] : List (List Nat)) = [] from rfl,
          List.append_nil]
        exact hrB)] at h
      simp only [Except.ok.injEq] at h
      rw [← h]
      exact ⟨B, [], hrB, by simp, rfl, trivial⟩
    · have hN2 : names = init ++ [nm] := by rw [hN, List.concat_eq_append]
      have hnmwf : wfName nm := hwfN nm (by rw [hN2]; simp)
      obtain ⟨hnm1, hnm2, hnm3, hnm4, hnm5⟩ := hnmwf
      have hsuf : nm <:+ B ++ joinComps names := by
        rw [hN2]
        exact last_name_suffix B init nm
      have hnotroot : ¬ (B ++ joinComps names = [slashB] ∨
          B ++ joinComps names = [slashB, slashB]) := by
        rcases hnmE : nm with _ | ⟨y, t2⟩
        · exact absurd hnmE hnm1
        rintro (hx | hx) <;>
          (have hx2 : y ∈ B ++ joinComps names :=
            hsuf.subset (by rw [hnmE]; simp)) <;>
          rw [hx] at hx2 <;> simp at hx2 <;> subst hx2 <;>
          exact hnm2 (by rw [hnmE]; simp)
      rw [if_neg hnotroot] at h
      rcases hmc : maybe_check_isdir fs flags p bufL
          with e | w <;> rw [hmc] at h
      · exact absurd h (by simp)
      dsimp only at h
      simp only [Except.ok.injEq] at h
      rw [← h, mcid_ok_data fs flags p bufL w hIL hmc, hdecJ]
      exact ⟨B, names, hrB, hwfN, rfl, hro⟩
  · -- a rootless final buffer: current-directory substitution
    subst hkB
    have hdecJ : bufL.data
        = joinComps (List.replicate k [dotB, dotB] ++ names) := by
      rw [hdec, restFold_join_base names _ (dd_flat k) hflatN]
    by_cases hne : names = []
    · subst hne
      rw [List.append_nil] at hdecJ
      rcases k with _ | ⟨_ | k2⟩
      · -- the loop produced an empty buffer: substitute the cwd
        rw [hdecJ] at h
        rw [if_pos (show joinComps (List.replicate 0 [dotB, dotB]) = []
          from rfl)] at h
        rcases hgw : getcwdInto fs bufL with e | w <;> rw [hgw] at h <;>
          dsimp only at h
        · exact absurd h (by simp)
        · obtain ⟨hwd, hwI, hwc⟩ := getcwdInto_ok_data fs bufL w hcnul hgw
          simp only [Except.ok.injEq] at h
          rw [← h, hwd, hcwdeq]
          exact ⟨[slashB], cnames, Or.inl rfl, hcwf, rfl,
            restOK_of_allFalseR fs flags cnames [slashB] hcAF⟩
      · -- the buffer holds a single dot-dot: cwd's lexical parent
        have hdd : bufL.data = [dotB, dotB] := hdecJ.trans rfl
        rw [hdd] at h
        rw [if_neg (by decide), if_pos rfl] at h
        rcases hgw : getcwdInto fs bufL with e | w <;> rw [hgw] at h <;>
          dsimp only at h
        · exact absurd h (by simp)
        · obtain ⟨hwd, hwI, hwc⟩ := getcwdInto_ok_data fs bufL w hcnul hgw
          rcases hmp : w.make_parent_path with e | w2 <;> rw [hmp] at h <;>
            dsimp only at h
          · exact absurd h (by simp)
          · have hspec := make_parent_path_eq_spec w hwI
            rw [hmp] at hspec
            by_cases hfit : (makeParentPathSpec w.data).length ≤ w.capacity
            · rw [if_pos hfit] at hspec
              simp only [Except.map, Except.ok.injEq] at hspec
              simp only [Except.ok.injEq] at h
              rw [← h, hspec, hwd, hcwdeq,
                mppSpec_rooted [slashB] cnames (Or.inl rfl) hcwf]
              exact ⟨[slashB], cnames.dropLast, Or.inl rfl,
                wf_dropLast cnames hcwf, rfl,
                restOK_of_allFalseR fs flags cnames.dropLast [slashB]
                  (allFalseR_dropLast fs flags cnames [slashB] hcAF)⟩
            · rw [if_neg hfit] at hspec
              exact absurd hspec (by simp [Except.map])
      · -- a pure dot-dot run of length at least two
        rw [hdecJ] at h
        have hdrop := dd_nil_drop (k2 + 1 + 1) (by omega)
        rw [show k2 + 1 + 1 - 1 = k2 + 1 from by omega] at hdrop
        rw [if_neg (join_dd_ne_nil (k2 + 1 + 1) (by omega)),
          if_neg (join_dd_ne_dd (k2 + 1 + 1) (by omega)),
          if_pos (by
            have := prefix_dd (k2 + 1 + 1) [] (by omega) (Or.inl (by omega))
            rwa [List.append_nil] at this)] at h
        rw [count_dd_nil (k2 + 1 + 1) (by omega)] at h
        rw [show k2 + 1 + 1 - 1 = k2 + 1 from by omega] at h
        rw [if_pos hdrop] at h
        dsimp only at h
        rcases hgw : getcwdInto fs (SliceVec.empty stL.region) with e | w <;>
          rw [hgw] at h <;> dsimp only at h
        · exact absurd h (by simp)
        · obtain ⟨hwd, hwI, hwc⟩ := getcwdInto_ok_data fs _ w hcnul hgw
          rcases hpi : parentIter (k2 + 1 + 1) w with e | w2 <;>
            rw [hpi] at h <;> dsimp only at h
          · exact absurd h (by simp)
          · obtain ⟨hw2d, hw2I⟩ := parentIter_ok (k2 + 1 + 1) w w2 hwI hpi
            rcases hins : bufL.clear.insert_from_slice 0 w2.data
                with e | w3 <;> rw [hins] at h <;> dsimp only at h
            · exact absurd h (by simp)
            · obtain ⟨hw3d, hw3I, hw3c⟩ :=
                insert0_ok bufL.clear w3 w2.data (clear_inv bufL) hins
              simp only [Except.ok.injEq] at h
              rw [← h, hw3d, SliceVec.clear_data, List.append_nil,
                hw2d, hwd, hcwdeq,
                parentN_rooted [slashB] (Or.inl rfl) (k2 + 1 + 1) cnames hcwf]
              exact ⟨[slashB], dropLastN (k2 + 1 + 1) cnames, Or.inl rfl,
                wf_dropLastN (k2 + 1 + 1) cnames hcwf, rfl,
                restOK_of_allFalseR fs flags _ [slashB]
                  (allFalseR_dropLastN fs flags (k2 + 1 + 1) [slashB]
                    cnames hcAF)⟩
    · by_cases hk0 : k = 0
      · -- no leading dot-dots survive: prefix the cwd verbatim
        subst hk0
        have hdecJ2 : bufL.data = joinComps names := hdecJ.trans rfl
        rw [hdecJ2] at h
        rw [if_neg (joinComps_ne_nil names hne (fun c hc => (hflatN c hc).1)),
          if_neg (join_names_ne_dd names hwfN hne),
          if_neg ( names_no_ddslash_prefix names hwfN),
          if_pos ( join_no_slash_prefix names hflatN)] at h
        rcases hmc : maybe_check_isdir fs flags p bufL with e | w <;>
          rw [hmc] at h <;> dsimp only at h
        · exact absurd h (by simp)
        · have hwd2 : w.data = joinComps names := by
            rw [mcid_ok_data fs flags p bufL w hIL hmc, hdecJ2]
          have hwI : w.Inv := mcid_ok_inv fs flags p bufL w hIL hmc
          rcases hgw : getcwdInto fs (SliceVec.empty stL.region).clear
              with e | w2 <;> rw [hgw] at h <;> dsimp only at h
          · exact absurd h (by simp)
          · obtain ⟨hw2d, hw2I, _⟩ := getcwdInto_ok_data fs _ w2 hcnul hgw
            rcases hps : w2.push slashB with e | w3 <;> rw [hps] at h <;>
              dsimp only at h
            · exact absurd h (by simp)
            · by_cases hfit : w2.len < w2.capacity
              · rw [SliceVec.push_ok w2 slashB hfit] at hps
                simp only [Except.ok.injEq] at hps
                have hw3d : w3.data = fs.cwd ++ [slashB] := by
                  rw [← hps, SliceVec.push_ok_data w2 slashB hfit, hw2d]
                have hw3I : w3.Inv := by
                  have h2 := push_invOk w2 slashB
                  rw [SliceVec.push_ok w2 slashB hfit] at h2
                  rw [← hps]
                  exact h2
                rcases hins : w.insert_from_slice 0 w3.data with e | w4 <;>
                  rw [hins] at h <;> dsimp only at h
                · exact absurd h (by simp)
                · obtain ⟨hw4d, _, _⟩ := insert0_ok w w4 w3.data hwI hins
                  simp only [Except.ok.injEq] at h
                  rw [← h, hw4d, hw3d, hwd2, hcwdeq]
                  by_cases hcn : cnames = []
                  · subst hcn
                    refine ⟨[slashB, slashB], names, Or.inr rfl, hwfN,
                      by rfl, ?_⟩
                    refine restOK_transfer_k fs flags 0 names hwfN hrel
                      [slashB, slashB] ?_ hro
                    intro pr hprne hprwf
                    have hflatpr : ∀ c ∈ pr, ¬ c = [] ∧ ¬ slashB ∈ c :=
                      fun c hc => ⟨(hprwf c hc).1, (hprwf c hc).2.1⟩
                    rw [show joinComps (List.replicate 0 [dotB, dotB] ++ pr)
                        = joinComps pr from rfl,
                      abs_names fs.cwd pr hprwf hprne, hcwdeq,
                      restFold_join [slashB, slashB] (Or.inr rfl) pr hflatpr]
                    rfl
                  · refine ⟨[slashB], cnames ++ names, Or.inl rfl, ?_, ?_, ?_⟩
                    · intro c hc
                      rcases List.mem_append.mp hc with hc | hc
                      · exact hcwf c hc
                      · exact hwfN c hc
                    · rw [joinComps_append cnames names hcn hne]
                      simp [List.append_assoc]
                    · refine restOK_append fs flags cnames names [slashB]
                        hcAF ?_
                      rw [restFold_join [slashB] (Or.inl rfl) cnames hcflat]
                      refine restOK_transfer_k fs flags 0 names hwfN hrel
                        _ ?_ hro
                      intro pr hprne hprwf
                      have hflatpr : ∀ c ∈ pr, ¬ c = [] ∧ ¬ slashB ∈ c :=
                        fun c hc => ⟨(hprwf c hc).1, (hprwf c hc).2.1⟩
                      rw [show joinComps (List.replicate 0 [dotB, dotB] ++ pr)
                          = joinComps pr from rfl,
                        abs_names fs.cwd pr hprwf hprne, hcwdeq,
                        restFold_join_from [slashB] (Or.inl rfl) pr cnames
                          hcflat hflatpr,
                        joinComps_append cnames pr hcn hprne,
                        List.append_assoc]
              · rw [SliceVec.push_err w2 slashB (by omega)] at hps
                exact absurd hps (by simp)
      · -- surviving leading dot-dots: collapse them against the cwd
        have hk1 : 1 ≤ k := by omega
        rw [hdecJ] at h
        have hjne : ¬ joinComps (List.replicate k [dotB, dotB] ++ names)
            = [] :=
          joinComps_ne_nil _ (by simp [hne])
            (fun c hc => (dd_app_flat k names hflatN c hc).1)
        have hnedd2 : ¬ joinComps (List.replicate k [dotB, dotB] ++ names)
            = [dotB, dotB] := by
          obtain ⟨k1, rfl⟩ : ∃ k1, k = k1 + 1 := ⟨k - 1, by omega⟩
          rw [join_dd_succ k1 names (by simp [hne])]
          intro hx
          simp at hx
        rw [if_neg hjne, if_neg hnedd2,
          if_pos (prefix_dd k names hk1 (Or.inr hne))] at h
        rw [count_dd k names hwfN hne] at h
        rw [if_neg (by
          rw [drop_dd k names hne]
          exact join_names_ne_dd names hwfN hne)] at h
        rcases hmc : maybe_check_isdir fs flags p bufL with e | w <;>
          rw [hmc] at h <;> dsimp only at h
        · exact absurd h (by simp)
        · have hwd2 : w.data
              = joinComps (List.replicate k [dotB, dotB] ++ names) := by
            rw [mcid_ok_data fs flags p bufL w hIL hmc, hdecJ]
          have hwI : w.Inv := mcid_ok_inv fs flags p bufL w hIL hmc
          rcases hgw : getcwdInto fs (SliceVec.empty stL.region)
              with e | w2 <;> rw [hgw] at h <;> dsimp only at h
          · exact absurd h (by simp)
          · obtain ⟨hw2d, hw2I, _⟩ := getcwdInto_ok_data fs _ w2 hcnul hgw
            rcases hpi : parentIter k w2 with e | w3 <;> rw [hpi] at h <;>
              dsimp only at h
            · exact absurd h (by simp)
            · obtain ⟨hw3d, hw3I⟩ := parentIter_ok k w2 w3 hw2I hpi
              rcases hins : (w.remove_range 0 (k * 3 - 1)).insert_from_slice
                  0 w3.data with e | w4 <;> rw [hins] at h <;> dsimp only at h
              · exact absurd h (by simp)
              · obtain ⟨hw4d, _, _⟩ := insert0_ok _ w4 w3.data
                  (remove_range0_inv w (k * 3 - 1) hwI) hins
                simp only [Except.ok.injEq] at h
                have hremd : (w.remove_range 0 (k * 3 - 1)).data
                    = slashB :: joinComps names := by
                  rw [remove_range0_data w (k * 3 - 1) hwI, hwd2,
                    drop_dd_sep k names hk1 hne]
                rw [← h, hw4d, hremd, hw3d, hw2d, hcwdeq,
                  parentN_rooted [slashB] (Or.inl rfl) k cnames hcwf]
                by_cases hCN : dropLastN k cnames = []
                · rw [hCN]
                  refine ⟨[slashB, slashB], names, Or.inr rfl, hwfN,
                    by rfl, ?_⟩
                  refine restOK_transfer_k fs flags k names hwfN hrel
                    [slashB, slashB] ?_ hro
                  intro pr hprne hprwf
                  have hflatpr : ∀ c ∈ pr, ¬ c = [] ∧ ¬ slashB ∈ c :=
                    fun c hc => ⟨(hprwf c hc).1, (hprwf c hc).2.1⟩
                  rw [abs_dd_names fs.cwd k pr hk1 hprne hprwf, hcwdeq,
                    parentN_rooted [slashB] (Or.inl rfl) k cnames hcwf, hCN,
                    restFold_join [slashB, slashB] (Or.inr rfl) pr hflatpr]
                  rfl
                · have hCNwf : ∀ c ∈ dropLastN k cnames, wfName c :=
                    wf_dropLastN k cnames hcwf
                  have hCNflat : ∀ c ∈ dropLastN k cnames,
                      ¬ c = [] ∧ ¬ slashB ∈ c :=
                    fun c hc => ⟨(hCNwf c hc).1, (hCNwf c hc).2.1⟩
                  refine ⟨[slashB], dropLastN k cnames ++ names, Or.inl rfl,
                    ?_, ?_, ?_⟩
                  · intro c hc
                    rcases List.mem_append.mp hc with hc | hc
                    · exact hCNwf c hc
                    · exact hwfN c hc
                  · rw [joinComps_append (dropLastN k cnames) names hCN hne,
                      List.append_assoc]
                  · refine restOK_append fs flags (dropLastN k cnames) names
                      [slashB] (allFalseR_dropLastN fs flags k [slashB]
                        cnames hcAF) ?_
                    rw [restFold_join [slashB] (Or.inl rfl)
                      (dropLastN k cnames) hCNflat]
                    refine restOK_transfer_k fs flags k names hwfN hrel
                      _ ?_ hro
                    intro pr hprne hprwf
                    have hflatpr : ∀ c ∈ pr, ¬ c = [] ∧ ¬ slashB ∈ c :=
                      fun c hc => ⟨(hprwf c hc).1, (hprwf c hc).2.1⟩
                    rw [abs_dd_names fs.cwd k pr hk1 hprne hprwf, hcwdeq,
                      parentN_rooted [slashB] (Or.inl rfl) k cnames hcwf,
                      restFold_join_from [slashB] (Or.inl rfl) pr
                        (dropLastN k cnames) hCNflat hflatpr,
                      joinComps_append (dropLastN k cnames) pr hCN hprne,
                      List.append_assoc]

end RealpathExt

namespace RealpathExt

/-- Claim C5: re-resolution is the identity on resolved outputs — if
`realpath_raw` succeeds on `p` with output `q`, then running it again on
`q`, with the same flags, the same (unchanged) filesystem oracle, and an
output buffer with at least two bytes of headroom over `q` (for the drain
loop's separator and NUL terminator), succeeds and returns exactly `q`.
For an absolute `p` this holds outright.  A relative `p` is resolved
against the current directory that the oracle reports, so for it the
conclusion holds whenever that report is coherent: the cwd is itself a
settled single-slash-rooted path (`CwdSettled`), and `readlink` answers
the same on a rootless query as on its cwd-absolutized form
(`absolutizeFromCwd`), which is how the code itself completes such paths
in post-processing. -/
theorem C5_idempotent (fs : Fs) (flags : Flags) (p q b1 b2 : List Nat)
    (h : realpath_raw fs p b1 flags = .ok q)
    (hcap : q.length + 2 ≤ b2.length) :
    (p.head? = some slashB → realpath_raw fs q b2 flags = .ok q) ∧
    (CwdSettled fs flags →
      (∀ s, ¬ ([slashB].isPrefixOf s = true) →
        fs.readlink s = fs.readlink (absolutizeFromCwd fs.cwd s)) →
      realpath_raw fs q b2 flags = .ok q) := by
  constructor
  · intro habs
    unfold realpath_raw at h ⊢
    obtain ⟨root2, names, hr, hwf, hq, hro⟩ :=
      realpathRawInner_run1 fs flags p b1 (List.replicate (PATH_MAX + 100) 0)
        q habs h
    subst hq
    refine resolved_reresolve fs flags root2 names b2 _ hr hwf hro ?_ ?_
    · intro hx
      have h2 := congrArg List.length hx
      rw [List.length_replicate] at h2
      simp [PATH_MAX] at h2
    · have h2 := List.length_append root2 (joinComps names)
      omega
  · intro hcwds hrel
    unfold realpath_raw at h ⊢
    obtain ⟨root2, names, hr, hwf, hq, hro⟩ :=
      realpathRawInner_run1G fs flags p b1 (List.replicate (PATH_MAX + 100) 0)
        q hcwds hrel h
    subst hq
    refine resolved_reresolve fs flags root2 names b2 _ hr hwf hro ?_ ?_
    · intro hx
      have h2 := congrArg List.length hx
      rw [List.length_replicate] at h2
      simp [PATH_MAX] at h2
    · have h2 := List.length_append root2 (joinComps names)
      omega

/-- Witness for C5: on a filesystem whose oracle settles every query with
`EINVAL` (nothing is a symlink) and reports the directory `/d` as cwd,
`/a` resolves to `/a`, and re-resolving that output through the
coherence-hypothesized part of the theorem reproduces it. -/
theorem C5_witness :
    realpath_raw fsFileA [slashB, 97] [0, 0, 0] Flags.empty
      = .ok [slashB, 97] ∧
    realpath_raw fsFileA [slashB, 97] [0, 0, 0, 0] Flags.empty
      = .ok [slashB, 97] :=
  ⟨realpath_fsFileA_small.2,
    (C5_idempotent fsFileA Flags.empty [slashB, 97] [slashB, 97]
      [0, 0, 0] [0, 0, 0, 0] realpath_fsFileA_small.2 (by decide)).2
      ⟨[[100]], by
        intro c hc
        rw [List.mem_singleton] at hc
        rw [hc]
        exact ⟨by decide, by decide, by decide, by decide, by decide⟩,
        rfl, ⟨Or.inl rfl, trivial⟩⟩
      (fun s hs => rfl)⟩

end RealpathExt
